import Mathlib

/-!
# NeoPixelBus, ESP8266 cycle-count encoders

A shallow embedding of `NeoPixelesp8266.c`: the two single-bus encoders
`send_pixels_800` / `send_pixels_400` and the multi-bus encoder
`send_multibus_pixels_800`, run against a simulated cycle counter and a
recording GPIO sink.

* Memory is a function from addresses to bytes; pointers are addresses.
* The cycle counter is a true time in `Nat`; `_getCycleCount` returns it
  modulo `2^32`.  The simulated clock is a schedule `adv`: `adv k` cycles pass
  between read number `k` and read number `k+1`.
* Every counter read, byte load, cursor store and GPIO register write is
  recorded in a trace of `Event`s.
* The spin-wait loops carry a fuel argument (the largest number of counter
  reads a single wait may perform, and the largest number of outer-loop
  iterations); running out of fuel gives `none`.
* `F_CPU` comes from the build environment and is a parameter `F`; it is a
  32-bit constant, so the theorems about timing assume `F < 2^32` and the
  cycle budgets then fit a `uint32_t`.
* `PixelBusInfo` is declared in `NeoPixelEsp8266.h`; the embedding has the
  three fields that the encoder reads.  The array `buses` and the local arrays
  `pixels[]` and `subpix[]` are functions from the index.
-/

namespace NeoPixel

/-! ## Machine words, clock and trace -/

/-- Number of values of a `uint32_t`: `2^32`. -/
def WORD : Nat := 4294967296

/-- Subtraction of two `uint32_t` values: `(a - b) mod 2^32`. -/
def sub32 (a b : Nat) : Nat := (a % WORD + WORD - b % WORD) % WORD

/-- Simulated cycle counter: `now` is the true time (unbounded) at which the
next `_getCycleCount()` executes, `reads` how many reads have happened. -/
structure Clock where
  now : Nat
  reads : Nat
deriving DecidableEq, Repr

/-- Everything the encoders do that is visible from outside. -/
inductive Event where
  /-- The first `_getCycleCount()` of a call, executed at true time `t`. -/
  | ccount (t : Nat)
  /-- One `_getCycleCount()` inside a spin-wait loop whose exit test compares
  the elapsed cycles with `thr`, executed at true time `t`. -/
  | poll (t : Nat) (thr : Nat)
  /-- A byte fetched from address `addr` (`*pixels`). -/
  | load (addr : Nat)
  /-- The store `pixels[bus]++` of the multi-bus encoder; `ptr` is the new value. -/
  | cursor (bus : Nat) (ptr : Nat)
  /-- Write of `mask` to `GPIO_OUT_W1TS_ADDRESS` (pins go high). -/
  | setHigh (mask : Nat)
  /-- Write of `mask` to `GPIO_OUT_W1TC_ADDRESS` (pins go low). -/
  | setLow (mask : Nat)
deriving DecidableEq, Repr

/-- The body of `_getCycleCount()`: returns the counter (true time mod `2^32`);
the clock then moves on by `adv reads` cycles until the next read. -/
def _getCycleCount (adv : Nat → Nat) (c : Clock) : Nat × Clock :=
  (c.now % WORD, { now := c.now + adv c.reads, reads := c.reads + 1 })

/-! ## Cycle budgets (lines 36-41) -/

/-- High time of a `0` bit, 800 kHz class: `F_CPU / 2500000`. -/
def CYCLES_800_T0H (F : Nat) : Nat := F / 2500000

/-- High time of a `1` bit, 800 kHz class: `F_CPU / 1250000`. -/
def CYCLES_800_T1H (F : Nat) : Nat := F / 1250000

/-- Bit period, 800 kHz class: `F_CPU / 800000`. -/
def CYCLES_800 (F : Nat) : Nat := F / 800000

/-- High time of a `0` bit, 400 kHz class: `F_CPU / 2000000`. -/
def CYCLES_400_T0H (F : Nat) : Nat := F / 2000000

/-- High time of a `1` bit, 400 kHz class: `F_CPU / 833333`. -/
def CYCLES_400_T1H (F : Nat) : Nat := F / 833333

/-- Bit period, 400 kHz class: `F_CPU / 400000`. -/
def CYCLES_400 (F : Nat) : Nat := F / 400000

/-- The macro `_BV(pin)` stored into a `uint32_t`. -/
def _BV (pin : Nat) : Nat := (1 <<< pin) % WORD

/-- Values taken by `bitMask` in `for (bitMask = 0x80; bitMask != 0; bitMask >>= 1)`. -/
def bitMasks : List Nat := [0x80, 0x40, 0x20, 0x10, 0x08, 0x04, 0x02, 0x01]

/-! ## Spin-wait -/

/-- The loop `do { now = _getCycleCount(); } while ((now - ref) < thr);`.
Returns the last value read, the clock after it and the reads performed. -/
def spinWait (adv : Nat → Nat) (ref thr : Nat) :
    Nat → Clock → Option (Nat × Clock × List Event)
  | 0, _ => none
  | fuel + 1, c =>
    let r := _getCycleCount adv c
    if sub32 r.1 ref < thr then
      match spinWait adv ref thr fuel r.2 with
      | none => none
      | some (v, c', evs) => some (v, c', Event.poll c.now thr :: evs)
    else
      some (r.1, r.2, [Event.poll c.now thr])

/-! ## Single-bus encoders -/

/-- The `for (bitMask ...)` loop shared, textually, by `send_pixels_800` and
`send_pixels_400`: for each mask pick `cyclesBit`, wait for the bit period
boundary counted from the previous rising edge `cyclesStart`, set the pin
high, wait `cyclesBit` from the new rising edge, set the pin low.
Returns the last `cyclesStart`, the clock and the events. -/
def sendBits (adv : Nat → Nat) (fuel : Nat) (period t0h t1h : Nat)
    (pinRegister subpix : Nat) :
    List Nat → Nat → Clock → Option (Nat × Clock × List Event)
  | [], cyclesStart, c => some (cyclesStart, c, [])
  | bitMask :: rest, cyclesStart, c =>
    let cyclesBit := if subpix &&& bitMask ≠ 0 then t1h else t0h
    let cyclesNext := cyclesStart
    match spinWait adv cyclesNext period fuel c with
    | none => none
    | some (cyclesStart1, c1, e1) =>
      match spinWait adv cyclesStart1 cyclesBit fuel c1 with
      | none => none
      | some (_, c2, e2) =>
        match sendBits adv fuel period t0h t1h pinRegister subpix rest cyclesStart1 c2 with
        | none => none
        | some (cs, c3, e3) =>
          some (cs, c3,
            e1 ++ Event.setHigh pinRegister :: (e2 ++ Event.setLow pinRegister :: e3))

/-- The `do { ... } while (pixels < end);` loop of `send_pixels_800`
(lines 52-83); `n` bounds the number of iterations. -/
def loop800 (F : Nat) (adv : Nat → Nat) (fuel : Nat) (mem : Nat → Nat)
    (end_ pinRegister : Nat) :
    Nat → Nat → Nat → Clock → Option (List Event)
  | 0, _, _, _ => none
  | n + 1, pixels, cyclesStart, c =>
    let subpix := mem pixels % 256
    let pixels1 := pixels + 1
    match sendBits adv fuel (CYCLES_800 F) (CYCLES_800_T0H F) (CYCLES_800_T1H F)
        pinRegister subpix bitMasks cyclesStart c with
    | none => none
    | some (cs, c1, e) =>
      if pixels1 < end_ then
        match loop800 F adv fuel mem end_ pinRegister n pixels1 cs c1 with
        | none => none
        | some e1 => some (Event.load pixels :: (e ++ e1))
      else some (Event.load pixels :: e)

/-- The function `send_pixels_800(pixels, end, pin)` (lines 43-90). -/
def send_pixels_800 (F : Nat) (adv : Nat → Nat) (fuel : Nat) (mem : Nat → Nat)
    (pixels end_ pin : Nat) (c : Clock) : Option (List Event) :=
  let pinRegister := _BV pin
  let r := _getCycleCount adv c
  let cyclesStart := sub32 r.1 (CYCLES_800 F)
  match loop800 F adv fuel mem end_ pinRegister fuel pixels cyclesStart r.2 with
  | none => none
  | some e => some (Event.ccount c.now :: e)

/-- The `while (pixels < end) { ... }` loop of `send_pixels_400`
(lines 101-130); `n` bounds the number of iterations. -/
def loop400 (F : Nat) (adv : Nat → Nat) (fuel : Nat) (mem : Nat → Nat)
    (end_ pinRegister : Nat) :
    Nat → Nat → Nat → Clock → Option (List Event)
  | 0, _, _, _ => none
  | n + 1, pixels, cyclesStart, c =>
    if pixels < end_ then
      let subpix := mem pixels % 256
      let pixels1 := pixels + 1
      match sendBits adv fuel (CYCLES_400 F) (CYCLES_400_T0H F) (CYCLES_400_T1H F)
          pinRegister subpix bitMasks cyclesStart c with
      | none => none
      | some (cs, c1, e) =>
        match loop400 F adv fuel mem end_ pinRegister n pixels1 cs c1 with
        | none => none
        | some e1 => some (Event.load pixels :: (e ++ e1))
    else some []

/-- The function `send_pixels_400(pixels, end, pin)` (lines 92-137). -/
def send_pixels_400 (F : Nat) (adv : Nat → Nat) (fuel : Nat) (mem : Nat → Nat)
    (pixels end_ pin : Nat) (c : Clock) : Option (List Event) :=
  let pinRegister := _BV pin
  let r := _getCycleCount adv c
  let cyclesStart := sub32 r.1 (CYCLES_400 F)
  match loop400 F adv fuel mem end_ pinRegister fuel pixels cyclesStart r.2 with
  | none => none
  | some e => some (Event.ccount c.now :: e)

/-! ## Multi-bus encoder -/

/-- The struct `PixelBusInfo` of `NeoPixelEsp8266.h`, with the three fields the
encoder reads: start of the buffer, end marker, pin mask. -/
structure PixelBusInfo where
  _pixels : Nat
  _end : Nat
  _pinRegister : Nat

/-- A store `a[i] = v` into a local array. -/
def setAt (a : Nat → Nat) (i v : Nat) : Nat → Nat :=
  fun j => if j = i then v else a j

/-- Lines 150-154: copy every bus's start pointer into `pixels[]` and OR the
pin masks into `pinRegistersAll`. -/
def initBuses (buses : Nat → PixelBusInfo) (countBuses : Nat) : (Nat → Nat) × Nat :=
  (List.range countBuses).foldl
    (fun st indexBus =>
      (setAt st.1 indexBus (buses indexBus)._pixels, st.2 ||| (buses indexBus)._pinRegister))
    (fun _ => 0, 0)

/-- Lines 164-167: `subpix[indexBus] = *pixels[indexBus]` for every bus. -/
def sampleBuses (mem : Nat → Nat) (pixels : Nat → Nat) (countBuses : Nat)
    (subpix : Nat → Nat) : (Nat → Nat) × List Event :=
  (List.range countBuses).foldl
    (fun st indexBus =>
      (setAt st.1 indexBus (mem (pixels indexBus) % 256),
        st.2 ++ [Event.load (pixels indexBus)]))
    (subpix, [])

/-- Lines 172-185: the pair `(pinRegisters1Bit, pinRegisters0Bit)`. -/
def splitBuses (buses : Nat → PixelBusInfo) (countBuses : Nat) (subpix : Nat → Nat)
    (bitMask : Nat) : Nat × Nat :=
  (List.range countBuses).foldl
    (fun st indexBus =>
      let pinRegister := (buses indexBus)._pinRegister
      if subpix indexBus &&& bitMask ≠ 0 then (st.1 ||| pinRegister, st.2)
      else (st.1, st.2 ||| pinRegister))
    (0, 0)

/-- Variables that change during a byte period of the multi-bus encoder. -/
structure MultiState where
  pixels : Nat → Nat
  indexNextBus : Nat
  morePixels : Bool
  cyclesStart : Nat
  clock : Clock

/-- Lines 224-233: the advance of `pixels[indexNextBus]`. -/
def advanceCursor (buses : Nat → PixelBusInfo) (countBuses : Nat) (s : MultiState) :
    MultiState × List Event :=
  if s.indexNextBus < countBuses then
    if s.pixels s.indexNextBus < (buses s.indexNextBus)._end then
      ({ s with pixels := setAt s.pixels s.indexNextBus (s.pixels s.indexNextBus + 1),
                morePixels := true,
                indexNextBus := s.indexNextBus + 1 },
        [Event.cursor s.indexNextBus (s.pixels s.indexNextBus + 1)])
    else ({ s with indexNextBus := s.indexNextBus + 1 }, [])
  else (s, [])

/-- Lines 169-243: the `for (bitMask ...)` loop of the multi-bus encoder. -/
def multiBits (F : Nat) (adv : Nat → Nat) (fuel : Nat) (buses : Nat → PixelBusInfo)
    (countBuses pinRegistersAll : Nat) (subpix : Nat → Nat) :
    List Nat → MultiState → Option (MultiState × List Event)
  | [], s => some (s, [])
  | bitMask :: rest, s =>
    let pinRegisters := splitBuses buses countBuses subpix bitMask
    let cyclesNext := s.cyclesStart
    match spinWait adv cyclesNext (CYCLES_800 F) fuel s.clock with
    | none => none
    | some (cyclesStart, c1, e1) =>
      match spinWait adv cyclesStart (CYCLES_800_T0H F) fuel c1 with
      | none => none
      | some (_, c2, e2) =>
        let a := advanceCursor buses countBuses s
        match spinWait adv cyclesStart (CYCLES_800_T1H F) fuel c2 with
        | none => none
        | some (_, c3, e3) =>
          match multiBits F adv fuel buses countBuses pinRegistersAll subpix rest
              { a.1 with cyclesStart := cyclesStart, clock := c3 } with
          | none => none
          | some (s1, e4) =>
            some (s1,
              e1 ++ Event.setHigh pinRegistersAll ::
                (e2 ++ Event.setLow pinRegisters.2 ::
                  (a.2 ++ (e3 ++ Event.setLow pinRegisters.1 :: e4))))

/-- Lines 158-245: the `do { ... } while (morePixels);` loop; `n` bounds the
number of iterations. -/
def multiLoop (F : Nat) (adv : Nat → Nat) (fuel : Nat) (mem : Nat → Nat)
    (buses : Nat → PixelBusInfo) (countBuses pinRegistersAll : Nat) :
    Nat → (Nat → Nat) → (Nat → Nat) → Nat → Clock → Option (List Event)
  | 0, _, _, _, _ => none
  | n + 1, pixels, subpix, cyclesStart, c =>
    let sampled := sampleBuses mem pixels countBuses subpix
    match multiBits F adv fuel buses countBuses pinRegistersAll sampled.1 bitMasks
        { pixels := pixels, indexNextBus := 0, morePixels := false,
          cyclesStart := cyclesStart, clock := c } with
    | none => none
    | some (s, e) =>
      if s.morePixels then
        match multiLoop F adv fuel mem buses countBuses pinRegistersAll n
            s.pixels sampled.1 s.cyclesStart s.clock with
        | none => none
        | some e1 => some (sampled.2 ++ (e ++ e1))
      else some (sampled.2 ++ e)

/-- The function `send_multibus_pixels_800(buses, countBuses)` (lines 139-252). -/
def send_multibus_pixels_800 (F : Nat) (adv : Nat → Nat) (fuel : Nat) (mem : Nat → Nat)
    (buses : Nat → PixelBusInfo) (countBuses : Nat) (c : Clock) : Option (List Event) :=
  let init := initBuses buses countBuses
  let r := _getCycleCount adv c
  let cyclesStart := sub32 r.1 (CYCLES_800 F)
  match multiLoop F adv fuel mem buses countBuses init.2 fuel init.1 (fun _ => 0)
      cyclesStart r.2 with
  | none => none
  | some e => some (Event.ccount c.now :: e)

/-- The reads of a spin-wait with threshold `thr` at the true times `ts`. -/
def polls (thr : Nat) (ts : List Nat) : List Event :=
  ts.map (fun t => Event.poll t thr)

/-! ## Reading a recorded trace -/

/-- The GPIO register writes of a trace, in order. -/
def gpioWrites : List Event → List Event
  | [] => []
  | Event.setHigh m :: es => Event.setHigh m :: gpioWrites es
  | Event.setLow m :: es => Event.setLow m :: gpioWrites es
  | _ :: es => gpioWrites es

/-- The addresses of the bytes fetched, in order. -/
def loads : List Event → List Nat
  | [] => []
  | Event.load a :: es => a :: loads es
  | _ :: es => loads es

/-- The counter reads made inside spin-wait loops, in order. -/
def spinReads : List Event → List Nat
  | [] => []
  | Event.poll t _ :: es => t :: spinReads es
  | _ :: es => spinReads es

/-- Timestamps of the pulses of a single-pin trace.  A GPIO write carries the
time of the counter read just before it (`last`); each set-low closes a pulse
`(rise, fall)` opened by the latest set-high. -/
def pulsesFrom : Nat → Nat → List Event → List (Nat × Nat)
  | _, _, [] => []
  | _, rise, Event.ccount t :: es => pulsesFrom t rise es
  | _, rise, Event.poll t _ :: es => pulsesFrom t rise es
  | last, _, Event.setHigh _ :: es => pulsesFrom last last es
  | last, rise, Event.setLow _ :: es => (rise, last) :: pulsesFrom last rise es
  | last, rise, _ :: es => pulsesFrom last rise es

/-- Pulses `(rise, fall)` of a trace, in true time. -/
def pulseTimes (tr : List Event) : List (Nat × Nat) := pulsesFrom 0 0 tr

/-- For each set-low write, the threshold of the spin-wait that preceded it. -/
def holdFrom : Nat → List Event → List Nat
  | _, [] => []
  | _, Event.poll _ thr :: es => holdFrom thr es
  | thr, Event.setLow _ :: es => thr :: holdFrom thr es
  | thr, _ :: es => holdFrom thr es

/-- The hold threshold used by each pulse of a trace. -/
def holdThresholds (tr : List Event) : List Nat := holdFrom 0 tr

/-- One byte from eight bits, most significant first. -/
def byteOfBits (bs : List Bool) : Nat :=
  bs.foldl (fun acc b => 2 * acc + (if b then 1 else 0)) 0

/-- Bits grouped eight at a time, each group read MSB-first; a trailing group
of fewer than eight bits is dropped. -/
def packBytes : List Bool → List Nat
  | b7 :: b6 :: b5 :: b4 :: b3 :: b2 :: b1 :: b0 :: rest =>
    byteOfBits [b7, b6, b5, b4, b3, b2, b1, b0] :: packBytes rest
  | _ => []

/-- Decoder of a single-pin trace: a pulse is a `1` iff its measured
high-duration reaches `t1h`. -/
def decodeBytes (t1h : Nat) (tr : List Event) : List Nat :=
  packBytes ((pulseTimes tr).map (fun p => decide (t1h ≤ p.2 - p.1)))

/-- The `n` bytes stored at addresses `pixels, pixels + 1, ...`, as `uint8_t`. -/
def bufferBytes (mem : Nat → Nat) : Nat → Nat → List Nat
  | _, 0 => []
  | pixels, n + 1 => mem pixels % 256 :: bufferBytes mem (pixels + 1) n

/-- The hold threshold of bit number `k` of the buffer at `pixels`: byte
`k / 8`, bit `7 - k % 8` (MSB first). -/
def bitThreshold (mem : Nat → Nat) (t0h t1h pixels k : Nat) : Nat :=
  if (mem (pixels + k / 8) % 256).testBit (7 - k % 8) then t1h else t0h

/-! ## Canonical shape of a single-bus trace -/

/-- One bit as it appears in a trace. -/
structure Pulse where
  /-- Hold threshold (`cyclesBit`) -/
  thr : Nat
  /-- Reads of the high-wait before the one that ended it -/
  waitHigh : List Nat
  /-- Time of the read that ended the high-wait -/
  rise : Nat
  /-- Reads of the low-wait before the one that ended it -/
  waitLow : List Nat
  /-- Time of the read that ended the low-wait -/
  fall : Nat

/-- Events of one bit. -/
def Pulse.events (period pin : Nat) (p : Pulse) : List Event :=
  (polls period p.waitHigh ++ [Event.poll p.rise period]) ++ Event.setHigh pin ::
    ((polls p.thr p.waitLow ++ [Event.poll p.fall p.thr]) ++ [Event.setLow pin])

/-- Events of a run of bits. -/
def bitsEvents (period pin : Nat) : List Pulse → List Event
  | [] => []
  | p :: ps => p.events period pin ++ bitsEvents period pin ps

/-- Events of a run of bytes, the first at address `pixels`. -/
def frameEvents (period pin : Nat) : Nat → List (List Pulse) → List Event
  | _, [] => []
  | pixels, ps :: rest =>
    Event.load pixels :: (bitsEvents period pin ps ++ frameEvents period pin (pixels + 1) rest)

/-- Thresholds chosen for the eight bits of `subpix`. -/
def byteThresholds (t0h t1h subpix : Nat) : List Nat :=
  bitMasks.map (fun bitMask => if subpix &&& bitMask ≠ 0 then t1h else t0h)

/-- Rising edge that the next bit is scheduled from. -/
def lastRise (prev : Option Nat) (ps : List Pulse) : Option Nat :=
  ps.foldl (fun _ p => some p.rise) prev

/-- Timing of a run of bits: every hold lasts between `thr` and `thr + d - 1`
cycles, every rising edge follows the previous one (`prev` for the first) by
between `period` and `period + d - 1` cycles. -/
def Timed (period d : Nat) : Option Nat → List Pulse → Prop
  | _, [] => True
  | prev, p :: ps =>
    (∀ r, prev = some r → r + period ≤ p.rise ∧ p.rise < r + period + d) ∧
    p.rise + p.thr ≤ p.fall ∧ p.fall < p.rise + p.thr + d ∧
    Timed period d (some p.rise) ps

/-- State between two bits: `cyclesStart` holds the previous rising edge and
the next read comes less than `period + d` cycles after it. -/
def Paced (period d : Nat) (prev : Option Nat) (cyclesStart : Nat) (c : Clock) : Prop :=
  ∀ r, prev = some r → cyclesStart = r % WORD ∧ r < c.now ∧ c.now < r + period + d

/-- Cycles of true time from the first counter read of a call to the counter
read before its last set-low write. -/
def blockingCycles (tr : List Event) : Nat :=
  match tr.head?, (pulseTimes tr).getLast? with
  | some (Event.ccount t0), some (_, f) => f - t0
  | _, _ => 0

/-! ## Canonical shape of a multi-bus trace -/

/-- Events other than counter reads. -/
def isData : Event → Bool
  | Event.ccount _ => false
  | Event.poll _ _ => false
  | _ => true

/-- The trace with the counter reads left out: loads, cursor stores and GPIO
writes, in program order. -/
def dataTrace (tr : List Event) : List Event := tr.filter isData

/-- OR of the pin masks of those buses `i < countBuses` for which `sel i`. -/
def orPins (buses : Nat → PixelBusInfo) (countBuses : Nat) (sel : Nat → Bool) : Nat :=
  (List.range countBuses).foldl
    (fun m i => if sel i then m ||| (buses i)._pinRegister else m) 0

/-- OR of the pin masks of all `countBuses` buses. -/
def allPins (buses : Nat → PixelBusInfo) (countBuses : Nat) : Nat :=
  (List.range countBuses).foldl (fun m i => m ||| (buses i)._pinRegister) 0

/-- Bus `i` exists and its cursor `cur i` is strictly before its `_end`. -/
def canAdvance (buses : Nat → PixelBusInfo) (countBuses : Nat) (cur : Nat → Nat)
    (i : Nat) : Bool :=
  decide (i < countBuses ∧ cur i < (buses i)._end)

/-- Data events of bit-index `k` (mask `0x80 >> k`) of a byte period in which
the sampled bytes are `subpix` and the cursors at the start are `cur`:
set-high of `high`, set-low of the buses whose bit is clear, the cursor store
of bus `k` if it can advance, set-low of the buses whose bit is set. -/
def bitPeriodData (buses : Nat → PixelBusInfo) (countBuses high : Nat)
    (subpix cur : Nat → Nat) (k : Nat) : List Event :=
  Event.setHigh high ::
    Event.setLow (orPins buses countBuses (fun i => subpix i &&& (0x80 >>> k) == 0)) ::
      ((if canAdvance buses countBuses cur k then [Event.cursor k (cur k + 1)] else []) ++
        [Event.setLow (orPins buses countBuses (fun i => subpix i &&& (0x80 >>> k) != 0))])

/-- Data events of a byte period that starts with the cursors `cur`: one load
per bus, then the eight bit periods. -/
def bytePeriodData (mem : Nat → Nat) (buses : Nat → PixelBusInfo) (countBuses : Nat)
    (cur : Nat → Nat) : List Event :=
  (List.range countBuses).map (fun i => Event.load (cur i)) ++
    (List.range 8).flatMap
      (bitPeriodData buses countBuses (allPins buses countBuses)
        (fun i => mem (cur i) % 256) cur)

/-- Cursors after a byte period that started with `cur`. -/
def nextCursors (buses : Nat → PixelBusInfo) (countBuses : Nat) (cur : Nat → Nat) :
    Nat → Nat :=
  fun i => if i < 8 ∧ canAdvance buses countBuses cur i then cur i + 1 else cur i

/-- Value of `morePixels` after a byte period that started with `cur`. -/
def anyAdvance (buses : Nat → PixelBusInfo) (countBuses : Nat) (cur : Nat → Nat) : Bool :=
  (List.range 8).any (canAdvance buses countBuses cur)

/-- Cursors at the start of the successive byte periods (at most `n` of them),
the first with cursors `cur`. -/
def periodCursors (buses : Nat → PixelBusInfo) (countBuses : Nat) :
    Nat → (Nat → Nat) → List (Nat → Nat)
  | 0, _ => []
  | n + 1, cur =>
    cur :: (if anyAdvance buses countBuses cur
            then periodCursors buses countBuses n (nextCursors buses countBuses cur)
            else [])

/-- Bytes still ahead of the cursors of the (at most eight) buses that are
advanced. -/
def remaining (buses : Nat → PixelBusInfo) (countBuses : Nat) (cur : Nat → Nat) : Nat :=
  ((List.range 8).map
    (fun i => if i < countBuses then (buses i)._end - cur i else 0)).sum

/-- One bit period of the multi-bus encoder as it appears in a trace: the
reads of its three spin-waits. -/
structure MultiBit where
  /-- Reads of the high-wait before the one that ended it -/
  waitHigh : List Nat
  /-- Time of the read that ended the high-wait -/
  rise : Nat
  /-- Reads of the `T0H` wait before the one that ended it -/
  wait0 : List Nat
  /-- Time of the read that ended the `T0H` wait -/
  fall0 : Nat
  /-- Reads of the `T1H` wait before the one that ended it -/
  wait1 : List Nat
  /-- Time of the read that ended the `T1H` wait -/
  fall1 : Nat

/-- All events of bit-index `k` of a byte period: `bitPeriodData` with the
counter reads of the three waits in their places. -/
def bitPeriodEvents (F : Nat) (buses : Nat → PixelBusInfo) (countBuses high : Nat)
    (subpix cur : Nat → Nat) (k : Nat) (b : MultiBit) : List Event :=
  (polls (CYCLES_800 F) b.waitHigh ++ [Event.poll b.rise (CYCLES_800 F)]) ++
    Event.setHigh high ::
      ((polls (CYCLES_800_T0H F) b.wait0 ++ [Event.poll b.fall0 (CYCLES_800_T0H F)]) ++
        Event.setLow (orPins buses countBuses (fun i => subpix i &&& (0x80 >>> k) == 0)) ::
          ((if canAdvance buses countBuses cur k then [Event.cursor k (cur k + 1)] else []) ++
            ((polls (CYCLES_800_T1H F) b.wait1 ++ [Event.poll b.fall1 (CYCLES_800_T1H F)]) ++
              [Event.setLow
                (orPins buses countBuses (fun i => subpix i &&& (0x80 >>> k) != 0))])))

/-- Events of consecutive bit periods, the first with bit-index `k`. -/
def bitPeriodsEvents (F : Nat) (buses : Nat → PixelBusInfo) (countBuses high : Nat)
    (subpix cur : Nat → Nat) : Nat → List MultiBit → List Event
  | _, [] => []
  | k, b :: bs =>
    bitPeriodEvents F buses countBuses high subpix cur k b ++
      bitPeriodsEvents F buses countBuses high subpix cur (k + 1) bs

/-- All events of a byte period that starts with the cursors `cur`. -/
def bytePeriodEvents (F : Nat) (mem : Nat → Nat) (buses : Nat → PixelBusInfo)
    (countBuses : Nat) (cur : Nat → Nat) (bs : List MultiBit) : List Event :=
  (List.range countBuses).map (fun i => Event.load (cur i)) ++
    bitPeriodsEvents F buses countBuses (allPins buses countBuses)
      (fun i => mem (cur i) % 256) cur 0 bs

/-- All events of the byte periods that start with the cursors `curs`. -/
def multiFrameEvents (F : Nat) (mem : Nat → Nat) (buses : Nat → PixelBusInfo)
    (countBuses : Nat) (curs : List (Nat → Nat)) (recs : List (List MultiBit)) : List Event :=
  (curs.zip recs).flatMap (fun x => bytePeriodEvents F mem buses countBuses x.1 x.2)

/-- Cursors on entry: the `_pixels` of each bus. -/
def startCursors (buses : Nat → PixelBusInfo) (countBuses : Nat) : Nat → Nat :=
  fun i => if i < countBuses then (buses i)._pixels else 0

/-- What is seen on the bus side of a multi-bus trace: byte fetches and GPIO
writes, each set-low tagged with the threshold of the spin-wait before it. -/
inductive BusEvent where
  /-- A byte fetched from address `addr` -/
  | sample (addr : Nat)
  /-- Set-high write of `mask` -/
  | rise (mask : Nat)
  /-- Set-low write of `mask`, issued after a spin-wait with threshold `wait` -/
  | fall (wait : Nat) (mask : Nat)
deriving DecidableEq, Repr

/-- Bus-side view of a trace; the first argument is the threshold of the
latest spin-wait read. -/
def busFrom : Nat → List Event → List BusEvent
  | _, [] => []
  | _, Event.poll _ thr :: es => busFrom thr es
  | thr, Event.load a :: es => BusEvent.sample a :: busFrom thr es
  | thr, Event.setHigh m :: es => BusEvent.rise m :: busFrom thr es
  | thr, Event.setLow m :: es => BusEvent.fall thr m :: busFrom thr es
  | thr, _ :: es => busFrom thr es

/-- Bus-side view of a whole trace. -/
def busView (tr : List Event) : List BusEvent := busFrom 0 tr

/-- Cursors of buses that move in lockstep: `j` bytes past each bus's start. -/
def lockstepCursors (buses : Nat → PixelBusInfo) (countBuses j : Nat) : Nat → Nat :=
  fun i => if i < countBuses then (buses i)._pixels + j else 0

/-- The two-bus scenario of the specification: bus 0 (pin mask 1) sends the
buffer `[0xFF]` stored at address 0, bus 1 (pin mask 2) sends the buffer
`[0x00]` stored at address 10; `_end` is one past the last byte. -/
def scenarioBuses : Nat → PixelBusInfo :=
  fun i => if i = 0 then ⟨0, 1, 1⟩ else ⟨10, 11, 2⟩

/-- Memory of the two-bus scenario: `0xFF` at address 0, `0x00` elsewhere. -/
def scenarioMem : Nat → Nat :=
  fun a => if a = 0 then 0xFF else 0x00

/-- A single bus (pin mask 1) with a buffer of `n` bytes at address 0. -/
def oneBus (n : Nat) : Nat → PixelBusInfo :=
  fun _ => ⟨0, n, 1⟩

/-- Nine buses of unequal lengths: bus `i` (pin mask `1 << i`) has a buffer of
`i % 3` bytes at address `10 * i`; `_end` is one past the last byte. -/
def unequalBuses : Nat → PixelBusInfo :=
  fun i => ⟨10 * i, 10 * i + i % 3, 1 <<< i⟩

/-- Where the cursor stores sit in a trace.  For each cursor store: the
threshold of the spin-wait whose read came last before it, the event just
before it and the event just after it. -/
def cursorSlotsFrom : Nat → Option Event → List Event →
    List (Nat × Option Event × Option Event)
  | _, _, [] => []
  | _, _, Event.poll t thr :: es => cursorSlotsFrom thr (some (Event.poll t thr)) es
  | thr, prev, Event.cursor i v :: es =>
    (thr, prev, es.head?) :: cursorSlotsFrom thr (some (Event.cursor i v)) es
  | thr, _, e :: es => cursorSlotsFrom thr (some e) es

/-- The slots of the cursor stores of a whole trace. -/
def cursorSlots (tr : List Event) : List (Nat × Option Event × Option Event) :=
  cursorSlotsFrom 0 none tr

/-- A cursor store that sits right after a set-low write issued after the
`T0H` wait and right before a counter read of the `T1H` wait. -/
def SlotAfterT0HLow (F : Nat) (s : Nat × Option Event × Option Event) : Prop :=
  ∃ m t, s = (CYCLES_800_T0H F, some (Event.setLow m),
    some (Event.poll t (CYCLES_800_T1H F)))

/-- The level of the output pins after the GPIO writes of a trace, from the
level `s` before it: a set-high write of `m` raises the pins of `m`, a
set-low write of `m` clears them, all other pins keep their level. -/
def pinsAfter : Nat → List Event → Nat
  | s, [] => s
  | s, Event.setHigh m :: es => pinsAfter (s ||| m) es
  | s, Event.setLow m :: es => pinsAfter (s ^^^ (s &&& m)) es
  | s, _ :: es => pinsAfter s es

/-- Bus events that are GPIO writes (not byte fetches). -/
def isPinWrite : BusEvent → Bool
  | BusEvent.sample _ => false
  | _ => true

/-! # Theorems -/

/-! ## Facts about the spin-wait -/

theorem sub32_mod_left (a b : Nat) : sub32 (a % WORD) b = sub32 a b := by
  unfold sub32 WORD; omega

/-- Unsigned subtraction recovers the true elapsed time across counter
overflow, as long as fewer than `2^32` cycles have passed. -/
theorem sub32_elapsed (t r : Nat) (h1 : r ≤ t) (h2 : t < r + WORD) :
    sub32 t (r % WORD) = t - r := by
  unfold sub32 WORD at *
  omega

/-- A spin-wait on a clock that advances between `1` and `d` cycles per read
cannot step over the exit window, so it ends; it ends at the first read whose
elapsed count reaches `thr`, at most `d - 1` cycles late. -/
theorem spinWait_spec (adv : Nat → Nat) (d ref thr : Nat)
    (hadv : ∀ k, 1 ≤ adv k ∧ adv k ≤ d) (hd : thr + d ≤ WORD) :
    ∀ (fuel : Nat) (c : Clock), 0 < fuel → thr < fuel + sub32 c.now ref →
      ∃ x c1 ts, spinWait adv ref thr fuel c
          = some ((c.now + x) % WORD, c1, polls thr ts ++ [Event.poll (c.now + x) thr])
        ∧ thr ≤ sub32 c.now ref + x
        ∧ (thr ≤ sub32 c.now ref → x = 0 ∧ ts = [])
        ∧ (sub32 c.now ref < thr → sub32 c.now ref + x < thr + d)
        ∧ c.now + x < c1.now ∧ c1.now ≤ c.now + x + d
        ∧ c1.reads = c.reads + ts.length + 1 := by
  intro fuel
  induction fuel with
  | zero =>
    intro c h0
    exact absurd h0 (Nat.lt_irrefl 0)
  | succ fuel ih =>
    intro c _ h
    have ha := hadv c.reads
    by_cases hlt : sub32 c.now ref < thr
    · have hstep : sub32 (c.now + adv c.reads) ref = sub32 c.now ref + adv c.reads := by
        unfold sub32 WORD at *; omega
      have h1 : thr < fuel + sub32 (c.now + adv c.reads) ref := by omega
      obtain ⟨x, c1, ts, hrun, hge, hz, hub, hn1, hn2, hr⟩ :=
        ih { now := c.now + adv c.reads, reads := c.reads + 1 } (by omega) h1
      refine ⟨adv c.reads + x, c1, c.now :: ts, ?_, ?_, ?_, ?_, ?_, ?_, ?_⟩
      · simp only [spinWait, _getCycleCount, sub32_mod_left, hlt, if_true]
        simp only [] at hrun
        rw [hrun]
        simp [polls, Nat.add_assoc]
      · simp only [] at hge; omega
      · intro h2; omega
      · intro _
        simp only [] at hge hz hub
        by_cases h3 : thr ≤ sub32 (c.now + adv c.reads) ref
        · have := (hz h3).1; omega
        · have := hub (by omega); omega
      · simp only [] at hn1; omega
      · simp only [] at hn2; omega
      · simp only [] at hr; simp; omega
    · refine ⟨0, { now := c.now + adv c.reads, reads := c.reads + 1 }, [], ?_, ?_, ?_, ?_, ?_, ?_, ?_⟩
      · simp [spinWait, _getCycleCount, sub32_mod_left, hlt, polls]
      · omega
      · intro _; exact ⟨rfl, rfl⟩
      · intro h2; omega
      · simp; omega
      · simp; omega
      · simp

/-! ## The bit loop -/

theorem sendBits_spec (adv : Nat → Nat) (d fuel period t0h t1h pin subpix : Nat)
    (hadv : ∀ k, 1 ≤ adv k ∧ adv k ≤ d) (hfuel : period < fuel)
    (h0 : t0h ≤ period) (h1 : t1h ≤ period) (hd : period + d ≤ WORD) :
    ∀ (masks : List Nat) (cs : Nat) (c : Clock),
      ∃ cs1 c1 ps, sendBits adv fuel period t0h t1h pin subpix masks cs c
          = some (cs1, c1, bitsEvents period pin ps)
        ∧ ps.map (fun p => p.thr)
            = masks.map (fun bitMask => if subpix &&& bitMask ≠ 0 then t1h else t0h)
        ∧ (period ≤ sub32 c.now cs →
            ∀ p, ps.head? = some p → p.rise = c.now ∧ p.waitHigh = [])
        ∧ (1 ≤ t0h → t0h ≤ t1h → t1h + d ≤ period →
            ∀ prev, Paced period d prev cs c →
              Timed period d prev ps ∧ Paced period d (lastRise prev ps) cs1 c1) := by
  intro masks
  induction masks with
  | nil =>
    intro cs c
    exact ⟨cs, c, [], rfl, rfl, fun _ p hp => by simp at hp,
      fun _ _ _ prev hp => ⟨trivial, hp⟩⟩
  | cons m rest ih =>
    intro cs c
    have hW : sub32 c.now cs < WORD := by unfold sub32 WORD; omega
    obtain ⟨x1, c1, ts1, hrun1, hge1, hz1, hub1, hn1, hn1b, -⟩ :=
      spinWait_spec adv d cs period hadv hd fuel c (by omega) (by omega)
    set T := if subpix &&& m ≠ 0 then t1h else t0h with hT
    have hTle : T ≤ period := by rw [hT]; split <;> assumption
    obtain ⟨x2, c2, ts2, hrun2, hge2, hz2, hub2, hn2, hn2b, -⟩ :=
      spinWait_spec adv d ((c.now + x1) % WORD) T hadv (by omega) fuel c1 (by omega) (by omega)
    obtain ⟨cs3, c3, ps, hrun3, hthr, -, htime⟩ := ih ((c.now + x1) % WORD) c2
    refine ⟨cs3, c3, ⟨T, ts1, c.now + x1, ts2, c1.now + x2⟩ :: ps, ?_, ?_, ?_, ?_⟩
    · simp only [sendBits, hrun1, ← hT, hrun2, hrun3, bitsEvents, Pulse.events]
      simp
    · simp [hthr, hT]
    · intro hp p hp1
      simp only [List.head?_cons, Option.some.injEq] at hp1
      subst hp1
      have := hz1 hp
      simp [this.1, this.2]
    · intro ht0 ht01 ht1 prev hpre
      have hT1 : 1 ≤ T ∧ T ≤ t1h := by rw [hT]; split <;> omega
      have hel : sub32 c1.now ((c.now + x1) % WORD) = c1.now - (c.now + x1) :=
        sub32_elapsed _ _ (by omega) (by unfold WORD at *; omega)
      have hnext : Paced period d (some (c.now + x1)) ((c.now + x1) % WORD) c2 := by
        intro r hr
        simp only [Option.some.injEq] at hr
        subst hr
        refine ⟨rfl, by omega, ?_⟩
        rw [hel] at hge2 hz2 hub2
        by_cases h : T ≤ c1.now - (c.now + x1)
        · have := (hz2 h).1; omega
        · have := hub2 (by omega); omega
      obtain ⟨ht, hp⟩ := htime ht0 ht01 ht1 (some (c.now + x1)) hnext
      refine ⟨⟨?_, ?_, ?_, ht⟩, ?_⟩
      · intro r hr
        obtain ⟨hcs, hlo, hhi⟩ := hpre r hr
        have he : sub32 c.now cs = c.now - r := by
          rw [hcs]; exact sub32_elapsed _ _ (by omega) (by unfold WORD at *; omega)
        rw [he] at hge1 hz1 hub1
        simp only []
        by_cases h : period ≤ c.now - r
        · have := (hz1 h).1; omega
        · have := hub1 (by omega); omega
      · rw [hel] at hge2; simp only []; omega
      · rw [hel] at hge2 hz2 hub2
        simp only []
        by_cases h : T ≤ c1.now - (c.now + x1)
        · have := (hz2 h).1; omega
        · have := hub2 (by omega); omega
      · simpa [lastRise] using hp

theorem Timed_append (period d : Nat) (ps qs : List Pulse) :
    ∀ prev, Timed period d prev (ps ++ qs)
      ↔ Timed period d prev ps ∧ Timed period d (lastRise prev ps) qs := by
  induction ps with
  | nil => intro prev; simp [Timed, lastRise]
  | cons p ps ih =>
    intro prev
    have e : lastRise prev (p :: ps) = lastRise (some p.rise) ps := rfl
    rw [e]
    show (_ ∧ _ ∧ _ ∧ Timed period d (some p.rise) (ps ++ qs)) ↔
      (_ ∧ _ ∧ _ ∧ Timed period d (some p.rise) ps) ∧ _
    rw [ih]
    tauto

/-- The byte loop of `send_pixels_800` sends `max 1 (end - pixels)` bytes. -/
theorem loop800_spec (F : Nat) (adv : Nat → Nat) (d fuel : Nat) (mem : Nat → Nat)
    (end_ pin : Nat)
    (hadv : ∀ k, 1 ≤ adv k ∧ adv k ≤ d) (hfuel : CYCLES_800 F < fuel)
    (hd : CYCLES_800 F + d ≤ WORD) :
    ∀ (n pixels cs : Nat) (c : Clock), end_ - (pixels + 1) < n →
      ∃ recs, loop800 F adv fuel mem end_ pin n pixels cs c
          = some (frameEvents (CYCLES_800 F) pin pixels recs)
        ∧ recs.map (fun ps => ps.map (fun p => p.thr))
            = (bufferBytes mem pixels (end_ - (pixels + 1) + 1)).map
                (byteThresholds (CYCLES_800_T0H F) (CYCLES_800_T1H F))
        ∧ (CYCLES_800 F ≤ sub32 c.now cs →
            ∀ p, recs.flatten.head? = some p → p.rise = c.now ∧ p.waitHigh = [])
        ∧ (1 ≤ CYCLES_800_T0H F → CYCLES_800_T1H F + d ≤ CYCLES_800 F →
            ∀ prev, Paced (CYCLES_800 F) d prev cs c →
              Timed (CYCLES_800 F) d prev recs.flatten) := by
  have h0 : CYCLES_800_T0H F ≤ CYCLES_800 F := by
    unfold CYCLES_800_T0H CYCLES_800; omega
  have h1 : CYCLES_800_T1H F ≤ CYCLES_800 F := by
    unfold CYCLES_800_T1H CYCLES_800; omega
  have h01 : CYCLES_800_T0H F ≤ CYCLES_800_T1H F := by
    unfold CYCLES_800_T0H CYCLES_800_T1H; omega
  intro n
  induction n with
  | zero => intro pixels cs c h; omega
  | succ n ih =>
    intro pixels cs c hn
    obtain ⟨cs1, c1, ps, hrun, hthr, hfirst, htime⟩ :=
      sendBits_spec adv d fuel (CYCLES_800 F) (CYCLES_800_T0H F) (CYCLES_800_T1H F) pin
        (mem pixels % 256) hadv hfuel h0 h1 hd bitMasks cs c
    have hps : ps ≠ [] := by
      intro h; rw [h] at hthr; simp [bitMasks] at hthr
    by_cases hmore : pixels + 1 < end_
    · obtain ⟨recs, hrun2, hthr2, -, htime2⟩ := ih (pixels + 1) cs1 c1 (by omega)
      refine ⟨ps :: recs, ?_, ?_, ?_, ?_⟩
      · simp [loop800, hrun, hmore, hrun2, frameEvents]
      · have e : end_ - (pixels + 1) + 1 = (end_ - (pixels + 1 + 1) + 1) + 1 := by omega
        rw [e]
        simp only [bufferBytes, List.map_cons, hthr2]
        rw [hthr]; rfl
      · intro hp p hp1
        apply hfirst hp
        cases ps with
        | nil => exact absurd rfl hps
        | cons q qs => simpa using hp1
      · intro ht0 ht1 prev hpre
        obtain ⟨ha, hb⟩ := htime ht0 h01 ht1 prev hpre
        rw [List.flatten_cons, Timed_append]
        refine ⟨ha, htime2 ht0 ht1 _ hb⟩
    · refine ⟨[ps], ?_, ?_, ?_, ?_⟩
      · simp [loop800, hrun, hmore, frameEvents]
      · have e : end_ - (pixels + 1) + 1 = 0 + 1 := by omega
        rw [e]
        simp only [bufferBytes, List.map_cons, List.map_nil]
        rw [hthr]; rfl
      · intro hp p hp1
        apply hfirst hp
        simpa using hp1
      · intro ht0 ht1 prev hpre
        simpa using (htime ht0 h01 ht1 prev hpre).1

/-- The byte loop of `send_pixels_400` sends `end - pixels` bytes. -/
theorem loop400_spec (F : Nat) (adv : Nat → Nat) (d fuel : Nat) (mem : Nat → Nat)
    (end_ pin : Nat)
    (hadv : ∀ k, 1 ≤ adv k ∧ adv k ≤ d) (hfuel : CYCLES_400 F < fuel)
    (hd : CYCLES_400 F + d ≤ WORD) :
    ∀ (n pixels cs : Nat) (c : Clock), end_ - pixels < n →
      ∃ recs, loop400 F adv fuel mem end_ pin n pixels cs c
          = some (frameEvents (CYCLES_400 F) pin pixels recs)
        ∧ recs.map (fun ps => ps.map (fun p => p.thr))
            = (bufferBytes mem pixels (end_ - pixels)).map
                (byteThresholds (CYCLES_400_T0H F) (CYCLES_400_T1H F))
        ∧ (CYCLES_400 F ≤ sub32 c.now cs →
            ∀ p, recs.flatten.head? = some p → p.rise = c.now ∧ p.waitHigh = [])
        ∧ (1 ≤ CYCLES_400_T0H F → CYCLES_400_T1H F + d ≤ CYCLES_400 F →
            ∀ prev, Paced (CYCLES_400 F) d prev cs c →
              Timed (CYCLES_400 F) d prev recs.flatten) := by
  have h0 : CYCLES_400_T0H F ≤ CYCLES_400 F := by
    unfold CYCLES_400_T0H CYCLES_400; omega
  have h1 : CYCLES_400_T1H F ≤ CYCLES_400 F := by
    unfold CYCLES_400_T1H CYCLES_400; omega
  have h01 : CYCLES_400_T0H F ≤ CYCLES_400_T1H F := by
    unfold CYCLES_400_T0H CYCLES_400_T1H; omega
  intro n
  induction n with
  | zero => intro pixels cs c h; omega
  | succ n ih =>
    intro pixels cs c hn
    by_cases hmore : pixels < end_
    · obtain ⟨cs1, c1, ps, hrun, hthr, hfirst, htime⟩ :=
        sendBits_spec adv d fuel (CYCLES_400 F) (CYCLES_400_T0H F) (CYCLES_400_T1H F) pin
          (mem pixels % 256) hadv hfuel h0 h1 hd bitMasks cs c
      have hps : ps ≠ [] := by
        intro h; rw [h] at hthr; simp [bitMasks] at hthr
      obtain ⟨recs, hrun2, hthr2, -, htime2⟩ := ih (pixels + 1) cs1 c1 (by omega)
      refine ⟨ps :: recs, ?_, ?_, ?_, ?_⟩
      · simp [loop400, hrun, hmore, hrun2, frameEvents]
      · have e : end_ - pixels = (end_ - (pixels + 1)) + 1 := by omega
        rw [e]
        simp only [bufferBytes, List.map_cons, hthr2]
        rw [hthr]; rfl
      · intro hp p hp1
        apply hfirst hp
        cases ps with
        | nil => exact absurd rfl hps
        | cons q qs => simpa using hp1
      · intro ht0 ht1 prev hpre
        obtain ⟨ha, hb⟩ := htime ht0 h01 ht1 prev hpre
        rw [List.flatten_cons, Timed_append]
        refine ⟨ha, htime2 ht0 ht1 _ hb⟩
    · refine ⟨[], ?_, ?_, ?_, ?_⟩
      · simp [loop400, hmore, frameEvents]
      · have e : end_ - pixels = 0 := by omega
        rw [e]; rfl
      · intro _ p hp1; simp at hp1
      · intro _ _ prev _; simp [Timed]

/-- Canonical trace of `send_pixels_800` on a well-behaved clock. -/
theorem send_pixels_800_spec (F : Nat) (adv : Nat → Nat) (d fuel : Nat) (mem : Nat → Nat)
    (pixels end_ pin : Nat) (c : Clock)
    (hadv : ∀ k, 1 ≤ adv k ∧ adv k ≤ d) (hfuel : CYCLES_800 F < fuel)
    (hbytes : end_ - (pixels + 1) < fuel) (hd : CYCLES_800 F + d < WORD) :
    ∃ recs, send_pixels_800 F adv fuel mem pixels end_ pin c
        = some (Event.ccount c.now :: frameEvents (CYCLES_800 F) (_BV pin) pixels recs)
      ∧ recs.map (fun ps => ps.map (fun p => p.thr))
          = (bufferBytes mem pixels (end_ - (pixels + 1) + 1)).map
              (byteThresholds (CYCLES_800_T0H F) (CYCLES_800_T1H F))
      ∧ (∀ p, recs.flatten.head? = some p → p.rise = c.now + adv c.reads ∧ p.waitHigh = [])
      ∧ (1 ≤ CYCLES_800_T0H F → CYCLES_800_T1H F + d ≤ CYCLES_800 F →
          Timed (CYCLES_800 F) d none recs.flatten) := by
  obtain ⟨recs, hrun, hthr, hfirst, htime⟩ :=
    loop800_spec F adv d fuel mem end_ (_BV pin) hadv hfuel (Nat.le_of_lt hd) fuel pixels
      (sub32 (c.now % WORD) (CYCLES_800 F)) { now := c.now + adv c.reads, reads := c.reads + 1 }
      hbytes
  refine ⟨recs, ?_, hthr, ?_, ?_⟩
  · simp [send_pixels_800, _getCycleCount, hrun]
  · apply hfirst
    have := hadv c.reads
    show CYCLES_800 F ≤ sub32 (c.now + adv c.reads) (sub32 (c.now % WORD) (CYCLES_800 F))
    generalize CYCLES_800 F = P at *
    unfold sub32 WORD at *
    omega
  · intro ht0 ht1
    exact htime ht0 ht1 none (fun r hr => by simp at hr)

/-- Canonical trace of `send_pixels_400` on a well-behaved clock. -/
theorem send_pixels_400_spec (F : Nat) (adv : Nat → Nat) (d fuel : Nat) (mem : Nat → Nat)
    (pixels end_ pin : Nat) (c : Clock)
    (hadv : ∀ k, 1 ≤ adv k ∧ adv k ≤ d) (hfuel : CYCLES_400 F < fuel)
    (hbytes : end_ - pixels < fuel) (hd : CYCLES_400 F + d < WORD) :
    ∃ recs, send_pixels_400 F adv fuel mem pixels end_ pin c
        = some (Event.ccount c.now :: frameEvents (CYCLES_400 F) (_BV pin) pixels recs)
      ∧ recs.map (fun ps => ps.map (fun p => p.thr))
          = (bufferBytes mem pixels (end_ - pixels)).map
              (byteThresholds (CYCLES_400_T0H F) (CYCLES_400_T1H F))
      ∧ (∀ p, recs.flatten.head? = some p → p.rise = c.now + adv c.reads ∧ p.waitHigh = [])
      ∧ (1 ≤ CYCLES_400_T0H F → CYCLES_400_T1H F + d ≤ CYCLES_400 F →
          Timed (CYCLES_400 F) d none recs.flatten) := by
  obtain ⟨recs, hrun, hthr, hfirst, htime⟩ :=
    loop400_spec F adv d fuel mem end_ (_BV pin) hadv hfuel (Nat.le_of_lt hd) fuel pixels
      (sub32 (c.now % WORD) (CYCLES_400 F)) { now := c.now + adv c.reads, reads := c.reads + 1 }
      hbytes
  refine ⟨recs, ?_, hthr, ?_, ?_⟩
  · simp [send_pixels_400, _getCycleCount, hrun]
  · apply hfirst
    have := hadv c.reads
    show CYCLES_400 F ≤ sub32 (c.now + adv c.reads) (sub32 (c.now % WORD) (CYCLES_400 F))
    generalize CYCLES_400 F = P at *
    unfold sub32 WORD at *
    omega
  · intro ht0 ht1
    exact htime ht0 ht1 none (fun r hr => by simp at hr)

/-! ## Decoding canonical traces -/

theorem gpioWrites_append (xs ys : List Event) :
    gpioWrites (xs ++ ys) = gpioWrites xs ++ gpioWrites ys := by
  induction xs with
  | nil => rfl
  | cons e es ih => cases e <;> simp [gpioWrites, ih]

theorem gpioWrites_polls (thr : Nat) (ts : List Nat) : gpioWrites (polls thr ts) = [] := by
  induction ts with
  | nil => rfl
  | cons t ts ih => simpa [polls, gpioWrites] using ih

theorem gpioWrites_bits (period pin : Nat) (ps : List Pulse) :
    gpioWrites (bitsEvents period pin ps)
      = (List.replicate ps.length [Event.setHigh pin, Event.setLow pin]).flatten := by
  induction ps with
  | nil => rfl
  | cons p ps ih =>
    simp [bitsEvents, Pulse.events, gpioWrites_append, gpioWrites_polls, gpioWrites, ih,
      List.replicate_succ]

theorem gpioWrites_frame (period pin : Nat) (recs : List (List Pulse)) :
    ∀ a, gpioWrites (frameEvents period pin a recs)
      = (List.replicate recs.flatten.length [Event.setHigh pin, Event.setLow pin]).flatten := by
  induction recs with
  | nil => intro a; rfl
  | cons ps recs ih =>
    intro a
    simp only [frameEvents, gpioWrites, gpioWrites_append, gpioWrites_bits, ih,
      List.flatten_cons, List.length_append]
    rw [List.replicate_add, List.flatten_append]

theorem loads_append (xs ys : List Event) : loads (xs ++ ys) = loads xs ++ loads ys := by
  induction xs with
  | nil => rfl
  | cons e es ih => cases e <;> simp [loads, ih]

theorem loads_polls (thr : Nat) (ts : List Nat) : loads (polls thr ts) = [] := by
  induction ts with
  | nil => rfl
  | cons t ts ih => simpa [polls, loads] using ih

theorem loads_bits (period pin : Nat) (ps : List Pulse) :
    loads (bitsEvents period pin ps) = [] := by
  induction ps with
  | nil => rfl
  | cons p ps ih =>
    simp [bitsEvents, Pulse.events, loads_append, loads_polls, loads, ih]

theorem loads_frame (period pin : Nat) (recs : List (List Pulse)) :
    ∀ a, loads (frameEvents period pin a recs) = List.range' a recs.length := by
  induction recs with
  | nil => intro a; rfl
  | cons ps recs ih =>
    intro a
    simp [frameEvents, loads, loads_append, loads_bits, ih, List.range'_succ]

theorem holdFrom_polls (thr t : Nat) (ts : List Nat) (rest : List Event) :
    ∀ t0, holdFrom t0 (polls thr ts ++ Event.poll t thr :: rest) = holdFrom thr rest := by
  induction ts with
  | nil => intro t0; rfl
  | cons u ts ih => intro t0; simpa [polls, holdFrom] using ih thr

theorem holdFrom_bits (period pin : Nat) (ps : List Pulse) (rest : List Event) :
    ∀ t0, ∃ t1, holdFrom t0 (bitsEvents period pin ps ++ rest)
      = ps.map (fun p => p.thr) ++ holdFrom t1 rest := by
  induction ps with
  | nil => intro t0; exact ⟨t0, rfl⟩
  | cons p ps ih =>
    intro t0
    obtain ⟨t1, h⟩ := ih p.thr
    refine ⟨t1, ?_⟩
    simp only [bitsEvents, Pulse.events, List.append_assoc, List.cons_append, List.nil_append,
      List.map_cons]
    rw [holdFrom_polls]
    simp only [holdFrom]
    rw [holdFrom_polls]
    simp only [holdFrom]
    rw [h]

theorem holdFrom_frame (period pin : Nat) (recs : List (List Pulse)) :
    ∀ a t0, holdFrom t0 (frameEvents period pin a recs)
      = recs.flatten.map (fun p => p.thr) := by
  induction recs with
  | nil => intro a t0; rfl
  | cons ps recs ih =>
    intro a t0
    obtain ⟨t1, h⟩ := holdFrom_bits period pin ps (frameEvents period pin (a + 1) recs) t0
    simp only [frameEvents, holdFrom, h, ih, List.flatten_cons, List.map_append]

theorem pulsesFrom_polls (thr t : Nat) (ts : List Nat) (rest : List Event) :
    ∀ l r, pulsesFrom l r (polls thr ts ++ Event.poll t thr :: rest) = pulsesFrom t r rest := by
  induction ts with
  | nil => intro l r; rfl
  | cons u ts ih => intro l r; simpa [polls, pulsesFrom] using ih u r

theorem pulsesFrom_bits (period pin : Nat) (ps : List Pulse) (rest : List Event) :
    ∀ l r, ∃ l1 r1, pulsesFrom l r (bitsEvents period pin ps ++ rest)
      = ps.map (fun p => (p.rise, p.fall)) ++ pulsesFrom l1 r1 rest := by
  induction ps with
  | nil => intro l r; exact ⟨l, r, rfl⟩
  | cons p ps ih =>
    intro l r
    obtain ⟨l1, r1, h⟩ := ih p.fall p.rise
    refine ⟨l1, r1, ?_⟩
    simp only [bitsEvents, Pulse.events, List.append_assoc, List.cons_append, List.nil_append,
      List.map_cons]
    rw [pulsesFrom_polls]
    simp only [pulsesFrom]
    rw [pulsesFrom_polls]
    simp only [pulsesFrom]
    rw [h]

theorem pulsesFrom_frame (period pin : Nat) (recs : List (List Pulse)) :
    ∀ a l r, pulsesFrom l r (frameEvents period pin a recs)
      = recs.flatten.map (fun p => (p.rise, p.fall)) := by
  induction recs with
  | nil => intro a l r; rfl
  | cons ps recs ih =>
    intro a l r
    obtain ⟨l1, r1, h⟩ := pulsesFrom_bits period pin ps (frameEvents period pin (a + 1) recs) l r
    simp only [frameEvents, pulsesFrom, h, ih, List.flatten_cons, List.map_append]

/-! ## Bits of a byte -/

theorem land_two_pow_ne_zero (b i : Nat) : (b &&& 2 ^ i ≠ 0) ↔ b.testBit i = true := by
  rw [Nat.and_two_pow]
  cases h : b.testBit i <;> simp

theorem mask_ite (t0h t1h b i m : Nat) (hm : m = 2 ^ i) :
    (if b &&& m ≠ 0 then t1h else t0h) = if b.testBit i then t1h else t0h := by
  subst hm
  by_cases h : b.testBit i = true
  · rw [if_pos ((land_two_pow_ne_zero b i).2 h), if_pos h]
  · rw [if_neg (fun h1 => h ((land_two_pow_ne_zero b i).1 h1)), if_neg h]

theorem byteThresholds_getElem? (t0h t1h b j : Nat) (hj : j < 8) :
    (byteThresholds t0h t1h b)[j]? = some (if b.testBit (7 - j) then t1h else t0h) := by
  interval_cases j
  · exact congrArg some (mask_ite t0h t1h b 7 128 rfl)
  · exact congrArg some (mask_ite t0h t1h b 6 64 rfl)
  · exact congrArg some (mask_ite t0h t1h b 5 32 rfl)
  · exact congrArg some (mask_ite t0h t1h b 4 16 rfl)
  · exact congrArg some (mask_ite t0h t1h b 3 8 rfl)
  · exact congrArg some (mask_ite t0h t1h b 2 4 rfl)
  · exact congrArg some (mask_ite t0h t1h b 1 2 rfl)
  · exact congrArg some (mask_ite t0h t1h b 0 1 rfl)

theorem byteThresholds_length (t0h t1h b : Nat) : (byteThresholds t0h t1h b).length = 8 := rfl

/-- Bit `k` of the stream sent for the `n` bytes at `pixels` is bit `7 - k % 8`
of byte `k / 8`. -/
theorem thresholds_index (mem : Nat → Nat) (t0h t1h : Nat) :
    ∀ (n pixels k : Nat), k < 8 * n →
      ((bufferBytes mem pixels n).map (byteThresholds t0h t1h)).flatten[k]?
        = some (bitThreshold mem t0h t1h pixels k) := by
  intro n
  induction n with
  | zero => intro pixels k hk; omega
  | succ n ih =>
    intro pixels k hk
    simp only [bufferBytes, List.map_cons, List.flatten_cons]
    by_cases h8 : k < 8
    · rw [List.getElem?_append_left (by rw [byteThresholds_length]; exact h8)]
      rw [byteThresholds_getElem? _ _ _ _ h8]
      have e1 : k / 8 = 0 := by omega
      have e2 : k % 8 = k := by omega
      simp [bitThreshold, e1, e2]
    · rw [List.getElem?_append_right (by rw [byteThresholds_length]; omega)]
      rw [byteThresholds_length, ih (pixels + 1) (k - 8) (by omega)]
      have e1 : pixels + 1 + (k - 8) / 8 = pixels + k / 8 := by omega
      have e2 : (k - 8) % 8 = k % 8 := by omega
      simp [bitThreshold, e1, e2]

theorem thresholds_length (mem : Nat → Nat) (t0h t1h : Nat) :
    ∀ (n pixels : Nat),
      ((bufferBytes mem pixels n).map (byteThresholds t0h t1h)).flatten.length = 8 * n := by
  intro n
  induction n with
  | zero => intro pixels; rfl
  | succ n ih =>
    intro pixels
    simp only [bufferBytes, List.map_cons, List.flatten_cons, List.length_append,
      byteThresholds_length, ih]
    omega

/-- Thresholds of all pulses of a frame, from the per-byte description. -/
theorem frame_thresholds (recs : List (List Pulse)) (Ts : List (List Nat))
    (h : recs.map (fun ps => ps.map (fun p => p.thr)) = Ts) :
    recs.flatten.map (fun p => p.thr) = Ts.flatten := by
  rw [← h, List.map_flatten]

theorem Timed_index (period d : Nat) (ps : List Pulse) :
    ∀ prev, Timed period d prev ps → ∀ k p, ps[k]? = some p →
      (p.rise + p.thr ≤ p.fall ∧ p.fall < p.rise + p.thr + d) ∧
      ∀ q, ps[k + 1]? = some q → p.rise + period ≤ q.rise ∧ q.rise < p.rise + period + d := by
  induction ps with
  | nil => intro prev _ k p hp; simp at hp
  | cons a ps ih =>
    intro prev ht k p hp
    obtain ⟨_, h2, h3, h4⟩ := ht
    cases k with
    | zero =>
      simp only [List.getElem?_cons_zero, Option.some.injEq] at hp
      subst hp
      refine ⟨⟨h2, h3⟩, ?_⟩
      intro q hq
      simp only [List.getElem?_cons_succ] at hq
      cases ps with
      | nil => simp at hq
      | cons b ps =>
        simp only [List.getElem?_cons_zero, Option.some.injEq] at hq
        subst hq
        exact h4.1 _ rfl
    | succ k =>
      simp only [List.getElem?_cons_succ] at hp ⊢
      exact ih _ h4 k p hp

/-! ## The multi-bus encoder -/

theorem splitBuses_fold (buses : Nat → PixelBusInfo) (subpix : Nat → Nat) (bitMask : Nat)
    (l : List Nat) :
    ∀ a b, l.foldl
        (fun (st : Nat × Nat) indexBus =>
          let pinRegister := (buses indexBus)._pinRegister
          if subpix indexBus &&& bitMask ≠ 0 then (st.1 ||| pinRegister, st.2)
          else (st.1, st.2 ||| pinRegister)) (a, b)
      = (l.foldl (fun m i => if (subpix i &&& bitMask != 0) then m ||| (buses i)._pinRegister
            else m) a,
         l.foldl (fun m i => if (subpix i &&& bitMask == 0) then m ||| (buses i)._pinRegister
            else m) b) := by
  induction l with
  | nil => intro a b; rfl
  | cons i l ih =>
    intro a b
    simp only [List.foldl_cons]
    by_cases h : subpix i &&& bitMask = 0
    · rw [if_neg (not_not.2 h), ih]; simp [h]
    · rw [if_pos h, ih]; simp [h]

/-- The two clear masks: `pinRegisters1Bit` collects the buses whose sampled
bit is set, `pinRegisters0Bit` those whose bit is clear. -/
theorem splitBuses_eq (buses : Nat → PixelBusInfo) (countBuses : Nat) (subpix : Nat → Nat)
    (bitMask : Nat) :
    splitBuses buses countBuses subpix bitMask
      = (orPins buses countBuses (fun i => subpix i &&& bitMask != 0),
         orPins buses countBuses (fun i => subpix i &&& bitMask == 0)) := by
  unfold splitBuses orPins
  exact splitBuses_fold buses subpix bitMask _ 0 0

theorem orPins_congr (buses : Nat → PixelBusInfo) (countBuses : Nat) (f g : Nat → Bool)
    (h : ∀ i, i < countBuses → f i = g i) :
    orPins buses countBuses f = orPins buses countBuses g := by
  unfold orPins
  have : ∀ (l : List Nat) (a : Nat), (∀ i ∈ l, f i = g i) →
      l.foldl (fun m i => if f i then m ||| (buses i)._pinRegister else m) a
        = l.foldl (fun m i => if g i then m ||| (buses i)._pinRegister else m) a := by
    intro l
    induction l with
    | nil => intro a _; rfl
    | cons i l ih =>
      intro a hl
      simp only [List.foldl_cons]
      rw [hl i (List.mem_cons_self _ _)]
      exact ih _ (fun j hj => hl j (List.mem_cons_of_mem _ hj))
  exact this _ 0 (fun i hi => h i (List.mem_range.1 hi))

theorem sampleBuses_fold (mem : Nat → Nat) (pixels : Nat → Nat) (l : List Nat) :
    ∀ (subpix : Nat → Nat) (ev : List Event),
      l.foldl
        (fun (st : (Nat → Nat) × List Event) indexBus =>
          (setAt st.1 indexBus (mem (pixels indexBus) % 256),
            st.2 ++ [Event.load (pixels indexBus)])) (subpix, ev)
      = ((fun i => if i ∈ l then mem (pixels i) % 256 else subpix i),
         ev ++ l.map (fun i => Event.load (pixels i))) := by
  induction l with
  | nil => intro subpix ev; simp
  | cons j l ih =>
    intro subpix ev
    simp only [List.foldl_cons, ih, List.map_cons, List.append_assoc, List.singleton_append,
      Prod.mk.injEq, and_true]
    funext i
    by_cases h1 : i ∈ l
    · simp [h1]
    · by_cases h2 : i = j
      · simp [h2, setAt]
      · simp [h1, h2, setAt]

/-- Sampling stores the byte under each bus's cursor and records one load per
bus, in bus order. -/
theorem sampleBuses_eq (mem : Nat → Nat) (pixels : Nat → Nat) (countBuses : Nat)
    (subpix : Nat → Nat) :
    sampleBuses mem pixels countBuses subpix
      = ((fun i => if i < countBuses then mem (pixels i) % 256 else subpix i),
         (List.range countBuses).map (fun i => Event.load (pixels i))) := by
  unfold sampleBuses
  rw [sampleBuses_fold]
  simp [List.mem_range]

theorem initBuses_fold (buses : Nat → PixelBusInfo) (l : List Nat) :
    ∀ (pixels : Nat → Nat) (all : Nat),
      l.foldl
        (fun (st : (Nat → Nat) × Nat) indexBus =>
          (setAt st.1 indexBus (buses indexBus)._pixels,
            st.2 ||| (buses indexBus)._pinRegister)) (pixels, all)
      = ((fun i => if i ∈ l then (buses i)._pixels else pixels i),
         l.foldl (fun m i => m ||| (buses i)._pinRegister) all) := by
  induction l with
  | nil => intro pixels all; simp
  | cons j l ih =>
    intro pixels all
    simp only [List.foldl_cons, ih, Prod.mk.injEq, and_true]
    funext i
    by_cases h1 : i ∈ l
    · simp [h1]
    · by_cases h2 : i = j
      · simp [h2, setAt]
      · simp [h1, h2, setAt]

theorem initBuses_eq (buses : Nat → PixelBusInfo) (countBuses : Nat) :
    initBuses buses countBuses = (startCursors buses countBuses, allPins buses countBuses) := by
  unfold initBuses allPins startCursors
  rw [initBuses_fold]
  simp [List.mem_range]

theorem dataTrace_append (xs ys : List Event) :
    dataTrace (xs ++ ys) = dataTrace xs ++ dataTrace ys :=
  List.filter_append xs ys

theorem dataTrace_polls (thr : Nat) (ts : List Nat) : dataTrace (polls thr ts) = [] := by
  induction ts with
  | nil => rfl
  | cons t ts ih => simp [polls, dataTrace, isData]

theorem canAdvance_setAt (buses : Nat → PixelBusInfo) (countBuses : Nat) (cur : Nat → Nat)
    (k0 v k : Nat) (h : k ≠ k0) :
    canAdvance buses countBuses (setAt cur k0 v) k = canAdvance buses countBuses cur k := by
  simp [canAdvance, setAt, h]

/-- The cursor step of one bit period: it touches only `pixels[indexNextBus]`. -/
theorem advanceCursor_spec (buses : Nat → PixelBusInfo) (countBuses k0 : Nat) (s : MultiState)
    (hidx : s.indexNextBus = min k0 countBuses) :
    (advanceCursor buses countBuses s).1.pixels
        = (if canAdvance buses countBuses s.pixels k0
            then setAt s.pixels k0 (s.pixels k0 + 1) else s.pixels)
      ∧ (advanceCursor buses countBuses s).1.morePixels
        = (s.morePixels || canAdvance buses countBuses s.pixels k0)
      ∧ (advanceCursor buses countBuses s).1.indexNextBus = min (k0 + 1) countBuses
      ∧ (advanceCursor buses countBuses s).2
        = (if canAdvance buses countBuses s.pixels k0
            then [Event.cursor k0 (s.pixels k0 + 1)] else []) := by
  by_cases hk : k0 < countBuses
  · have e : s.indexNextBus = k0 := by omega
    by_cases hlt : s.pixels k0 < (buses k0)._end
    · simp [advanceCursor, e, hk, hlt, canAdvance]; omega
    · simp [advanceCursor, e, hk, hlt, canAdvance]; omega
  · have e : s.indexNextBus = countBuses := by omega
    simp [advanceCursor, e, hk, canAdvance]; omega

theorem bitPeriodsEvents_congr (F : Nat) (buses : Nat → PixelBusInfo) (countBuses all : Nat)
    (f g cur cur1 : Nat → Nat) (hs : ∀ i, i < countBuses → f i = g i)
    (recs : List MultiBit) :
    ∀ k0, (∀ k, k0 ≤ k → cur k = cur1 k) →
      bitPeriodsEvents F buses countBuses all f cur k0 recs
        = bitPeriodsEvents F buses countBuses all g cur1 k0 recs := by
  induction recs with
  | nil => intro k0 _; rfl
  | cons b bs ih =>
    intro k0 hc
    simp only [bitPeriodsEvents, bitPeriodEvents]
    rw [ih (k0 + 1) (fun k hk => hc k (by omega)), hc k0 (Nat.le_refl _),
      orPins_congr buses countBuses (fun i => f i &&& (0x80 >>> k0) == 0)
        (fun i => g i &&& (0x80 >>> k0) == 0) (fun i hi => by simp only [hs i hi]),
      orPins_congr buses countBuses (fun i => f i &&& (0x80 >>> k0) != 0)
        (fun i => g i &&& (0x80 >>> k0) != 0) (fun i hi => by simp only [hs i hi])]
    have : canAdvance buses countBuses cur k0 = canAdvance buses countBuses cur1 k0 := by
      simp only [canAdvance, hc k0 (Nat.le_refl _)]
    rw [this]

/-- The eight bit periods of a byte period, stated for a run of `len` bit
indices from `k0` on. -/
theorem multiBits_spec (F : Nat) (adv : Nat → Nat) (d fuel : Nat)
    (buses : Nat → PixelBusInfo) (countBuses all : Nat) (subpix : Nat → Nat)
    (hadv : ∀ k, 1 ≤ adv k ∧ adv k ≤ d) (hfuel : CYCLES_800 F < fuel)
    (hd : CYCLES_800 F + d ≤ WORD) :
    ∀ (len k0 : Nat) (s : MultiState), s.indexNextBus = min k0 countBuses →
      ∃ s1 recs, multiBits F adv fuel buses countBuses all subpix
          ((List.range' k0 len).map (fun k => 0x80 >>> k)) s
            = some (s1, bitPeriodsEvents F buses countBuses all subpix s.pixels k0 recs)
        ∧ recs.length = len
        ∧ (CYCLES_800 F ≤ sub32 s.clock.now s.cyclesStart →
            ∀ b, recs.head? = some b → b.rise = s.clock.now ∧ b.waitHigh = [])
        ∧ s1.pixels = (fun i => if k0 ≤ i ∧ i < k0 + len ∧ canAdvance buses countBuses s.pixels i
            then s.pixels i + 1 else s.pixels i)
        ∧ s1.morePixels
            = (s.morePixels || (List.range' k0 len).any (canAdvance buses countBuses s.pixels))
        ∧ s1.indexNextBus = min (k0 + len) countBuses := by
  have h0 : CYCLES_800_T0H F ≤ CYCLES_800 F := by
    unfold CYCLES_800_T0H CYCLES_800; omega
  have h1 : CYCLES_800_T1H F ≤ CYCLES_800 F := by
    unfold CYCLES_800_T1H CYCLES_800; omega
  intro len
  induction len with
  | zero =>
    intro k0 s hidx
    refine ⟨s, [], rfl, rfl, fun _ b hb => by simp at hb, ?_, ?_, hidx⟩
    · funext i
      have : ¬ (k0 ≤ i ∧ i < k0 + 0 ∧ canAdvance buses countBuses s.pixels i = true) := by omega
      rw [if_neg this]
    · simp
  | succ len ih =>
    intro k0 s hidx
    obtain ⟨x1, c1, ts1, hrun1, -, hz1, -⟩ :=
      spinWait_spec adv d s.cyclesStart (CYCLES_800 F) hadv hd fuel s.clock
        (by omega) (by omega)
    obtain ⟨x2, c2, ts2, hrun2, -⟩ :=
      spinWait_spec adv d ((s.clock.now + x1) % WORD) (CYCLES_800_T0H F) hadv (by omega)
        fuel c1 (by omega) (by omega)
    obtain ⟨x3, c3, ts3, hrun3, -⟩ :=
      spinWait_spec adv d ((s.clock.now + x1) % WORD) (CYCLES_800_T1H F) hadv (by omega)
        fuel c2 (by omega) (by omega)
    obtain ⟨hap, ham, hai, hae⟩ := advanceCursor_spec buses countBuses k0 s hidx
    obtain ⟨s1, recs, hrun4, hlen, -, hpix, hmore, hidx1⟩ :=
      ih (k0 + 1)
        { (advanceCursor buses countBuses s).1 with
            cyclesStart := (s.clock.now + x1) % WORD, clock := c3 } hai
    simp only [] at hrun4 hpix hmore
    have hcan : ∀ k, k0 + 1 ≤ k →
        canAdvance buses countBuses (advanceCursor buses countBuses s).1.pixels k
          = canAdvance buses countBuses s.pixels k := by
      intro k hk
      rw [hap]
      split
      · exact canAdvance_setAt buses countBuses s.pixels k0 _ k (by omega)
      · rfl
    have hval : ∀ k, k ≠ k0 → (advanceCursor buses countBuses s).1.pixels k = s.pixels k := by
      intro k hk
      rw [hap]
      split
      · simp [setAt, hk]
      · rfl
    refine ⟨s1, ⟨ts1, s.clock.now + x1, ts2, c1.now + x2, ts3, c2.now + x3⟩ :: recs,
      ?_, ?_, ?_, ?_, ?_, ?_⟩
    · rw [bitPeriodsEvents_congr F buses countBuses all subpix subpix _ s.pixels
        (fun _ _ => rfl) recs (k0 + 1) (fun k hk => hval k (by omega))] at hrun4
      simp only [List.range'_succ, List.map_cons, multiBits, hrun1, hrun2, hrun3, hrun4,
        bitPeriodsEvents, bitPeriodEvents, splitBuses_eq, hae, List.append_assoc,
        List.cons_append, List.nil_append]
    · simp [hlen]
    · intro hp b hb
      simp only [List.head?_cons, Option.some.injEq] at hb
      subst hb
      have := hz1 hp
      simp [this.1, this.2]
    · rw [hpix]
      funext i
      by_cases hi : i = k0
      · subst hi
        have : ¬ (i + 1 ≤ i) := by omega
        rw [hap]
        by_cases hc : canAdvance buses countBuses s.pixels i = true
        · simp [this, hc, setAt]
        · simp [this, hc]
      · by_cases hlt : k0 + 1 ≤ i
        · rw [hcan i hlt, hval i hi]
          have e1 : (k0 + 1 ≤ i ∧ i < k0 + 1 + len ∧ canAdvance buses countBuses s.pixels i = true)
              ↔ (k0 ≤ i ∧ i < k0 + (len + 1) ∧ canAdvance buses countBuses s.pixels i = true) := by
            constructor <;> (rintro ⟨a, b, c⟩; exact ⟨by omega, by omega, c⟩)
          simp only [e1]
        · rw [hval i hi]
          have e1 : ¬ (k0 + 1 ≤ i ∧ i < k0 + 1 + len ∧
              canAdvance buses countBuses (advanceCursor buses countBuses s).1.pixels i = true) := by
            intro h; omega
          have e2 : ¬ (k0 ≤ i ∧ i < k0 + (len + 1) ∧
              canAdvance buses countBuses s.pixels i = true) := by
            intro h; omega
          simp only [e1, e2, if_false]
    · rw [hmore, ham, List.range'_succ, List.any_cons, Bool.or_assoc]
      congr 2
      have : ∀ (l : List Nat), (∀ k ∈ l, k0 + 1 ≤ k) →
          l.any (canAdvance buses countBuses (advanceCursor buses countBuses s).1.pixels)
            = l.any (canAdvance buses countBuses s.pixels) := by
        intro l
        induction l with
        | nil => intro _; rfl
        | cons a l ihl =>
          intro hl
          rw [List.any_cons, List.any_cons, hcan a (hl a (List.mem_cons_self _ _)),
            ihl (fun k hk => hl k (List.mem_cons_of_mem _ hk))]
      exact this _ (fun k hk => (List.mem_range'_1.1 hk).1)
    · rw [hidx1]; congr 1; omega

/-- The masks of the `for` loop: `0x80 >> k` for `k = 0..7`; the next shift
gives `0` and ends the loop. -/
theorem bitMasks_eq : bitMasks = (List.range' 0 8).map (fun k => 0x80 >>> k) := by decide

theorem bitMask_loop_exit : 0x80 >>> 8 = 0 ∧ ∀ k, k < 8 → 0x80 >>> k ≠ 0 := by decide

/-- A byte period in which some cursor advances leaves fewer bytes ahead. -/
theorem remaining_next (buses : Nat → PixelBusInfo) (countBuses : Nat) (cur : Nat → Nat)
    (h : anyAdvance buses countBuses cur = true) :
    remaining buses countBuses (nextCursors buses countBuses cur)
      < remaining buses countBuses cur := by
  unfold remaining
  apply List.sum_lt_sum
  · intro i _
    by_cases hi : i < countBuses
    · simp only [hi, if_true, nextCursors]
      split <;> omega
    · simp [hi]
  · obtain ⟨i, hi, hc⟩ := List.any_eq_true.1 h
    refine ⟨i, hi, ?_⟩
    have hi8 : i < 8 := List.mem_range.1 hi
    have hc1 : i < countBuses ∧ cur i < (buses i)._end := by
      simpa [canAdvance] using hc
    simp only [hc1.1, if_true, nextCursors, hi8, hc, and_self]
    omega

/-- The outer loop: one canonical byte period per entry of `periodCursors`. -/
theorem multiLoop_spec (F : Nat) (adv : Nat → Nat) (d fuel : Nat) (mem : Nat → Nat)
    (buses : Nat → PixelBusInfo) (countBuses : Nat)
    (hadv : ∀ k, 1 ≤ adv k ∧ adv k ≤ d) (hfuel : CYCLES_800 F < fuel)
    (hd : CYCLES_800 F + d ≤ WORD) :
    ∀ (n : Nat) (pixels subpix : Nat → Nat) (cs : Nat) (c : Clock),
      remaining buses countBuses pixels < n →
      ∃ recs, multiLoop F adv fuel mem buses countBuses (allPins buses countBuses) n
          pixels subpix cs c
            = some (multiFrameEvents F mem buses countBuses
                (periodCursors buses countBuses n pixels) recs)
        ∧ recs.length = (periodCursors buses countBuses n pixels).length
        ∧ (∀ bs ∈ recs, bs.length = 8)
        ∧ (CYCLES_800 F ≤ sub32 c.now cs →
            ∀ bs b, recs.head? = some bs → bs.head? = some b →
              b.rise = c.now ∧ b.waitHigh = []) := by
  intro n
  induction n with
  | zero => intro pixels subpix cs c h; omega
  | succ n ih =>
    intro pixels subpix cs c hn
    obtain ⟨s1, bs, hrun, hlen, hfirst, hpix, hmore, -⟩ :=
      multiBits_spec F adv d fuel buses countBuses (allPins buses countBuses)
        (sampleBuses mem pixels countBuses subpix).1 hadv hfuel hd 8 0
        { pixels := pixels, indexNextBus := 0, morePixels := false,
          cyclesStart := cs, clock := c } (by simp)
    rw [← bitMasks_eq] at hrun
    simp only [] at hrun hfirst hpix hmore
    have hpix1 : s1.pixels = nextCursors buses countBuses pixels := by
      rw [hpix]; funext i
      simp only [nextCursors, Nat.zero_le, Nat.zero_add, true_and]
    have hmore1 : s1.morePixels = anyAdvance buses countBuses pixels := by
      rw [hmore, Bool.false_or, anyAdvance, List.range_eq_range']
    have hperiod : (sampleBuses mem pixels countBuses subpix).2 ++
        bitPeriodsEvents F buses countBuses (allPins buses countBuses)
          (sampleBuses mem pixels countBuses subpix).1 pixels 0 bs
        = bytePeriodEvents F mem buses countBuses pixels bs := by
      rw [sampleBuses_eq]
      simp only [bytePeriodEvents]
      rw [bitPeriodsEvents_congr F buses countBuses (allPins buses countBuses) _
        (fun i => mem (pixels i) % 256) pixels pixels (fun i hi => by simp [hi]) bs 0
        (fun _ _ => rfl)]
    by_cases hm : anyAdvance buses countBuses pixels = true
    · have hrem := remaining_next buses countBuses pixels hm
      obtain ⟨recs, hrun2, hlen2, hall2, -⟩ :=
        ih (nextCursors buses countBuses pixels) (sampleBuses mem pixels countBuses subpix).1
          s1.cyclesStart s1.clock (by omega)
      refine ⟨bs :: recs, ?_, ?_, ?_, ?_⟩
      · simp only [multiLoop, hrun, hmore1, hm, if_true, hpix1, hrun2, periodCursors,
          multiFrameEvents, List.zip_cons_cons, List.flatMap_cons]
        rw [← hperiod, List.append_assoc]
      · simp [periodCursors, hm, hlen2]
      · intro b hb
        rcases List.mem_cons.1 hb with rfl | h
        · exact hlen
        · exact hall2 b h
      · intro hp bs1 b hbs hb
        simp only [List.head?_cons, Option.some.injEq] at hbs
        subst hbs
        exact hfirst hp b hb
    · refine ⟨[bs], ?_, ?_, ?_, ?_⟩
      · simp only [multiLoop, hrun, hmore1, hm, periodCursors, multiFrameEvents]
        simp [hperiod]
      · simp [periodCursors, hm]
      · intro b hb
        simp only [List.mem_singleton] at hb
        subst hb
        exact hlen
      · intro hp bs1 b hbs hb
        simp only [List.head?_cons, Option.some.injEq] at hbs
        subst hbs
        exact hfirst hp b hb

/-- Canonical trace of `send_multibus_pixels_800` on a well-behaved clock: the
first counter read, then one byte period per entry of `periodCursors`, each of
eight bit periods. -/
theorem send_multibus_pixels_800_full (F : Nat) (adv : Nat → Nat) (d fuel : Nat)
    (mem : Nat → Nat) (buses : Nat → PixelBusInfo) (countBuses : Nat) (c : Clock)
    (hadv : ∀ k, 1 ≤ adv k ∧ adv k ≤ d) (hfuel : CYCLES_800 F < fuel)
    (hbytes : remaining buses countBuses (startCursors buses countBuses) < fuel)
    (hd : CYCLES_800 F + d ≤ WORD) :
    ∃ recs, send_multibus_pixels_800 F adv fuel mem buses countBuses c
        = some (Event.ccount c.now :: multiFrameEvents F mem buses countBuses
            (periodCursors buses countBuses fuel (startCursors buses countBuses)) recs)
      ∧ recs.length
          = (periodCursors buses countBuses fuel (startCursors buses countBuses)).length
      ∧ (∀ bs ∈ recs, bs.length = 8)
      ∧ (CYCLES_800 F + adv c.reads < WORD →
          ∀ bs b, recs.head? = some bs → bs.head? = some b →
            b.rise = c.now + adv c.reads ∧ b.waitHigh = []) := by
  obtain ⟨recs, hrun, hlen, hall, hfirst⟩ :=
    multiLoop_spec F adv d fuel mem buses countBuses hadv hfuel hd fuel
      (startCursors buses countBuses) (fun _ => 0)
      (sub32 (c.now % WORD) (CYCLES_800 F))
      { now := c.now + adv c.reads, reads := c.reads + 1 } hbytes
  refine ⟨recs, ?_, hlen, hall, ?_⟩
  · simp only [send_multibus_pixels_800, initBuses_eq, _getCycleCount, hrun]
  · intro hlt
    apply hfirst
    show CYCLES_800 F ≤ sub32 (c.now + adv c.reads) (sub32 (c.now % WORD) (CYCLES_800 F))
    generalize CYCLES_800 F = P at *
    unfold sub32 WORD at *
    omega

/-! ## Data events of a canonical multi-bus trace -/

theorem dataTrace_bitPeriods (F : Nat) (buses : Nat → PixelBusInfo) (countBuses all : Nat)
    (subpix cur : Nat → Nat) (recs : List MultiBit) :
    ∀ k0, dataTrace (bitPeriodsEvents F buses countBuses all subpix cur k0 recs)
      = (List.range' k0 recs.length).flatMap
          (bitPeriodData buses countBuses all subpix cur) := by
  induction recs with
  | nil => intro k0; rfl
  | cons b bs ih =>
    intro k0
    have hp : ∀ thr ts, List.filter isData (polls thr ts) = [] := dataTrace_polls
    have hf : List.filter isData
          (if canAdvance buses countBuses cur k0 = true
            then [Event.cursor k0 (cur k0 + 1)] else [])
        = (if canAdvance buses countBuses cur k0 = true
            then [Event.cursor k0 (cur k0 + 1)] else []) := by
      split <;> rfl
    simp only [bitPeriodsEvents, dataTrace_append, ih, List.length_cons, List.range'_succ,
      List.flatMap_cons]
    congr 1
    simp only [bitPeriodEvents, dataTrace, List.filter_append, List.filter_cons, isData, hp,
      hf, if_true, List.filter_nil, List.nil_append]
    simp [bitPeriodData]

theorem dataTrace_bytePeriod (F : Nat) (mem : Nat → Nat) (buses : Nat → PixelBusInfo)
    (countBuses : Nat) (cur : Nat → Nat) (bs : List MultiBit) (h : bs.length = 8) :
    dataTrace (bytePeriodEvents F mem buses countBuses cur bs)
      = bytePeriodData mem buses countBuses cur := by
  unfold bytePeriodEvents bytePeriodData
  rw [dataTrace_append, dataTrace_bitPeriods, h, List.range_eq_range' 8]
  congr 1
  apply List.filter_eq_self.2
  intro e he
  obtain ⟨i, -, rfl⟩ := List.mem_map.1 he
  rfl

theorem dataTrace_multiFrame (F : Nat) (mem : Nat → Nat) (buses : Nat → PixelBusInfo)
    (countBuses : Nat) (curs : List (Nat → Nat)) :
    ∀ (recs : List (List MultiBit)), recs.length = curs.length →
      (∀ bs ∈ recs, bs.length = 8) →
      dataTrace (multiFrameEvents F mem buses countBuses curs recs)
        = curs.flatMap (bytePeriodData mem buses countBuses) := by
  induction curs with
  | nil => intro recs _ _; simp [multiFrameEvents, dataTrace]
  | cons cur curs ih =>
    intro recs hlen hall
    cases recs with
    | nil => simp at hlen
    | cons bs recs =>
      have := ih recs (by simpa using hlen) (fun b hb => hall b (List.mem_cons_of_mem _ hb))
      simp only [multiFrameEvents, List.zip_cons_cons, List.flatMap_cons, dataTrace_append]
        at this ⊢
      rw [this, dataTrace_bytePeriod F mem buses countBuses cur bs
        (hall bs (List.mem_cons_self _ _))]

/-- Data events of `send_multibus_pixels_800` on a well-behaved clock: one
canonical byte period per entry of `periodCursors`. -/
theorem send_multibus_pixels_800_spec (F : Nat) (adv : Nat → Nat) (d fuel : Nat)
    (mem : Nat → Nat) (buses : Nat → PixelBusInfo) (countBuses : Nat) (c : Clock)
    (hadv : ∀ k, 1 ≤ adv k ∧ adv k ≤ d) (hfuel : CYCLES_800 F < fuel)
    (hbytes : remaining buses countBuses (startCursors buses countBuses) < fuel)
    (hd : CYCLES_800 F + d ≤ WORD) :
    ∃ tr, send_multibus_pixels_800 F adv fuel mem buses countBuses c = some tr
      ∧ dataTrace tr
        = (periodCursors buses countBuses fuel (startCursors buses countBuses)).flatMap
            (bytePeriodData mem buses countBuses) := by
  obtain ⟨recs, hrun, hlen, hall, -⟩ :=
    send_multibus_pixels_800_full F adv d fuel mem buses countBuses c hadv hfuel hbytes hd
  refine ⟨_, hrun, ?_⟩
  show dataTrace (multiFrameEvents F mem buses countBuses _ recs) = _
  exact dataTrace_multiFrame F mem buses countBuses _ recs hlen hall

/-! ## GPIO writes and bus view of a canonical multi-bus trace -/

theorem gpioWrites_dataTrace (tr : List Event) : gpioWrites (dataTrace tr) = gpioWrites tr := by
  induction tr with
  | nil => rfl
  | cons e es ih =>
    cases e <;> simp [dataTrace, isData, gpioWrites] at ih ⊢ <;> exact ih

theorem gpioWrites_flatMap {α : Type} (l : List α) (f : α → List Event) :
    gpioWrites (l.flatMap f) = l.flatMap (fun x => gpioWrites (f x)) := by
  induction l with
  | nil => rfl
  | cons a l ih => simp [List.flatMap_cons, gpioWrites_append, ih]

theorem gpioWrites_bitPeriodData (buses : Nat → PixelBusInfo) (countBuses all : Nat)
    (subpix cur : Nat → Nat) (k : Nat) :
    gpioWrites (bitPeriodData buses countBuses all subpix cur k)
      = [Event.setHigh all,
         Event.setLow (orPins buses countBuses (fun i => subpix i &&& (0x80 >>> k) == 0)),
         Event.setLow (orPins buses countBuses (fun i => subpix i &&& (0x80 >>> k) != 0))] := by
  unfold bitPeriodData
  split <;> simp [gpioWrites]

theorem gpioWrites_bytePeriodData (mem : Nat → Nat) (buses : Nat → PixelBusInfo)
    (countBuses : Nat) (cur : Nat → Nat) :
    gpioWrites (bytePeriodData mem buses countBuses cur)
      = (List.range 8).flatMap (fun k =>
          [Event.setHigh (allPins buses countBuses),
           Event.setLow (orPins buses countBuses
             (fun i => mem (cur i) % 256 &&& (0x80 >>> k) == 0)),
           Event.setLow (orPins buses countBuses
             (fun i => mem (cur i) % 256 &&& (0x80 >>> k) != 0))]) := by
  unfold bytePeriodData
  rw [gpioWrites_append, gpioWrites_flatMap]
  have : gpioWrites ((List.range countBuses).map (fun i => Event.load (cur i))) = [] := by
    induction (List.range countBuses) with
    | nil => rfl
    | cons a l ih => simpa [gpioWrites] using ih
  rw [this, List.nil_append]
  apply List.flatMap_congr
  intro k _
  exact gpioWrites_bitPeriodData _ _ _ _ _ k

theorem busFrom_polls (thr t : Nat) (ts : List Nat) (rest : List Event) :
    ∀ t0, busFrom t0 (polls thr ts ++ Event.poll t thr :: rest) = busFrom thr rest := by
  induction ts with
  | nil => intro t0; rfl
  | cons u ts ih => intro t0; simpa [polls, busFrom] using ih thr

theorem busFrom_bitPeriods (F : Nat) (buses : Nat → PixelBusInfo) (countBuses all : Nat)
    (subpix cur : Nat → Nat) (recs : List MultiBit) (rest : List Event) :
    ∀ k0 t0, ∃ t1, busFrom t0 (bitPeriodsEvents F buses countBuses all subpix cur k0 recs ++ rest)
      = (List.range' k0 recs.length).flatMap (fun k =>
          [BusEvent.rise all,
           BusEvent.fall (CYCLES_800_T0H F)
             (orPins buses countBuses (fun i => subpix i &&& (0x80 >>> k) == 0)),
           BusEvent.fall (CYCLES_800_T1H F)
             (orPins buses countBuses (fun i => subpix i &&& (0x80 >>> k) != 0))])
        ++ busFrom t1 rest := by
  induction recs with
  | nil => intro k0 t0; exact ⟨t0, rfl⟩
  | cons b bs ih =>
    intro k0 t0
    obtain ⟨t1, h⟩ := ih (k0 + 1) (CYCLES_800_T1H F)
    refine ⟨t1, ?_⟩
    simp only [bitPeriodsEvents, bitPeriodEvents, List.append_assoc, List.cons_append,
      List.nil_append, List.length_cons, List.range'_succ, List.flatMap_cons]
    rw [busFrom_polls]
    simp only [busFrom]
    rw [busFrom_polls]
    simp only [busFrom]
    split
    · simp only [List.cons_append, List.nil_append, busFrom]
      show _ :: _ :: busFrom _ (polls _ _ ++ _) = _
      rw [busFrom_polls]
      simp only [busFrom]
      rw [h]
    · simp only [List.nil_append]
      rw [busFrom_polls]
      simp only [busFrom]
      rw [h]

theorem busFrom_loads (cur : Nat → Nat) (l : List Nat) (rest : List Event) (t0 : Nat) :
    busFrom t0 (l.map (fun i => Event.load (cur i)) ++ rest)
      = l.map (fun i => BusEvent.sample (cur i)) ++ busFrom t0 rest := by
  induction l with
  | nil => rfl
  | cons a l ih => simp [busFrom, ih]

theorem busFrom_multiFrame (F : Nat) (mem : Nat → Nat) (buses : Nat → PixelBusInfo)
    (countBuses : Nat) (curs : List (Nat → Nat)) :
    ∀ (recs : List (List MultiBit)) (t0 : Nat), recs.length = curs.length →
      (∀ bs ∈ recs, bs.length = 8) →
      busFrom t0 (multiFrameEvents F mem buses countBuses curs recs)
        = curs.flatMap (fun cur =>
            (List.range countBuses).map (fun i => BusEvent.sample (cur i)) ++
              (List.range 8).flatMap (fun k =>
                [BusEvent.rise (allPins buses countBuses),
                 BusEvent.fall (CYCLES_800_T0H F)
                   (orPins buses countBuses
                     (fun i => mem (cur i) % 256 &&& (0x80 >>> k) == 0)),
                 BusEvent.fall (CYCLES_800_T1H F)
                   (orPins buses countBuses
                     (fun i => mem (cur i) % 256 &&& (0x80 >>> k) != 0))])) := by
  induction curs with
  | nil => intro recs t0 _ _; simp [multiFrameEvents, busFrom]
  | cons cur curs ih =>
    intro recs t0 hlen hall
    cases recs with
    | nil => simp at hlen
    | cons bs recs =>
      obtain ⟨t1, h⟩ := busFrom_bitPeriods F buses countBuses (allPins buses countBuses)
        (fun i => mem (cur i) % 256) cur bs
        (multiFrameEvents F mem buses countBuses curs recs) 0 t0
      have hrec := ih recs t1 (by simpa using hlen)
        (fun b hb => hall b (List.mem_cons_of_mem _ hb))
      have h8 : bs.length = 8 := hall bs (List.mem_cons_self _ _)
      rw [h8] at h
      have e : multiFrameEvents F mem buses countBuses (cur :: curs) (bs :: recs)
          = (List.range countBuses).map (fun i => Event.load (cur i)) ++
            (bitPeriodsEvents F buses countBuses (allPins buses countBuses)
              (fun i => mem (cur i) % 256) cur 0 bs ++
              multiFrameEvents F mem buses countBuses curs recs) := by
        simp [multiFrameEvents, bytePeriodEvents]
      rw [e, busFrom_loads, h, hrec, List.flatMap_cons, List.range_eq_range' 8,
        List.append_assoc]

/-! ## Buses with buffers of equal length -/

theorem lockstep_zero (buses : Nat → PixelBusInfo) (countBuses : Nat) :
    lockstepCursors buses countBuses 0 = startCursors buses countBuses := by
  funext i
  simp [lockstepCursors, startCursors]

theorem canAdvance_lockstep (buses : Nat → PixelBusInfo) (countBuses L j : Nat)
    (hL : ∀ i, i < countBuses → (buses i)._end = (buses i)._pixels + L) (k : Nat) :
    canAdvance buses countBuses (lockstepCursors buses countBuses j) k
      = decide (k < countBuses ∧ j < L) := by
  unfold canAdvance lockstepCursors
  by_cases hk : k < countBuses
  · simp only [hk, if_true, true_and, hL k hk]
    congr 1
    exact propext ⟨fun h => by omega, fun h => by omega⟩
  · simp [hk]

/-- With `1 <= countBuses <= 8` buffers of `L` bytes each, whose `_end` is one
past the last byte, the byte periods start with the cursors `0, 1, ..., L`
bytes past the starts: `L + 1` byte periods. -/
theorem periodCursors_lockstep (buses : Nat → PixelBusInfo) (countBuses L : Nat)
    (hN : 1 ≤ countBuses) (hN8 : countBuses ≤ 8)
    (hL : ∀ i, i < countBuses → (buses i)._end = (buses i)._pixels + L) :
    ∀ n j, j ≤ L → L - j < n →
      periodCursors buses countBuses n (lockstepCursors buses countBuses j)
        = (List.range' j (L - j + 1)).map (lockstepCursors buses countBuses) := by
  intro n
  induction n with
  | zero => intro j _ h; omega
  | succ n ih =>
    intro j hj hn
    by_cases hlt : j < L
    · have hany : anyAdvance buses countBuses (lockstepCursors buses countBuses j) = true := by
        apply List.any_eq_true.2
        refine ⟨0, List.mem_range.2 (by omega), ?_⟩
        rw [canAdvance_lockstep buses countBuses L j hL]
        simp; omega
      have hnext : nextCursors buses countBuses (lockstepCursors buses countBuses j)
          = lockstepCursors buses countBuses (j + 1) := by
        funext i
        unfold nextCursors
        rw [canAdvance_lockstep buses countBuses L j hL]
        unfold lockstepCursors
        by_cases hi : i < countBuses
        · have : i < 8 := by omega
          simp [hi, this, hlt]; omega
        · simp [hi]
      have e : L - j + 1 = (L - (j + 1) + 1) + 1 := by omega
      rw [periodCursors, if_pos hany, hnext, ih (j + 1) (by omega) (by omega)]
      conv_rhs => rw [e, List.range'_succ, List.map_cons]
    · have hany : anyAdvance buses countBuses (lockstepCursors buses countBuses j) = false := by
        apply Bool.eq_false_iff.2
        intro h
        obtain ⟨i, -, hc⟩ := List.any_eq_true.1 h
        rw [canAdvance_lockstep buses countBuses L j hL] at hc
        simp at hc; omega
      have e : L - j + 1 = 0 + 1 := by omega
      rw [periodCursors, hany, e]
      simp [List.range'_succ]

theorem remaining_lockstep (buses : Nat → PixelBusInfo) (countBuses L : Nat)
    (hL : ∀ i, i < countBuses → (buses i)._end = (buses i)._pixels + L) :
    remaining buses countBuses (startCursors buses countBuses) ≤ 8 * L := by
  have h : ∀ i, (if i < countBuses
      then (buses i)._end - startCursors buses countBuses i else 0) ≤ L := by
    intro i
    by_cases hi : i < countBuses
    · simp only [hi, if_true, startCursors, hL i hi]; omega
    · simp [hi]
  have h0 := h 0
  have h1 := h 1
  have h2 := h 2
  have h3 := h 3
  have h4 := h 4
  have h5 := h 5
  have h6 := h 6
  have h7 := h 7
  unfold remaining
  simp only [List.range_succ, List.range_zero, List.nil_append, List.map_append, List.map_cons,
    List.map_nil, List.sum_append, List.sum_cons, List.sum_nil]
  omega

theorem remaining_ge_lockstep (buses : Nat → PixelBusInfo) (countBuses L : Nat)
    (hN : 1 ≤ countBuses)
    (hL : ∀ i, i < countBuses → (buses i)._end = (buses i)._pixels + L) :
    L ≤ remaining buses countBuses (startCursors buses countBuses) := by
  have h0 : (if 0 < countBuses
      then (buses 0)._end - startCursors buses countBuses 0 else 0) = L := by
    have : 0 < countBuses := hN
    simp only [this, if_true, startCursors, hL 0 this]; omega
  unfold remaining
  simp only [List.range_succ, List.range_zero, List.nil_append, List.map_append, List.map_cons,
    List.map_nil, List.sum_append, List.sum_cons, List.sum_nil]
  omega

/-- With buffers of equal length the byte periods start `0, 1, ..., L` bytes
past the starts of the buffers. -/
theorem periodCursors_start_lockstep (buses : Nat → PixelBusInfo) (countBuses L fuel : Nat)
    (hN : 1 ≤ countBuses) (hN8 : countBuses ≤ 8)
    (hL : ∀ i, i < countBuses → (buses i)._end = (buses i)._pixels + L)
    (hbytes : remaining buses countBuses (startCursors buses countBuses) < fuel) :
    periodCursors buses countBuses fuel (startCursors buses countBuses)
      = (List.range (L + 1)).map (lockstepCursors buses countBuses) := by
  have := remaining_ge_lockstep buses countBuses L hN hL
  rw [← lockstep_zero,
    periodCursors_lockstep buses countBuses L hN hN8 hL fuel 0 (Nat.zero_le _) (by omega),
    Nat.sub_zero, List.range_eq_range']

/-- Data events with buffers of equal length: byte period `j` runs from `0` to
`L`; it loads byte `j` of every bus, and bus `k` advances at bit-index `k` if
`j < L`. -/
theorem dataTrace_lockstep (F : Nat) (adv : Nat → Nat) (d fuel : Nat)
    (mem : Nat → Nat) (buses : Nat → PixelBusInfo) (countBuses L : Nat) (c : Clock)
    (hN : 1 ≤ countBuses) (hN8 : countBuses ≤ 8)
    (hL : ∀ i, i < countBuses → (buses i)._end = (buses i)._pixels + L)
    (hadv : ∀ k, 1 ≤ adv k ∧ adv k ≤ d) (hfuel : CYCLES_800 F < fuel)
    (hbytes : 8 * L < fuel) (hd : CYCLES_800 F + d ≤ WORD) :
    ∃ tr, send_multibus_pixels_800 F adv fuel mem buses countBuses c = some tr
      ∧ dataTrace tr
        = (List.range (L + 1)).flatMap (fun j =>
            bytePeriodData mem buses countBuses (lockstepCursors buses countBuses j)) := by
  have hrem := remaining_lockstep buses countBuses L hL
  obtain ⟨tr, hrun, hdata⟩ :=
    send_multibus_pixels_800_spec F adv d fuel mem buses countBuses c hadv hfuel
      (by omega) hd
  refine ⟨tr, hrun, ?_⟩
  rw [hdata, periodCursors_start_lockstep buses countBuses L fuel hN hN8 hL (by omega),
    List.flatMap_map]

theorem bitPeriodData_congr (buses : Nat → PixelBusInfo) (countBuses all : Nat)
    (f g cur : Nat → Nat) (h : ∀ i, i < countBuses → f i = g i) (k : Nat) :
    bitPeriodData buses countBuses all f cur k = bitPeriodData buses countBuses all g cur k := by
  unfold bitPeriodData
  rw [orPins_congr buses countBuses (fun i => f i &&& (0x80 >>> k) == 0)
        (fun i => g i &&& (0x80 >>> k) == 0) (fun i hi => by simp only [h i hi]),
      orPins_congr buses countBuses (fun i => f i &&& (0x80 >>> k) != 0)
        (fun i => g i &&& (0x80 >>> k) != 0) (fun i hi => by simp only [h i hi])]

/-! ## Facts about a whole single-bus frame -/

theorem frame_length (mem : Nat → Nat) (t0h t1h pixels n : Nat) (recs : List (List Pulse))
    (h : recs.map (fun ps => ps.map (fun p => p.thr))
      = (bufferBytes mem pixels n).map (byteThresholds t0h t1h)) :
    recs.flatten.length = 8 * n := by
  have := congrArg List.length (frame_thresholds recs _ h)
  rwa [List.length_map, thresholds_length] at this

/-- Order of the GPIO writes and of the hold thresholds in a canonical frame. -/
theorem frame_order (mem : Nat → Nat) (t0h t1h period pin pixels n t : Nat)
    (recs : List (List Pulse))
    (h : recs.map (fun ps => ps.map (fun p => p.thr))
      = (bufferBytes mem pixels n).map (byteThresholds t0h t1h)) :
    gpioWrites (Event.ccount t :: frameEvents period pin pixels recs)
        = (List.replicate (8 * n) [Event.setHigh pin, Event.setLow pin]).flatten
      ∧ (holdThresholds (Event.ccount t :: frameEvents period pin pixels recs)).length = 8 * n
      ∧ ∀ k, k < 8 * n →
          (holdThresholds (Event.ccount t :: frameEvents period pin pixels recs))[k]?
            = some (bitThreshold mem t0h t1h pixels k) := by
  have hh : holdThresholds (Event.ccount t :: frameEvents period pin pixels recs)
      = ((bufferBytes mem pixels n).map (byteThresholds t0h t1h)).flatten := by
    show holdFrom 0 (frameEvents period pin pixels recs) = _
    rw [holdFrom_frame, frame_thresholds recs _ h]
  refine ⟨?_, ?_, ?_⟩
  · show gpioWrites (frameEvents period pin pixels recs) = _
    rw [gpioWrites_frame, frame_length mem t0h t1h pixels n recs h]
  · rw [hh, thresholds_length]
  · intro k hk
    rw [hh, thresholds_index mem t0h t1h n pixels k hk]

/-- Per-bit timing of a canonical frame, by pulse number. -/
theorem frame_timing (mem : Nat → Nat) (t0h t1h period d pin pixels n t : Nat)
    (recs : List (List Pulse))
    (h : recs.map (fun ps => ps.map (fun p => p.thr))
      = (bufferBytes mem pixels n).map (byteThresholds t0h t1h))
    (ht : Timed period d none recs.flatten) :
    (pulseTimes (Event.ccount t :: frameEvents period pin pixels recs)).length = 8 * n
      ∧ ∀ k r f, (pulseTimes (Event.ccount t :: frameEvents period pin pixels recs))[k]?
            = some (r, f) →
          (r ≤ f ∧ bitThreshold mem t0h t1h pixels k ≤ f - r
            ∧ f - r ≤ bitThreshold mem t0h t1h pixels k + d - 1)
          ∧ ∀ r1 f1, (pulseTimes (Event.ccount t :: frameEvents period pin pixels recs))[k + 1]?
                = some (r1, f1) →
              r ≤ r1 ∧ period ≤ r1 - r ∧ r1 - r ≤ period + d - 1 := by
  have hp : pulseTimes (Event.ccount t :: frameEvents period pin pixels recs)
      = recs.flatten.map (fun p => (p.rise, p.fall)) := by
    show pulsesFrom t 0 (frameEvents period pin pixels recs) = _
    rw [pulsesFrom_frame]
  have hlen := frame_length mem t0h t1h pixels n recs h
  refine ⟨by rw [hp, List.length_map, hlen], ?_⟩
  intro k r f hk
  rw [hp, List.getElem?_map] at hk
  obtain ⟨p, hpk, hpe⟩ := Option.map_eq_some'.1 hk
  simp only [Prod.mk.injEq] at hpe
  obtain ⟨rfl, rfl⟩ := hpe
  obtain ⟨⟨h1, h2⟩, h3⟩ := Timed_index period d recs.flatten none ht k p hpk
  have hklt : k < 8 * n := by
    rw [← hlen]
    exact (List.getElem?_eq_some_iff.1 hpk).1
  have hthr : p.thr = bitThreshold mem t0h t1h pixels k := by
    have e := thresholds_index mem t0h t1h n pixels k hklt
    rw [← frame_thresholds recs _ h, List.getElem?_map, hpk] at e
    simpa using e
  rw [← hthr]
  refine ⟨⟨by omega, by omega, by omega⟩, ?_⟩
  intro r1 f1 hk1
  rw [hp, List.getElem?_map] at hk1
  obtain ⟨q, hqk, hqe⟩ := Option.map_eq_some'.1 hk1
  simp only [Prod.mk.injEq] at hqe
  obtain ⟨rfl, rfl⟩ := hqe
  have := h3 q hqk
  exact ⟨by omega, by omega, by omega⟩


set_option maxRecDepth 100000 in
theorem byteOfBits_masks : ∀ b, b < 256 →
    byteOfBits (bitMasks.map (fun m => decide (b &&& m ≠ 0))) = b := by
  decide

theorem Timed_mem (period d : Nat) (ps : List Pulse) :
    ∀ prev, Timed period d prev ps →
      ∀ p ∈ ps, p.rise + p.thr ≤ p.fall ∧ p.fall < p.rise + p.thr + d := by
  induction ps with
  | nil => intro prev _ p hp; simp at hp
  | cons a ps ih =>
    intro prev ht p hp
    obtain ⟨_, h2, h3, h4⟩ := ht
    rcases List.mem_cons.1 hp with rfl | h
    · exact ⟨h2, h3⟩
    · exact ih _ h4 p h

theorem byteThresholds_mem (t0h t1h b T : Nat) (h : T ∈ byteThresholds t0h t1h b) :
    T = t0h ∨ T = t1h := by
  obtain ⟨m, -, rfl⟩ := List.mem_map.1 h
  split
  · exact Or.inr rfl
  · exact Or.inl rfl

/-- Thresholding the hold times of the bits of a buffer and packing them gives
the buffer back. -/
theorem packBytes_thresholds (mem : Nat → Nat) (t0h t1h : Nat) (h01 : t0h < t1h) :
    ∀ n pixels,
      packBytes (((bufferBytes mem pixels n).map (byteThresholds t0h t1h)).flatten.map
        (fun T => decide (t1h ≤ T))) = bufferBytes mem pixels n := by
  intro n
  induction n with
  | zero => intro pixels; rfl
  | succ n ih =>
    intro pixels
    have hb : ∀ m : Nat, decide (t1h ≤ if mem pixels % 256 &&& m ≠ 0 then t1h else t0h)
        = decide (mem pixels % 256 &&& m ≠ 0) := by
      intro m
      by_cases h : mem pixels % 256 &&& m = 0
      · simp [h]; omega
      · simp [h]
    have hbyte := byteOfBits_masks (mem pixels % 256) (Nat.mod_lt _ (by decide))
    simp only [bufferBytes, List.map_cons, List.flatten_cons, List.map_append]
    simp only [byteThresholds, bitMasks, List.map_cons, List.map_nil, List.cons_append,
      List.nil_append, packBytes, hb]
    simp only [bitMasks, List.map_cons, List.map_nil] at hbyte
    rw [hbyte]
    show _ :: packBytes (List.map (fun T => decide (t1h ≤ T))
      (List.map (byteThresholds t0h t1h) (bufferBytes mem (pixels + 1) n)).flatten) = _
    rw [ih (pixels + 1)]

theorem frame_decode (mem : Nat → Nat) (t0h t1h period d pin pixels n t : Nat)
    (recs : List (List Pulse)) (hd : 1 ≤ d) (h01 : t0h + d ≤ t1h)
    (h : recs.map (fun ps => ps.map (fun p => p.thr))
      = (bufferBytes mem pixels n).map (byteThresholds t0h t1h))
    (ht : Timed period d none recs.flatten) :
    decodeBytes t1h (Event.ccount t :: frameEvents period pin pixels recs)
      = bufferBytes mem pixels n := by
  have hp : pulseTimes (Event.ccount t :: frameEvents period pin pixels recs)
      = recs.flatten.map (fun p => (p.rise, p.fall)) := by
    show pulsesFrom t 0 (frameEvents period pin pixels recs) = _
    rw [pulsesFrom_frame]
  have hT := frame_thresholds recs _ h
  have hbit : recs.flatten.map (fun p => decide (t1h ≤ p.fall - p.rise))
      = (recs.flatten.map (fun p => p.thr)).map (fun T => decide (t1h ≤ T)) := by
    rw [List.map_map]
    apply List.map_congr_left
    intro p hp1
    obtain ⟨h1, h2⟩ := Timed_mem period d _ none ht p hp1
    have hmem : p.thr ∈ ((bufferBytes mem pixels n).map (byteThresholds t0h t1h)).flatten := by
      rw [← hT]; exact List.mem_map_of_mem _ hp1
    obtain ⟨l, hl, hpl⟩ := List.mem_flatten.1 hmem
    obtain ⟨b, -, rfl⟩ := List.mem_map.1 hl
    have := byteThresholds_mem t0h t1h b p.thr hpl
    simp only [Function.comp, decide_eq_decide]
    omega
  unfold decodeBytes
  rw [hp, List.map_map]
  show packBytes (recs.flatten.map (fun p => decide (t1h ≤ p.fall - p.rise))) = _
  rw [hbit, hT, packBytes_thresholds mem t0h t1h (by omega)]

theorem Timed_last (period d t1h : Nat) (hpd : t1h + d ≤ period)
    (ps : List Pulse) :
    ∀ r0 q, Timed period d (some r0) ps → (∀ p ∈ ps, p.thr ≤ t1h) → ps.getLast? = some q →
      q.fall + 1 ≤ r0 + ps.length * (period + d - 1) + period := by
  induction ps with
  | nil => intro r0 q _ _ hq; simp at hq
  | cons a ps ih =>
    intro r0 q ht hthr hq
    obtain ⟨h1, h2, h3, h4⟩ := ht
    have ha := h1 r0 rfl
    have hat := hthr a (List.mem_cons_self _ _)
    cases ps with
    | nil =>
      simp only [List.getLast?_singleton, Option.some.injEq] at hq
      subst hq
      simp only [List.length_singleton, Nat.one_mul]
      omega
    | cons b ps =>
      rw [List.getLast?_cons_cons] at hq
      have := ih a.rise q h4 (fun p hp => hthr p (List.mem_cons_of_mem _ hp)) hq
      rw [List.length_cons, Nat.succ_mul]
      omega

/-- Blocking time of a canonical frame whose first rising edge comes at most
`d` cycles after the call's first counter read. -/
theorem frame_blocking (mem : Nat → Nat) (t0h t1h period d pin pixels n t : Nat)
    (recs : List (List Pulse)) (h01 : t0h ≤ t1h) (hpd : t1h + d ≤ period)
    (h : recs.map (fun ps => ps.map (fun p => p.thr))
      = (bufferBytes mem pixels n).map (byteThresholds t0h t1h))
    (hfirst : ∀ p, recs.flatten.head? = some p → p.rise ≤ t + d)
    (ht : Timed period d none recs.flatten) :
    blockingCycles (Event.ccount t :: frameEvents period pin pixels recs)
      ≤ n * 8 * (period + d - 1) := by
  have hp : pulseTimes (Event.ccount t :: frameEvents period pin pixels recs)
      = recs.flatten.map (fun p => (p.rise, p.fall)) := by
    show pulsesFrom t 0 (frameEvents period pin pixels recs) = _
    rw [pulsesFrom_frame]
  have hT := frame_thresholds recs _ h
  have hlen := frame_length mem t0h t1h pixels n recs h
  have hthr : ∀ p ∈ recs.flatten, p.thr ≤ t1h := by
    intro p hp1
    have hmem : p.thr ∈ ((bufferBytes mem pixels n).map (byteThresholds t0h t1h)).flatten := by
      rw [← hT]; exact List.mem_map_of_mem _ hp1
    obtain ⟨l, hl, hpl⟩ := List.mem_flatten.1 hmem
    obtain ⟨b, -, rfl⟩ := List.mem_map.1 hl
    rcases byteThresholds_mem t0h t1h b p.thr hpl with e | e <;> omega
  unfold blockingCycles
  rw [hp, List.getLast?_map]
  generalize recs.flatten = all at *
  cases all with
  | nil => simp
  | cons a rest =>
    have ha := hfirst a rfl
    obtain ⟨-, h2, h3, h4⟩ := ht
    have hat := hthr a (List.mem_cons_self _ _)
    cases rest with
    | nil =>
      simp only [List.length_singleton] at hlen
      simp only [List.head?_cons, List.getLast?_singleton, Option.map_some']
      have e : n * 8 * (period + d - 1) = 1 * (period + d - 1) := by
        rw [Nat.mul_comm n 8, ← hlen]
      rw [e]; omega
    | cons b rest =>
      obtain ⟨q, hq⟩ : ∃ q, (b :: rest).getLast? = some q :=
        ⟨_, List.getLast?_eq_getLast _ (List.cons_ne_nil _ _)⟩
      have := Timed_last period d t1h hpd (b :: rest) a.rise q h4
        (fun p hp => hthr p (List.mem_cons_of_mem _ hp)) hq
      simp only [List.head?_cons, List.getLast?_cons_cons, hq, Option.map_some']
      have e : n * 8 * (period + d - 1)
          = (b :: rest).length * (period + d - 1) + (period + d - 1) := by
        rw [Nat.mul_comm n 8, ← hlen, List.length_cons (a := a), Nat.succ_mul]
      rw [e]; omega

theorem spinReads_append (xs ys : List Event) :
    spinReads (xs ++ ys) = spinReads xs ++ spinReads ys := by
  induction xs with
  | nil => rfl
  | cons e es ih => cases e <;> simp [spinReads, ih]

theorem spinReads_bits (period pin : Nat) (ps : List Pulse) :
    2 * ps.length ≤ (spinReads (bitsEvents period pin ps)).length := by
  induction ps with
  | nil => simp [bitsEvents, spinReads]
  | cons p ps ih =>
    simp only [bitsEvents, Pulse.events, spinReads_append, List.length_append, spinReads,
      List.length_cons, List.length_nil]
    omega

theorem spinReads_frame (period pin : Nat) (recs : List (List Pulse)) :
    ∀ a, 2 * recs.flatten.length ≤ (spinReads (frameEvents period pin a recs)).length := by
  induction recs with
  | nil => intro a; simp [frameEvents, spinReads]
  | cons ps recs ih =>
    intro a
    have h1 := spinReads_bits period pin ps
    have h2 := ih (a + 1)
    simp only [frameEvents, spinReads, spinReads_append, List.length_append,
      List.flatten_cons]
    omega

/-! ## Claims about the single-bus encoders -/

/-- C2. Pulse count and bit order: on a clock that advances between 1 and `d`
cycles per read, with `d` below `2^32` minus the bit period of the class, each
single-bus encoder sends a buffer of `n >= 1` bytes as exactly `8 * n` pulses,
a set-high of the pin mask followed by a set-low of the same mask, starting
with the set-high; pulse `k` holds for `T1H` if bit `7 - k % 8` of byte
`k / 8` is set and for `T0H` otherwise. -/
theorem single_bus_pulse_order (F : Nat) (adv : Nat → Nat) (d fuel : Nat) (mem : Nat → Nat)
    (pixels n pin : Nat) (c : Clock)
    (hn : 1 ≤ n) (hadv : ∀ k, 1 ≤ adv k ∧ adv k ≤ d) (hbytes : n < fuel) :
    (CYCLES_800 F + d < WORD → CYCLES_800 F < fuel →
      ∃ tr, send_pixels_800 F adv fuel mem pixels (pixels + n) pin c = some tr
        ∧ gpioWrites tr
            = (List.replicate (8 * n) [Event.setHigh (_BV pin), Event.setLow (_BV pin)]).flatten
        ∧ (holdThresholds tr).length = 8 * n
        ∧ ∀ k, k < 8 * n → (holdThresholds tr)[k]?
            = some (bitThreshold mem (CYCLES_800_T0H F) (CYCLES_800_T1H F) pixels k))
    ∧ (CYCLES_400 F + d < WORD → CYCLES_400 F < fuel →
      ∃ tr, send_pixels_400 F adv fuel mem pixels (pixels + n) pin c = some tr
        ∧ gpioWrites tr
            = (List.replicate (8 * n) [Event.setHigh (_BV pin), Event.setLow (_BV pin)]).flatten
        ∧ (holdThresholds tr).length = 8 * n
        ∧ ∀ k, k < 8 * n → (holdThresholds tr)[k]?
            = some (bitThreshold mem (CYCLES_400_T0H F) (CYCLES_400_T1H F) pixels k)) := by
  constructor
  · intro hd hfuel
    obtain ⟨recs, hrun, hthr, -, -⟩ :=
      send_pixels_800_spec F adv d fuel mem pixels (pixels + n) pin c hadv hfuel
        (by omega) hd
    have e : pixels + n - (pixels + 1) + 1 = n := by omega
    rw [e] at hthr
    exact ⟨_, hrun, frame_order mem _ _ _ _ pixels n c.now recs hthr⟩
  · intro hd hfuel
    obtain ⟨recs, hrun, hthr, -, -⟩ :=
      send_pixels_400_spec F adv d fuel mem pixels (pixels + n) pin c hadv hfuel
        (by omega) hd
    have e : pixels + n - pixels = n := by omega
    rw [e] at hthr
    exact ⟨_, hrun, frame_order mem _ _ _ _ pixels n c.now recs hthr⟩

/-- C4. Per-bit timing with wraparound: `F_CPU` is a 32-bit constant, the
counter read returns true time mod `2^32` and true time advances between 1 and
`d` cycles per read, with `d <= period - T1H` and `T0H >= 1`.  Then, from any
initial counter value, every pulse `k` of either single-bus encoder stays high
for between `T` and `T + d - 1` cycles of true time, `T` being `T1H` for a 1
bit and `T0H` for a 0 bit, and consecutive rising edges are between `period`
and `period + d - 1` cycles apart. -/
theorem single_bus_bit_timing (F : Nat) (adv : Nat → Nat) (d fuel : Nat) (mem : Nat → Nat)
    (pixels end_ pin : Nat) (c : Clock)
    (hF : F < WORD) (hadv : ∀ k, 1 ≤ adv k ∧ adv k ≤ d)
    (hfuel : CYCLES_400 F < fuel) (hbytes : end_ - pixels < fuel) :
    (1 ≤ CYCLES_800_T0H F → d ≤ CYCLES_800 F - CYCLES_800_T1H F →
      ∃ tr, send_pixels_800 F adv fuel mem pixels end_ pin c = some tr
        ∧ (pulseTimes tr).length = 8 * (end_ - (pixels + 1) + 1)
        ∧ ∀ k r f, (pulseTimes tr)[k]? = some (r, f) →
            (r ≤ f
              ∧ bitThreshold mem (CYCLES_800_T0H F) (CYCLES_800_T1H F) pixels k ≤ f - r
              ∧ f - r ≤ bitThreshold mem (CYCLES_800_T0H F) (CYCLES_800_T1H F) pixels k + d - 1)
            ∧ ∀ r1 f1, (pulseTimes tr)[k + 1]? = some (r1, f1) →
                r ≤ r1 ∧ CYCLES_800 F ≤ r1 - r ∧ r1 - r ≤ CYCLES_800 F + d - 1)
    ∧ (1 ≤ CYCLES_400_T0H F → d ≤ CYCLES_400 F - CYCLES_400_T1H F →
      ∃ tr, send_pixels_400 F adv fuel mem pixels end_ pin c = some tr
        ∧ (pulseTimes tr).length = 8 * (end_ - pixels)
        ∧ ∀ k r f, (pulseTimes tr)[k]? = some (r, f) →
            (r ≤ f
              ∧ bitThreshold mem (CYCLES_400_T0H F) (CYCLES_400_T1H F) pixels k ≤ f - r
              ∧ f - r ≤ bitThreshold mem (CYCLES_400_T0H F) (CYCLES_400_T1H F) pixels k + d - 1)
            ∧ ∀ r1 f1, (pulseTimes tr)[k + 1]? = some (r1, f1) →
                r ≤ r1 ∧ CYCLES_400 F ≤ r1 - r ∧ r1 - r ≤ CYCLES_400 F + d - 1) := by
  have hd1 : 1 ≤ d := le_trans (hadv 0).1 (hadv 0).2
  have h84 : CYCLES_800 F ≤ CYCLES_400 F := by unfold CYCLES_800 CYCLES_400; omega
  have hP8 : CYCLES_800 F < 6000 := by unfold CYCLES_800 WORD at *; omega
  have hP4 : CYCLES_400 F < 12000 := by unfold CYCLES_400 WORD at *; omega
  constructor
  · intro ht0 hdle
    obtain ⟨recs, hrun, hthr, -, htime⟩ :=
      send_pixels_800_spec F adv d fuel mem pixels end_ pin c hadv (by omega)
        (by omega) (by unfold WORD; omega)
    exact ⟨_, hrun, frame_timing mem _ _ _ d _ pixels _ c.now recs hthr
      (htime ht0 (by omega))⟩
  · intro ht0 hdle
    obtain ⟨recs, hrun, hthr, -, htime⟩ :=
      send_pixels_400_spec F adv d fuel mem pixels end_ pin c hadv hfuel
        (by omega) (by unfold WORD; omega)
    exact ⟨_, hrun, frame_timing mem _ _ _ d _ pixels _ c.now recs hthr
      (htime ht0 (by omega))⟩

/-- C2, the scenario of the claim: the buffer `[0b10110010]` sent by
`send_pixels_800` at 80 MHz gives eight pulses with the hold thresholds
`[T1H, T0H, T1H, T1H, T0H, T0H, T1H, T0H]`. -/
theorem single_bus_pulse_order_witness :
    (1 ≤ 1 ∧ (∀ k : Nat, 1 ≤ (fun _ => 1) k ∧ (fun _ => 1) k ≤ 1) ∧ 1 < 201
      ∧ CYCLES_800 80000000 + 1 < WORD ∧ CYCLES_800 80000000 < 201)
    ∧ ∃ tr, send_pixels_800 80000000 (fun _ => 1) 201 (fun _ => 0xB2) 0 (0 + 1) 0 ⟨0, 0⟩
          = some tr
        ∧ gpioWrites tr = (List.replicate 8 [Event.setHigh 1, Event.setLow 1]).flatten
        ∧ holdThresholds tr
          = [CYCLES_800_T1H 80000000, CYCLES_800_T0H 80000000, CYCLES_800_T1H 80000000,
             CYCLES_800_T1H 80000000, CYCLES_800_T0H 80000000, CYCLES_800_T0H 80000000,
             CYCLES_800_T1H 80000000, CYCLES_800_T0H 80000000] := by
  have hyp : 1 ≤ 1 ∧ (∀ k : Nat, 1 ≤ (fun _ => 1) k ∧ (fun _ => 1) k ≤ 1) ∧ 1 < 201
      ∧ CYCLES_800 80000000 + 1 < WORD ∧ CYCLES_800 80000000 < 201 :=
    ⟨by decide, fun _ => ⟨Nat.le_refl 1, Nat.le_refl 1⟩, by decide, by decide, by decide⟩
  refine ⟨hyp, ?_⟩
  obtain ⟨tr, hrun, hw, hlen, hk⟩ :=
    (single_bus_pulse_order 80000000 (fun _ => 1) 1 201 (fun _ => 0xB2) 0 1 0 ⟨0, 0⟩
      hyp.1 hyp.2.1 hyp.2.2.1).1 hyp.2.2.2.1 hyp.2.2.2.2
  refine ⟨tr, hrun, hw, ?_⟩
  apply List.ext_getElem?
  intro k
  by_cases h : k < 8
  · rw [hk k h]
    interval_cases k <;> rfl
  · rw [List.getElem?_eq_none (by omega), List.getElem?_eq_none (by simp; omega)]

/-- C4 at 80 MHz with a clock of 3 cycles per read, a two-byte buffer and an
initial counter value 10 cycles before the counter overflows: both encoders
meet the timing bounds on all 16 pulses. -/
theorem single_bus_bit_timing_witness :
    (80000000 < WORD ∧ (∀ k : Nat, 1 ≤ (fun _ => 3) k ∧ (fun _ => 3) k ≤ 3)
      ∧ CYCLES_400 80000000 < 201 ∧ 2 - 0 < 201
      ∧ 1 ≤ CYCLES_800_T0H 80000000 ∧ 3 ≤ CYCLES_800 80000000 - CYCLES_800_T1H 80000000
      ∧ 1 ≤ CYCLES_400_T0H 80000000 ∧ 3 ≤ CYCLES_400 80000000 - CYCLES_400_T1H 80000000)
    ∧ (∃ tr, send_pixels_800 80000000 (fun _ => 3) 201 (fun a => 0xA5 + a) 0 2 0
          ⟨4294967286, 0⟩ = some tr
        ∧ (pulseTimes tr).length = 16)
    ∧ (∃ tr, send_pixels_400 80000000 (fun _ => 3) 201 (fun a => 0xA5 + a) 0 2 0
          ⟨4294967286, 0⟩ = some tr
        ∧ (pulseTimes tr).length = 16) := by
  have hyp : 80000000 < WORD ∧ (∀ k : Nat, 1 ≤ (fun _ => 3) k ∧ (fun _ => 3) k ≤ 3)
      ∧ CYCLES_400 80000000 < 201 ∧ 2 - 0 < 201
      ∧ 1 ≤ CYCLES_800_T0H 80000000 ∧ 3 ≤ CYCLES_800 80000000 - CYCLES_800_T1H 80000000
      ∧ 1 ≤ CYCLES_400_T0H 80000000 ∧ 3 ≤ CYCLES_400 80000000 - CYCLES_400_T1H 80000000 :=
    ⟨by decide, fun _ => ⟨by simp, Nat.le_refl 3⟩, by decide, by decide, by decide, by decide,
      by decide, by decide⟩
  have h := single_bus_bit_timing 80000000 (fun _ => 3) 3 201 (fun a => 0xA5 + a) 0 2 0
    ⟨4294967286, 0⟩ hyp.1 hyp.2.1 hyp.2.2.1 hyp.2.2.2.1
  obtain ⟨tr8, hrun8, hlen8, -⟩ := h.1 hyp.2.2.2.2.1 hyp.2.2.2.2.2.1
  obtain ⟨tr4, hrun4, hlen4, -⟩ := h.2 hyp.2.2.2.2.2.2.1 hyp.2.2.2.2.2.2.2
  exact ⟨hyp, ⟨tr8, hrun8, hlen8⟩, ⟨tr4, hrun4, hlen4⟩⟩

/-- C1 as stated fails when `T0H = 0`.  At `F_CPU = 2 MHz` the 800 kHz budgets
are `T0H = 0`, `T1H = 1`, period `2`; a clock of one cycle per read meets
`d <= T1H - T0H` and `d <= period - T1H` with `d = 1`; the buffer `[0x00]` is
sent with every pulse high for one cycle, and decodes to `[0xFF]`. -/
theorem round_trip_counterexample :
    (∀ k : Nat, 1 ≤ (fun _ => 1) k ∧ (fun _ => 1) k ≤ 1)
      ∧ 1 ≤ CYCLES_800_T1H 2000000 - CYCLES_800_T0H 2000000
      ∧ 1 ≤ CYCLES_800 2000000 - CYCLES_800_T1H 2000000
      ∧ bufferBytes (fun _ => 0) 0 1 = [0]
      ∧ (send_pixels_800 2000000 (fun _ => 1) 5 (fun _ => 0) 0 1 0 ⟨0, 0⟩).map
          (decodeBytes (CYCLES_800_T1H 2000000)) = some [255] :=
  ⟨fun _ => ⟨Nat.le_refl 1, Nat.le_refl 1⟩, by decide, by decide, by decide, by decide⟩

/-- C1 (amended). Round trip: `F_CPU` is a 32-bit constant, the buffer has
`n >= 1` bytes and the clock advances between 1 and `d` cycles per read, with
`T0H >= 1`, `d <= T1H - T0H` and `d <= period - T1H` of the class.  Decoding
the recorded trace of either single-bus encoder (one bit per pulse, `1` iff
the measured high-duration is at least `T1H`, eight bits per byte, MSB first)
gives exactly the bytes of the buffer, in order. -/
theorem single_bus_round_trip (F : Nat) (adv : Nat → Nat) (d fuel : Nat) (mem : Nat → Nat)
    (pixels n pin : Nat) (c : Clock)
    (hF : F < WORD) (hn : 1 ≤ n) (hadv : ∀ k, 1 ≤ adv k ∧ adv k ≤ d)
    (hfuel : CYCLES_400 F < fuel) (hbytes : n < fuel) :
    (1 ≤ CYCLES_800_T0H F → d ≤ CYCLES_800_T1H F - CYCLES_800_T0H F →
      d ≤ CYCLES_800 F - CYCLES_800_T1H F →
      ∃ tr, send_pixels_800 F adv fuel mem pixels (pixels + n) pin c = some tr
        ∧ decodeBytes (CYCLES_800_T1H F) tr = bufferBytes mem pixels n)
    ∧ (1 ≤ CYCLES_400_T0H F → d ≤ CYCLES_400_T1H F - CYCLES_400_T0H F →
      d ≤ CYCLES_400 F - CYCLES_400_T1H F →
      ∃ tr, send_pixels_400 F adv fuel mem pixels (pixels + n) pin c = some tr
        ∧ decodeBytes (CYCLES_400_T1H F) tr = bufferBytes mem pixels n) := by
  have hd1 : 1 ≤ d := le_trans (hadv 0).1 (hadv 0).2
  have h84 : CYCLES_800 F ≤ CYCLES_400 F := by unfold CYCLES_800 CYCLES_400; omega
  have hP8 : CYCLES_800 F < 6000 := by unfold CYCLES_800 WORD at *; omega
  have hP4 : CYCLES_400 F < 12000 := by unfold CYCLES_400 WORD at *; omega
  constructor
  · intro ht0 hd01 hdle
    obtain ⟨recs, hrun, hthr, -, htime⟩ :=
      send_pixels_800_spec F adv d fuel mem pixels (pixels + n) pin c hadv (by omega)
        (by omega) (by unfold WORD; omega)
    have e : pixels + n - (pixels + 1) + 1 = n := by omega
    rw [e] at hthr
    exact ⟨_, hrun, frame_decode mem _ _ _ d _ pixels n c.now recs hd1 (by omega) hthr
      (htime ht0 (by omega))⟩
  · intro ht0 hd01 hdle
    obtain ⟨recs, hrun, hthr, -, htime⟩ :=
      send_pixels_400_spec F adv d fuel mem pixels (pixels + n) pin c hadv hfuel
        (by omega) (by unfold WORD; omega)
    have e : pixels + n - pixels = n := by omega
    rw [e] at hthr
    exact ⟨_, hrun, frame_decode mem _ _ _ d _ pixels n c.now recs hd1 (by omega) hthr
      (htime ht0 (by omega))⟩

/-- C1 (amended) at 80 MHz, three bytes, a clock of 5 cycles per read: both
encoders' traces decode to the buffer. -/
theorem single_bus_round_trip_witness :
    (80000000 < WORD ∧ 1 ≤ 3 ∧ (∀ k : Nat, 1 ≤ (fun _ => 5) k ∧ (fun _ => 5) k ≤ 5)
      ∧ CYCLES_400 80000000 < 201 ∧ 3 < 201
      ∧ 1 ≤ CYCLES_800_T0H 80000000
      ∧ 5 ≤ CYCLES_800_T1H 80000000 - CYCLES_800_T0H 80000000
      ∧ 5 ≤ CYCLES_800 80000000 - CYCLES_800_T1H 80000000
      ∧ 1 ≤ CYCLES_400_T0H 80000000
      ∧ 5 ≤ CYCLES_400_T1H 80000000 - CYCLES_400_T0H 80000000
      ∧ 5 ≤ CYCLES_400 80000000 - CYCLES_400_T1H 80000000)
    ∧ (∃ tr, send_pixels_800 80000000 (fun _ => 5) 201 (fun a => 0x3C + 64 * a) 10 (10 + 3) 2
          ⟨7, 0⟩ = some tr
        ∧ decodeBytes (CYCLES_800_T1H 80000000) tr = [188, 252, 60])
    ∧ (∃ tr, send_pixels_400 80000000 (fun _ => 5) 201 (fun a => 0x3C + 64 * a) 10 (10 + 3) 2
          ⟨7, 0⟩ = some tr
        ∧ decodeBytes (CYCLES_400_T1H 80000000) tr = [188, 252, 60]) := by
  have hyp : 80000000 < WORD ∧ 1 ≤ 3 ∧ (∀ k : Nat, 1 ≤ (fun _ => 5) k ∧ (fun _ => 5) k ≤ 5)
      ∧ CYCLES_400 80000000 < 201 ∧ 3 < 201
      ∧ 1 ≤ CYCLES_800_T0H 80000000
      ∧ 5 ≤ CYCLES_800_T1H 80000000 - CYCLES_800_T0H 80000000
      ∧ 5 ≤ CYCLES_800 80000000 - CYCLES_800_T1H 80000000
      ∧ 1 ≤ CYCLES_400_T0H 80000000
      ∧ 5 ≤ CYCLES_400_T1H 80000000 - CYCLES_400_T0H 80000000
      ∧ 5 ≤ CYCLES_400 80000000 - CYCLES_400_T1H 80000000 :=
    ⟨by decide, by decide, fun _ => ⟨by simp, Nat.le_refl 5⟩, by decide, by decide, by decide,
      by decide, by decide, by decide, by decide, by decide⟩
  have h := single_bus_round_trip 80000000 (fun _ => 5) 5 201 (fun a => 0x3C + 64 * a) 10 3 2
    ⟨7, 0⟩ hyp.1 hyp.2.1 hyp.2.2.1 hyp.2.2.2.1 hyp.2.2.2.2.1
  obtain ⟨h1, h2, h3, h4, h5, h6⟩ := hyp.2.2.2.2.2
  exact ⟨hyp, h.1 h1 h2 h3, h.2 h4 h5 h6⟩

/-- C3, the code at the failing input.  Called with `pixels == end`,
`send_pixels_400` does one counter read and nothing else, while
`send_pixels_800` runs its `do ... while` body once: it fetches the byte at
address `end`, makes 16 GPIO writes (8 pulses) and at least 16 counter reads
inside spin-waits. -/
theorem empty_buffer_divergence (F : Nat) (adv : Nat → Nat) (d fuel : Nat) (mem : Nat → Nat)
    (pixels pin : Nat) (c : Clock)
    (hadv : ∀ k, 1 ≤ adv k ∧ adv k ≤ d) (hd : CYCLES_800 F + d < WORD)
    (hfuel : CYCLES_800 F < fuel) :
    send_pixels_400 F adv fuel mem pixels pixels pin c = some [Event.ccount c.now]
    ∧ ∃ tr, send_pixels_800 F adv fuel mem pixels pixels pin c = some tr
        ∧ loads tr = [pixels]
        ∧ gpioWrites tr
            = (List.replicate 8 [Event.setHigh (_BV pin), Event.setLow (_BV pin)]).flatten
        ∧ 16 ≤ (spinReads tr).length := by
  constructor
  · obtain ⟨f, rfl⟩ : ∃ f, fuel = f + 1 := ⟨fuel - 1, by omega⟩
    simp [send_pixels_400, loop400]
  · obtain ⟨recs, hrun, hthr, -, -⟩ :=
      send_pixels_800_spec F adv d fuel mem pixels pixels pin c hadv hfuel (by omega) hd
    have e : pixels - (pixels + 1) + 1 = 1 := by omega
    rw [e] at hthr
    have hlen := frame_length mem _ _ pixels 1 recs hthr
    have hrecs : recs.length = 1 := by
      have := congrArg List.length hthr
      simpa [bufferBytes] using this
    refine ⟨_, hrun, ?_, (frame_order mem _ _ _ _ pixels 1 c.now recs hthr).1, ?_⟩
    · show loads (frameEvents (CYCLES_800 F) (_BV pin) pixels recs) = _
      rw [loads_frame, hrecs]; rfl
    · have := spinReads_frame (CYCLES_800 F) (_BV pin) recs pixels
      show 16 ≤ (spinReads (frameEvents (CYCLES_800 F) (_BV pin) pixels recs)).length
      omega

/-- C3 at 80 MHz with `pixels == end == 16`: `send_pixels_800` fetches the byte
at address 16 and makes 16 GPIO writes. -/
theorem empty_buffer_divergence_witness :
    ((∀ k : Nat, 1 ≤ (fun _ => 2) k ∧ (fun _ => 2) k ≤ 2)
      ∧ CYCLES_800 80000000 + 2 < WORD ∧ CYCLES_800 80000000 < 101)
    ∧ send_pixels_400 80000000 (fun _ => 2) 101 (fun _ => 0xFF) 16 16 0 ⟨0, 0⟩
        = some [Event.ccount 0]
    ∧ ∃ tr, send_pixels_800 80000000 (fun _ => 2) 101 (fun _ => 0xFF) 16 16 0 ⟨0, 0⟩ = some tr
        ∧ loads tr = [16]
        ∧ gpioWrites tr = (List.replicate 8 [Event.setHigh 1, Event.setLow 1]).flatten
        ∧ 16 ≤ (spinReads tr).length := by
  have hyp : (∀ k : Nat, 1 ≤ (fun _ => 2) k ∧ (fun _ => 2) k ≤ 2)
      ∧ CYCLES_800 80000000 + 2 < WORD ∧ CYCLES_800 80000000 < 101 :=
    ⟨fun _ => ⟨by simp, Nat.le_refl 2⟩, by decide, by decide⟩
  exact ⟨hyp, empty_buffer_divergence 80000000 (fun _ => 2) 2 101 (fun _ => 0xFF) 16 0 ⟨0, 0⟩
    hyp.1 hyp.2.1 hyp.2.2⟩

/-- C9 as stated fails: at 80 MHz (`T1H = 64`, period `100`) with a clock of 7
cycles per read (`d = 7 <= period - T1H`), `send_pixels_800` sends the one-byte
buffer `[0xFF]` with 812 cycles between its first counter read and the read
before the last set-low write, more than `1 * 8 * 100`.  With `T0H = 0` even
`d = 1` breaks the bound: at 1 MHz (`T0H = T1H = 0`, period `1`) the byte
`[0x00]` takes 16 cycles, more than `1 * 8 * 1`. -/
theorem blocking_bound_counterexample :
    ((∀ k : Nat, 1 ≤ (fun _ => 7) k ∧ (fun _ => 7) k ≤ 7)
      ∧ 7 ≤ CYCLES_800 80000000 - CYCLES_800_T1H 80000000
      ∧ (send_pixels_800 80000000 (fun _ => 7) 120 (fun _ => 0xFF) 0 1 0 ⟨0, 0⟩).map
          blockingCycles = some 812
      ∧ ¬ (812 ≤ 1 * 8 * CYCLES_800 80000000))
    ∧ ((∀ k : Nat, 1 ≤ (fun _ => 1) k ∧ (fun _ => 1) k ≤ 1)
      ∧ 1 ≤ CYCLES_800 1000000 - CYCLES_800_T1H 1000000
      ∧ (send_pixels_800 1000000 (fun _ => 1) 5 (fun _ => 0) 0 1 0 ⟨0, 0⟩).map
          blockingCycles = some 16
      ∧ ¬ (16 ≤ 1 * 8 * CYCLES_800 1000000)) :=
  ⟨⟨fun _ => ⟨by simp, Nat.le_refl 7⟩, by decide, by decide, by decide⟩,
    ⟨fun _ => ⟨Nat.le_refl 1, Nat.le_refl 1⟩, by decide, by decide, by decide⟩⟩

/-- C9 (amended). Total blocking duration: `F_CPU` is a 32-bit constant, the
buffer has `n >= 1` bytes and the clock advances between 1 and `d` cycles per
read, with `T0H >= 1` and `d <= period - T1H`.  The cycles elapsed between the
first counter read of the call and the counter read before the final set-low
write are at most `n * 8 * (period + d - 1)`; for `d = 1` this is
`n * 8 * period`. -/
theorem single_bus_blocking_bound (F : Nat) (adv : Nat → Nat) (d fuel : Nat)
    (mem : Nat → Nat) (pixels n pin : Nat) (c : Clock)
    (hF : F < WORD) (hn : 1 ≤ n) (hadv : ∀ k, 1 ≤ adv k ∧ adv k ≤ d)
    (hfuel : CYCLES_400 F < fuel) (hbytes : n < fuel) :
    (1 ≤ CYCLES_800_T0H F → d ≤ CYCLES_800 F - CYCLES_800_T1H F →
      ∃ tr, send_pixels_800 F adv fuel mem pixels (pixels + n) pin c = some tr
        ∧ blockingCycles tr ≤ n * 8 * (CYCLES_800 F + d - 1))
    ∧ (1 ≤ CYCLES_400_T0H F → d ≤ CYCLES_400 F - CYCLES_400_T1H F →
      ∃ tr, send_pixels_400 F adv fuel mem pixels (pixels + n) pin c = some tr
        ∧ blockingCycles tr ≤ n * 8 * (CYCLES_400 F + d - 1)) := by
  have hd1 : 1 ≤ d := le_trans (hadv 0).1 (hadv 0).2
  have ha := hadv c.reads
  have h84 : CYCLES_800 F ≤ CYCLES_400 F := by unfold CYCLES_800 CYCLES_400; omega
  have hP8 : CYCLES_800 F < 6000 := by unfold CYCLES_800 WORD at *; omega
  have hP4 : CYCLES_400 F < 12000 := by unfold CYCLES_400 WORD at *; omega
  have h801 : CYCLES_800_T0H F ≤ CYCLES_800_T1H F := by
    unfold CYCLES_800_T0H CYCLES_800_T1H; omega
  have h401 : CYCLES_400_T0H F ≤ CYCLES_400_T1H F := by
    unfold CYCLES_400_T0H CYCLES_400_T1H; omega
  constructor
  · intro ht0 hdle
    obtain ⟨recs, hrun, hthr, hfirst, htime⟩ :=
      send_pixels_800_spec F adv d fuel mem pixels (pixels + n) pin c hadv (by omega)
        (by omega) (by unfold WORD; omega)
    have e : pixels + n - (pixels + 1) + 1 = n := by omega
    rw [e] at hthr
    exact ⟨_, hrun, frame_blocking mem _ _ _ d _ pixels n c.now recs h801 (by omega) hthr
      (fun p hp => by have := (hfirst p hp).1; omega) (htime ht0 (by omega))⟩
  · intro ht0 hdle
    obtain ⟨recs, hrun, hthr, hfirst, htime⟩ :=
      send_pixels_400_spec F adv d fuel mem pixels (pixels + n) pin c hadv hfuel
        (by omega) (by unfold WORD; omega)
    have e : pixels + n - pixels = n := by omega
    rw [e] at hthr
    exact ⟨_, hrun, frame_blocking mem _ _ _ d _ pixels n c.now recs h401 (by omega) hthr
      (fun p hp => by have := (hfirst p hp).1; omega) (htime ht0 (by omega))⟩

/-- C9 (amended) at 80 MHz, two bytes, a clock of 7 cycles per read: the
blocking time is at most `2 * 8 * 106` for the 800 kHz class and
`2 * 8 * 206` for the 400 kHz class. -/
theorem single_bus_blocking_bound_witness :
    (80000000 < WORD ∧ 1 ≤ 2 ∧ (∀ k : Nat, 1 ≤ (fun _ => 7) k ∧ (fun _ => 7) k ≤ 7)
      ∧ CYCLES_400 80000000 < 201 ∧ 2 < 201
      ∧ 1 ≤ CYCLES_800_T0H 80000000
      ∧ 7 ≤ CYCLES_800 80000000 - CYCLES_800_T1H 80000000
      ∧ 1 ≤ CYCLES_400_T0H 80000000
      ∧ 7 ≤ CYCLES_400 80000000 - CYCLES_400_T1H 80000000)
    ∧ (∃ tr, send_pixels_800 80000000 (fun _ => 7) 201 (fun _ => 0xFF) 0 (0 + 2) 0 ⟨0, 0⟩
          = some tr
        ∧ blockingCycles tr ≤ 2 * 8 * (CYCLES_800 80000000 + 7 - 1))
    ∧ (∃ tr, send_pixels_400 80000000 (fun _ => 7) 201 (fun _ => 0xFF) 0 (0 + 2) 0 ⟨0, 0⟩
          = some tr
        ∧ blockingCycles tr ≤ 2 * 8 * (CYCLES_400 80000000 + 7 - 1)) := by
  have hyp : 80000000 < WORD ∧ 1 ≤ 2 ∧ (∀ k : Nat, 1 ≤ (fun _ => 7) k ∧ (fun _ => 7) k ≤ 7)
      ∧ CYCLES_400 80000000 < 201 ∧ 2 < 201
      ∧ 1 ≤ CYCLES_800_T0H 80000000
      ∧ 7 ≤ CYCLES_800 80000000 - CYCLES_800_T1H 80000000
      ∧ 1 ≤ CYCLES_400_T0H 80000000
      ∧ 7 ≤ CYCLES_400 80000000 - CYCLES_400_T1H 80000000 :=
    ⟨by decide, by decide, fun _ => ⟨by simp, Nat.le_refl 7⟩, by decide, by decide, by decide,
      by decide, by decide, by decide⟩
  have h := single_bus_blocking_bound 80000000 (fun _ => 7) 7 201 (fun _ => 0xFF) 0 2 0
    ⟨0, 0⟩ hyp.1 hyp.2.1 hyp.2.2.1 hyp.2.2.2.1 hyp.2.2.2.2.1
  obtain ⟨h1, h2, h3, h4⟩ := hyp.2.2.2.2.2
  exact ⟨hyp, h.1 h1 h2, h.2 h3 h4⟩

theorem loads_dataTrace (tr : List Event) : loads (dataTrace tr) = loads tr := by
  induction tr with
  | nil => rfl
  | cons e es ih =>
    cases e <;> simp [dataTrace, isData, loads] at ih ⊢ <;> exact ih

theorem loads_flatMap {α : Type} (l : List α) (f : α → List Event) :
    loads (l.flatMap f) = l.flatMap (fun x => loads (f x)) := by
  induction l with
  | nil => rfl
  | cons a l ih => simp [List.flatMap_cons, loads_append, ih]

theorem loads_bytePeriodData (mem : Nat → Nat) (buses : Nat → PixelBusInfo)
    (countBuses : Nat) (cur : Nat → Nat) :
    loads (bytePeriodData mem buses countBuses cur) = (List.range countBuses).map cur := by
  unfold bytePeriodData
  rw [loads_append, loads_flatMap]
  have h1 : loads ((List.range countBuses).map (fun i => Event.load (cur i)))
      = (List.range countBuses).map cur := by
    induction (List.range countBuses) with
    | nil => rfl
    | cons a l ih => simpa [loads] using ih
  have h2 : ((List.range 8).flatMap fun x =>
      loads (bitPeriodData buses countBuses (allPins buses countBuses)
        (fun i => mem (cur i) % 256) cur x)) = [] := by
    apply List.flatMap_eq_nil_iff.2
    intro k _
    unfold bitPeriodData
    split <;> simp [loads]
  rw [h1, h2, List.append_nil]

/-! ## Claims about the multi-bus encoder -/

/-- C7. Per-bus low transition: on a clock that advances between 1 and `d`
cycles per read, the bus side of the trace of `send_multibus_pixels_800` is a
sequence of byte periods.  Each byte period first fetches one byte per bus,
at the bus's cursor; then, for each bit-index `k` (mask `0x80 >> k`), it
raises all pins, clears after the `T0H` wait the OR of the pin masks of
exactly the buses whose fetched byte has that bit clear, and clears after the
`T1H` wait the OR of the pin masks of exactly the buses whose fetched byte has
it set.  All eight bits come from the bytes fetched at the start of the
period, whatever cursor advances in between. -/
theorem multibus_low_masks (F : Nat) (adv : Nat → Nat) (d fuel : Nat)
    (mem : Nat → Nat) (buses : Nat → PixelBusInfo) (countBuses : Nat) (c : Clock)
    (hadv : ∀ k, 1 ≤ adv k ∧ adv k ≤ d) (hd : CYCLES_800 F + d ≤ WORD)
    (hfuel : CYCLES_800 F < fuel)
    (hbytes : remaining buses countBuses (startCursors buses countBuses) < fuel) :
    ∃ tr, send_multibus_pixels_800 F adv fuel mem buses countBuses c = some tr
      ∧ busView tr
        = (periodCursors buses countBuses fuel (startCursors buses countBuses)).flatMap
            (fun cur =>
              (List.range countBuses).map (fun i => BusEvent.sample (cur i)) ++
                (List.range 8).flatMap (fun k =>
                  [BusEvent.rise (allPins buses countBuses),
                   BusEvent.fall (CYCLES_800_T0H F)
                     (orPins buses countBuses
                       (fun i => mem (cur i) % 256 &&& (0x80 >>> k) == 0)),
                   BusEvent.fall (CYCLES_800_T1H F)
                     (orPins buses countBuses
                       (fun i => mem (cur i) % 256 &&& (0x80 >>> k) != 0))])) := by
  obtain ⟨recs, hrun, hlen, hall, -⟩ :=
    send_multibus_pixels_800_full F adv d fuel mem buses countBuses c hadv hfuel hbytes hd
  refine ⟨_, hrun, ?_⟩
  show busFrom 0 (multiFrameEvents F mem buses countBuses _ recs) = _
  exact busFrom_multiFrame F mem buses countBuses _ recs 0 hlen hall

/-- C7, the scenario of the claim: two buses with buffers `[0xFF]` and
`[0x00]`.  At bit-index 0 both bytes have been fetched, both pins rise in one
write (mask 3), the `T0H` clear mask is bus 1's pin (mask 2) and the `T1H`
clear mask is bus 0's pin (mask 1). -/
theorem multibus_low_masks_witness :
    ((∀ k : Nat, 1 ≤ (fun _ => 20) k ∧ (fun _ => 20) k ≤ 20)
      ∧ CYCLES_800 80000000 + 20 ≤ WORD ∧ CYCLES_800 80000000 < 101
      ∧ remaining scenarioBuses 2 (startCursors scenarioBuses 2) < 101)
    ∧ ∃ tr, send_multibus_pixels_800 80000000 (fun _ => 20) 101 scenarioMem scenarioBuses 2
          ⟨0, 0⟩ = some tr
        ∧ (busView tr).take 5
          = [BusEvent.sample 0, BusEvent.sample 10, BusEvent.rise 3,
             BusEvent.fall (CYCLES_800_T0H 80000000) 2,
             BusEvent.fall (CYCLES_800_T1H 80000000) 1] := by
  have hyp : (∀ k : Nat, 1 ≤ (fun _ => 20) k ∧ (fun _ => 20) k ≤ 20)
      ∧ CYCLES_800 80000000 + 20 ≤ WORD ∧ CYCLES_800 80000000 < 101
      ∧ remaining scenarioBuses 2 (startCursors scenarioBuses 2) < 101 :=
    ⟨fun _ => ⟨by simp, Nat.le_refl 20⟩, by decide, by decide, by decide⟩
  obtain ⟨tr, hrun, hview⟩ :=
    multibus_low_masks 80000000 (fun _ => 20) 20 101 scenarioMem scenarioBuses 2 ⟨0, 0⟩
      hyp.1 hyp.2.1 hyp.2.2.1 hyp.2.2.2
  refine ⟨hyp, tr, hrun, ?_⟩
  rw [hview]
  decide

theorem length_flatMap_const {α β : Type} (l : List α) (f : α → List β) (n : Nat)
    (h : ∀ x, (f x).length = n) : (l.flatMap f).length = l.length * n := by
  induction l with
  | nil => simp
  | cons a l ih => simp [List.flatMap_cons, h, ih, Nat.succ_mul, Nat.add_comm]

/-- C5, the code at the failing input.  With `1 <= countBuses <= 8` buffers of
`L` bytes each and `_end` one past the last byte, `send_multibus_pixels_800`
emits `8 * (L + 1)` bit periods, one byte period more than the `8 * L` of the
claim. -/
theorem multibus_bit_period_count (F : Nat) (adv : Nat → Nat) (d fuel : Nat)
    (mem : Nat → Nat) (buses : Nat → PixelBusInfo) (countBuses L : Nat) (c : Clock)
    (hN : 1 ≤ countBuses) (hN8 : countBuses ≤ 8)
    (hL : ∀ i, i < countBuses → (buses i)._end = (buses i)._pixels + L)
    (hadv : ∀ k, 1 ≤ adv k ∧ adv k ≤ d) (hd : CYCLES_800 F + d ≤ WORD)
    (hfuel : CYCLES_800 F < fuel) (hbytes : 8 * L < fuel) :
    ∃ tr, send_multibus_pixels_800 F adv fuel mem buses countBuses c = some tr
      ∧ ∃ lows : List (Nat × Nat), lows.length = 8 * (L + 1)
          ∧ gpioWrites tr = lows.flatMap (fun m =>
              [Event.setHigh (allPins buses countBuses), Event.setLow m.1, Event.setLow m.2]) := by
  obtain ⟨tr, hrun, hdata⟩ :=
    dataTrace_lockstep F adv d fuel mem buses countBuses L c hN hN8 hL hadv hfuel hbytes hd
  refine ⟨tr, hrun,
    (List.range (L + 1)).flatMap (fun j =>
      (List.range 8).map (fun k =>
        (orPins buses countBuses
          (fun i => mem (lockstepCursors buses countBuses j i) % 256 &&& (0x80 >>> k) == 0),
         orPins buses countBuses
          (fun i => mem (lockstepCursors buses countBuses j i) % 256 &&& (0x80 >>> k) != 0)))),
    ?_, ?_⟩
  · rw [length_flatMap_const _ _ 8 (fun j => by simp), List.length_range]
    omega
  · rw [← gpioWrites_dataTrace, hdata, gpioWrites_flatMap, List.flatMap_assoc]
    apply List.flatMap_congr
    intro j _
    rw [gpioWrites_bytePeriodData, List.flatMap_map]

/-- C5 in the two-bus scenario (`L = 1`): 16 bit periods are emitted, not 8. -/
theorem multibus_bit_period_count_witness :
    (1 ≤ 2 ∧ 2 ≤ 8
      ∧ (∀ i, i < 2 → (scenarioBuses i)._end = (scenarioBuses i)._pixels + 1)
      ∧ (∀ k : Nat, 1 ≤ (fun _ => 20) k ∧ (fun _ => 20) k ≤ 20)
      ∧ CYCLES_800 80000000 + 20 ≤ WORD ∧ CYCLES_800 80000000 < 101 ∧ 8 * 1 < 101)
    ∧ ∃ tr, send_multibus_pixels_800 80000000 (fun _ => 20) 101 scenarioMem scenarioBuses 2
          ⟨0, 0⟩ = some tr
        ∧ ∃ lows : List (Nat × Nat), lows.length = 8 * (1 + 1)
            ∧ gpioWrites tr = lows.flatMap (fun m =>
                [Event.setHigh (allPins scenarioBuses 2), Event.setLow m.1,
                 Event.setLow m.2]) := by
  have hyp : 1 ≤ 2 ∧ 2 ≤ 8
      ∧ (∀ i, i < 2 → (scenarioBuses i)._end = (scenarioBuses i)._pixels + 1)
      ∧ (∀ k : Nat, 1 ≤ (fun _ => 20) k ∧ (fun _ => 20) k ≤ 20)
      ∧ CYCLES_800 80000000 + 20 ≤ WORD ∧ CYCLES_800 80000000 < 101 ∧ 8 * 1 < 101 :=
    ⟨by decide, by decide, by decide, fun _ => ⟨by simp, Nat.le_refl 20⟩, by decide,
      by decide, by decide⟩
  exact ⟨hyp,
    multibus_bit_period_count 80000000 (fun _ => 20) 20 101 scenarioMem scenarioBuses 2 1
      ⟨0, 0⟩ hyp.1 hyp.2.1 hyp.2.2.1 hyp.2.2.2.1 hyp.2.2.2.2.1 hyp.2.2.2.2.2.1
      hyp.2.2.2.2.2.2⟩

/-- C8, the code at the failing input.  With `1 <= countBuses <= 8` buffers of
`L` bytes each and `_end` one past the last byte, the bytes sampled by
`send_multibus_pixels_800` are, for `j = 0, ..., L`, the byte at offset `j`
of every bus: the last byte period reads every bus at offset `L`, the address
`_end`. -/
theorem multibus_reads_at_end (F : Nat) (adv : Nat → Nat) (d fuel : Nat)
    (mem : Nat → Nat) (buses : Nat → PixelBusInfo) (countBuses L : Nat) (c : Clock)
    (hN : 1 ≤ countBuses) (hN8 : countBuses ≤ 8)
    (hL : ∀ i, i < countBuses → (buses i)._end = (buses i)._pixels + L)
    (hadv : ∀ k, 1 ≤ adv k ∧ adv k ≤ d) (hd : CYCLES_800 F + d ≤ WORD)
    (hfuel : CYCLES_800 F < fuel) (hbytes : 8 * L < fuel) :
    ∃ tr, send_multibus_pixels_800 F adv fuel mem buses countBuses c = some tr
      ∧ loads tr = (List.range (L + 1)).flatMap (fun j =>
          (List.range countBuses).map (fun i => (buses i)._pixels + j))
      ∧ ∀ i, i < countBuses → (buses i)._end ∈ loads tr := by
  obtain ⟨tr, hrun, hdata⟩ :=
    dataTrace_lockstep F adv d fuel mem buses countBuses L c hN hN8 hL hadv hfuel hbytes hd
  have hloads : loads tr = (List.range (L + 1)).flatMap (fun j =>
      (List.range countBuses).map (fun i => (buses i)._pixels + j)) := by
    rw [← loads_dataTrace, hdata, loads_flatMap]
    apply List.flatMap_congr
    intro j _
    rw [loads_bytePeriodData]
    apply List.map_congr_left
    intro i hi
    simp [lockstepCursors, List.mem_range.1 hi]
  refine ⟨tr, hrun, hloads, ?_⟩
  intro i hi
  rw [hloads, hL i hi]
  exact List.mem_flatMap.2 ⟨L, List.mem_range.2 (by omega),
    List.mem_map.2 ⟨i, List.mem_range.2 hi, rfl⟩⟩

/-- C8 in the two-bus scenario (`L = 1`): the sampled addresses are 0 and 10,
then 1 and 11, the `_end` of each bus. -/
theorem multibus_reads_at_end_witness :
    (1 ≤ 2 ∧ 2 ≤ 8
      ∧ (∀ i, i < 2 → (scenarioBuses i)._end = (scenarioBuses i)._pixels + 1)
      ∧ (∀ k : Nat, 1 ≤ (fun _ => 20) k ∧ (fun _ => 20) k ≤ 20)
      ∧ CYCLES_800 80000000 + 20 ≤ WORD ∧ CYCLES_800 80000000 < 101 ∧ 8 * 1 < 101)
    ∧ ∃ tr, send_multibus_pixels_800 80000000 (fun _ => 20) 101 scenarioMem scenarioBuses 2
          ⟨0, 0⟩ = some tr
        ∧ loads tr = [0, 10, 1, 11] := by
  have hyp : 1 ≤ 2 ∧ 2 ≤ 8
      ∧ (∀ i, i < 2 → (scenarioBuses i)._end = (scenarioBuses i)._pixels + 1)
      ∧ (∀ k : Nat, 1 ≤ (fun _ => 20) k ∧ (fun _ => 20) k ≤ 20)
      ∧ CYCLES_800 80000000 + 20 ≤ WORD ∧ CYCLES_800 80000000 < 101 ∧ 8 * 1 < 101 :=
    ⟨by decide, by decide, by decide, fun _ => ⟨by simp, Nat.le_refl 20⟩, by decide,
      by decide, by decide⟩
  obtain ⟨tr, hrun, hloads, -⟩ :=
    multibus_reads_at_end 80000000 (fun _ => 20) 20 101 scenarioMem scenarioBuses 2 1
      ⟨0, 0⟩ hyp.1 hyp.2.1 hyp.2.2.1 hyp.2.2.2.1 hyp.2.2.2.2.1 hyp.2.2.2.2.2.1
      hyp.2.2.2.2.2.2
  exact ⟨hyp, tr, hrun, by rw [hloads]; decide⟩

/-- C10, a concrete failing input.  One bus with a one-byte buffer (`_end` one
past the byte): the first byte period advances the cursor at bit-index 0; the
loop then runs a second byte period, which fetches the byte at `_end` and
advances no cursor at all. -/
theorem cursor_advance_counterexample :
    (∀ i, i < 1 → (oneBus 1 i)._end = (oneBus 1 i)._pixels + 1)
    ∧ (send_multibus_pixels_800 80000000 (fun _ => 50) 101 (fun _ => 0) (oneBus 1) 1
          ⟨0, 0⟩).map dataTrace
        = some (Event.load 0 ::
            Event.setHigh 1 :: Event.setLow 1 :: Event.cursor 0 1 :: Event.setLow 0 ::
            ((List.replicate 7 [Event.setHigh 1, Event.setLow 1, Event.setLow 0]).flatten ++
              Event.load 1 ::
              (List.replicate 8 [Event.setHigh 1, Event.setLow 1, Event.setLow 0]).flatten)) :=
  ⟨by decide, by decide⟩

/-- C10, the code at the failing input, on a clock that advances between 1
and `d` cycles per read.  The trace without its counter reads is a sequence
of byte periods; a byte period that starts with the cursors `cur` loads the
byte at `cur i` for every bus and, at bit-index `k` (`k = 0..7`), stores at
most one cursor, that of bus `k`, with the value `cur k + 1`, and does so
exactly when bus `k` exists and `cur k` is before its `_end`; no bus with
index 8 or more is ever advanced.  For `1 <= countBuses <= 8` buffers of `L`
bytes each (`_end` one past the last byte) the loop runs `L + 1` byte
periods, one more than the buffers have bytes: in each of the first `L` every
bus's cursor advances exactly once, as the claim says, but the extra last
period fetches the bytes at `_end` and advances no cursor. -/
theorem multibus_cursor_round_robin (F : Nat) (adv : Nat → Nat) (d fuel : Nat)
    (mem : Nat → Nat) (buses : Nat → PixelBusInfo) (countBuses : Nat) (c : Clock)
    (hadv : ∀ k, 1 ≤ adv k ∧ adv k ≤ d) (hd : CYCLES_800 F + d ≤ WORD)
    (hfuel : CYCLES_800 F < fuel)
    (hbytes : remaining buses countBuses (startCursors buses countBuses) < fuel) :
    ∃ tr, send_multibus_pixels_800 F adv fuel mem buses countBuses c = some tr
      ∧ dataTrace tr
        = (periodCursors buses countBuses fuel (startCursors buses countBuses)).flatMap
            (fun cur =>
              (List.range countBuses).map (fun i => Event.load (cur i)) ++
                (List.range 8).flatMap (fun k =>
                  Event.setHigh (allPins buses countBuses) ::
                  Event.setLow (orPins buses countBuses
                    (fun i => mem (cur i) % 256 &&& (0x80 >>> k) == 0)) ::
                  ((if k < countBuses ∧ cur k < (buses k)._end
                      then [Event.cursor k (cur k + 1)] else []) ++
                    [Event.setLow (orPins buses countBuses
                      (fun i => mem (cur i) % 256 &&& (0x80 >>> k) != 0))])))
      ∧ ∀ L, 1 ≤ countBuses → countBuses ≤ 8 →
          (∀ i, i < countBuses → (buses i)._end = (buses i)._pixels + L) →
          dataTrace tr
            = (List.range (L + 1)).flatMap (fun j =>
                (List.range countBuses).map (fun i => Event.load ((buses i)._pixels + j)) ++
                  (List.range 8).flatMap (fun k =>
                    Event.setHigh (allPins buses countBuses) ::
                    Event.setLow (orPins buses countBuses
                      (fun i => mem ((buses i)._pixels + j) % 256 &&& (0x80 >>> k) == 0)) ::
                    ((if k < countBuses ∧ j < L
                        then [Event.cursor k ((buses k)._pixels + j + 1)] else []) ++
                      [Event.setLow (orPins buses countBuses
                        (fun i => mem ((buses i)._pixels + j) % 256
                          &&& (0x80 >>> k) != 0))]))) := by
  obtain ⟨tr, hrun, hdata⟩ :=
    send_multibus_pixels_800_spec F adv d fuel mem buses countBuses c hadv hfuel hbytes hd
  refine ⟨tr, hrun, ?_, ?_⟩
  · rw [hdata]
    apply List.flatMap_congr
    intro cur _
    unfold bytePeriodData
    congr 1
    apply List.flatMap_congr
    intro k _
    simp only [bitPeriodData, canAdvance, decide_eq_true_eq]
  · intro L hN hN8 hL
    rw [hdata, periodCursors_start_lockstep buses countBuses L fuel hN hN8 hL hbytes,
      List.flatMap_map]
    apply List.flatMap_congr
    intro j _
    unfold bytePeriodData
    congr 1
    · apply List.map_congr_left
      intro i hi
      simp [lockstepCursors, List.mem_range.1 hi]
    · apply List.flatMap_congr
      intro k _
      have hs : ∀ i, i < countBuses →
          mem (lockstepCursors buses countBuses j i) % 256 = mem ((buses i)._pixels + j) % 256 := by
        intro i hi
        simp [lockstepCursors, hi]
      rw [bitPeriodData_congr buses countBuses (allPins buses countBuses) _
        (fun i => mem ((buses i)._pixels + j) % 256) _ hs k]
      simp only [bitPeriodData, canAdvance_lockstep buses countBuses L j hL, decide_eq_true_eq]
      by_cases hk : k < countBuses
      · simp [lockstepCursors, hk]
      · simp [hk]

/-- C10 in the two-bus scenario (one byte per bus): bus 0 advances at
bit-index 0 and bus 1 at bit-index 1 of the first byte period; the loop runs
a second byte period, which loads the bytes at both `_end` addresses and
advances nothing. -/
theorem multibus_cursor_round_robin_witness :
    ((∀ k : Nat, 1 ≤ (fun _ => 20) k ∧ (fun _ => 20) k ≤ 20)
      ∧ CYCLES_800 80000000 + 20 ≤ WORD ∧ CYCLES_800 80000000 < 101
      ∧ remaining scenarioBuses 2 (startCursors scenarioBuses 2) < 101)
    ∧ ∃ tr, send_multibus_pixels_800 80000000 (fun _ => 20) 101 scenarioMem scenarioBuses 2
          ⟨0, 0⟩ = some tr
        ∧ dataTrace tr
          = [Event.load 0, Event.load 10,
              Event.setHigh 3, Event.setLow 2, Event.cursor 0 1, Event.setLow 1,
              Event.setHigh 3, Event.setLow 2, Event.cursor 1 11, Event.setLow 1] ++
            (List.replicate 6 [Event.setHigh 3, Event.setLow 2, Event.setLow 1]).flatten ++
            [Event.load 1, Event.load 11] ++
            (List.replicate 8 [Event.setHigh 3, Event.setLow 3, Event.setLow 0]).flatten := by
  have hyp : (∀ k : Nat, 1 ≤ (fun _ => 20) k ∧ (fun _ => 20) k ≤ 20)
      ∧ CYCLES_800 80000000 + 20 ≤ WORD ∧ CYCLES_800 80000000 < 101
      ∧ remaining scenarioBuses 2 (startCursors scenarioBuses 2) < 101 :=
    ⟨fun _ => ⟨by simp, Nat.le_refl 20⟩, by decide, by decide, by decide⟩
  obtain ⟨tr, hrun, -, hlock⟩ :=
    multibus_cursor_round_robin 80000000 (fun _ => 20) 20 101 scenarioMem scenarioBuses 2
      ⟨0, 0⟩ hyp.1 hyp.2.1 hyp.2.2.1 hyp.2.2.2
  refine ⟨hyp, tr, hrun, ?_⟩
  rw [hlock 1 (by decide) (by decide) (by decide)]
  decide

/-! ## Cycle budgets -/

/-- C16. Ordering of the cycle budgets under truncating division: for every
core clock frequency `F >= 2500000`, `1 <= F/2500000 < F/1250000 < F/800000`
and `1 <= F/2000000 < F/833333 < F/400000`, so in both classes
`0 < T0H < T1H < period`; at `F = 80000000` the values are 32/64/100 and
40/96/200. -/
theorem cycle_budget_order (F : Nat) (hF : 2500000 ≤ F) :
    (1 ≤ CYCLES_800_T0H F ∧ CYCLES_800_T0H F < CYCLES_800_T1H F
      ∧ CYCLES_800_T1H F < CYCLES_800 F)
    ∧ (1 ≤ CYCLES_400_T0H F ∧ CYCLES_400_T0H F < CYCLES_400_T1H F
      ∧ CYCLES_400_T1H F < CYCLES_400 F)
    ∧ (CYCLES_800_T0H 80000000 = 32 ∧ CYCLES_800_T1H 80000000 = 64
      ∧ CYCLES_800 80000000 = 100)
    ∧ (CYCLES_400_T0H 80000000 = 40 ∧ CYCLES_400_T1H 80000000 = 96
      ∧ CYCLES_400 80000000 = 200) := by
  unfold CYCLES_800_T0H CYCLES_800_T1H CYCLES_800 CYCLES_400_T0H CYCLES_400_T1H CYCLES_400
  refine ⟨⟨?_, ?_, ?_⟩, ⟨?_, ?_, ?_⟩, ⟨?_, ?_, ?_⟩, ⟨?_, ?_, ?_⟩⟩ <;> omega

/-- C16 at the lowest admitted frequency, `F = 2500000`: the budgets are
1/2/3 and 1/3/6. -/
theorem cycle_budget_order_witness :
    2500000 ≤ 2500000
    ∧ (CYCLES_800_T0H 2500000 = 1 ∧ CYCLES_800_T1H 2500000 = 2 ∧ CYCLES_800 2500000 = 3)
    ∧ (CYCLES_400_T0H 2500000 = 1 ∧ CYCLES_400_T1H 2500000 = 3 ∧ CYCLES_400 2500000 = 6)
    ∧ (1 ≤ CYCLES_800_T0H 2500000 ∧ CYCLES_800_T0H 2500000 < CYCLES_800_T1H 2500000
      ∧ CYCLES_800_T1H 2500000 < CYCLES_800 2500000)
    ∧ (1 ≤ CYCLES_400_T0H 2500000 ∧ CYCLES_400_T0H 2500000 < CYCLES_400_T1H 2500000
      ∧ CYCLES_400_T1H 2500000 < CYCLES_400 2500000) :=
  ⟨Nat.le_refl _, by decide, by decide,
    (cycle_budget_order 2500000 (Nat.le_refl _)).1,
    (cycle_budget_order 2500000 (Nat.le_refl _)).2.1⟩

/-! ## The first bit -/

/-- A spin-wait whose threshold is already reached at its first read performs
that one read only. -/
theorem spinWait_immediate (adv : Nat → Nat) (ref thr fuel : Nat) (c : Clock)
    (r : Nat × Clock × List Event) (h : thr ≤ sub32 c.now ref)
    (hr : spinWait adv ref thr fuel c = some r) :
    r = (c.now % WORD, { now := c.now + adv c.reads, reads := c.reads + 1 },
          [Event.poll c.now thr]) := by
  cases fuel with
  | zero => simp [spinWait] at hr
  | succ fuel =>
    have hn : ¬ sub32 (c.now % WORD) ref < thr := by
      rw [sub32_mod_left]; omega
    simp only [spinWait, _getCycleCount, hn, if_false, Option.some.injEq] at hr
    exact hr.symm

/-- The reference `first read - period` makes the elapsed count at the next
read at least `period`, whatever the counter value, when that read comes
fewer than `2^32 - period` cycles later. -/
theorem first_elapsed (t0 a period : Nat) (h : period + a < WORD) :
    period ≤ sub32 (t0 + a) (sub32 (t0 % WORD) period) := by
  unfold sub32 WORD at *
  omega

theorem sendBits_first (adv : Nat → Nat) (fuel period t0h t1h pin subpix bitMask : Nat)
    (rest : List Nat) (cs : Nat) (c : Clock) (r : Nat × Clock × List Event)
    (h : period ≤ sub32 c.now cs)
    (hr : sendBits adv fuel period t0h t1h pin subpix (bitMask :: rest) cs c = some r) :
    ∃ tail, r.2.2 = Event.poll c.now period :: Event.setHigh pin :: tail := by
  simp only [sendBits] at hr
  cases h1 : spinWait adv cs period fuel c with
  | none => simp [h1] at hr
  | some r1 =>
    have e := spinWait_immediate adv cs period fuel c r1 h h1
    subst e
    simp only [h1] at hr
    split at hr
    · simp at hr
    · split at hr
      · simp at hr
      · simp only [Option.some.injEq] at hr
        subst hr
        exact ⟨_, rfl⟩

theorem loop800_first (F : Nat) (adv : Nat → Nat) (fuel : Nat) (mem : Nat → Nat)
    (end_ pin n pixels cs : Nat) (c : Clock) (tr : List Event)
    (h : CYCLES_800 F ≤ sub32 c.now cs)
    (hr : loop800 F adv fuel mem end_ pin n pixels cs c = some tr) :
    ∃ tail, tr = Event.load pixels :: Event.poll c.now (CYCLES_800 F) ::
      Event.setHigh pin :: tail := by
  cases n with
  | zero => simp [loop800] at hr
  | succ n =>
    simp only [loop800, bitMasks] at hr
    cases h1 : sendBits adv fuel (CYCLES_800 F) (CYCLES_800_T0H F) (CYCLES_800_T1H F) pin
        (mem pixels % 256) [0x80, 0x40, 0x20, 0x10, 0x08, 0x04, 0x02, 0x01] cs c with
    | none => simp [h1] at hr
    | some r =>
      obtain ⟨tail, ht⟩ := sendBits_first adv fuel _ _ _ pin _ _ _ cs c r h h1
      obtain ⟨cs1, c1, e⟩ := r
      simp only [] at ht
      subst ht
      simp only [h1] at hr
      split at hr
      · split at hr
        · simp at hr
        · simp only [Option.some.injEq] at hr
          subst hr
          exact ⟨_, rfl⟩
      · simp only [Option.some.injEq] at hr
        subst hr
        exact ⟨_, rfl⟩

theorem loop400_first (F : Nat) (adv : Nat → Nat) (fuel : Nat) (mem : Nat → Nat)
    (end_ pin n pixels cs : Nat) (c : Clock) (tr : List Event)
    (h : CYCLES_400 F ≤ sub32 c.now cs) (hlt : pixels < end_)
    (hr : loop400 F adv fuel mem end_ pin n pixels cs c = some tr) :
    ∃ tail, tr = Event.load pixels :: Event.poll c.now (CYCLES_400 F) ::
      Event.setHigh pin :: tail := by
  cases n with
  | zero => simp [loop400] at hr
  | succ n =>
    simp only [loop400, bitMasks, hlt, if_true] at hr
    cases h1 : sendBits adv fuel (CYCLES_400 F) (CYCLES_400_T0H F) (CYCLES_400_T1H F) pin
        (mem pixels % 256) [0x80, 0x40, 0x20, 0x10, 0x08, 0x04, 0x02, 0x01] cs c with
    | none => simp [h1] at hr
    | some r =>
      obtain ⟨tail, ht⟩ := sendBits_first adv fuel _ _ _ pin _ _ _ cs c r h h1
      obtain ⟨cs1, c1, e⟩ := r
      simp only [] at ht
      subst ht
      simp only [h1] at hr
      split at hr
      · simp at hr
      · simp only [Option.some.injEq] at hr
        subst hr
        exact ⟨_, rfl⟩

theorem multiBits_first (F : Nat) (adv : Nat → Nat) (fuel : Nat)
    (buses : Nat → PixelBusInfo) (countBuses all : Nat) (subpix : Nat → Nat)
    (bitMask : Nat) (rest : List Nat) (s : MultiState) (r : MultiState × List Event)
    (h : CYCLES_800 F ≤ sub32 s.clock.now s.cyclesStart)
    (hr : multiBits F adv fuel buses countBuses all subpix (bitMask :: rest) s = some r) :
    ∃ tail, r.2 = Event.poll s.clock.now (CYCLES_800 F) :: Event.setHigh all :: tail := by
  simp only [multiBits] at hr
  cases h1 : spinWait adv s.cyclesStart (CYCLES_800 F) fuel s.clock with
  | none => simp [h1] at hr
  | some r1 =>
    have e := spinWait_immediate adv s.cyclesStart (CYCLES_800 F) fuel s.clock r1 h h1
    subst e
    simp only [h1] at hr
    split at hr
    · simp at hr
    · split at hr
      · simp at hr
      · split at hr
        · simp at hr
        · simp only [Option.some.injEq] at hr
          subst hr
          exact ⟨_, rfl⟩

theorem multiLoop_first (F : Nat) (adv : Nat → Nat) (fuel : Nat) (mem : Nat → Nat)
    (buses : Nat → PixelBusInfo) (countBuses all n : Nat) (pixels subpix : Nat → Nat)
    (cs : Nat) (c : Clock) (tr : List Event)
    (h : CYCLES_800 F ≤ sub32 c.now cs)
    (hr : multiLoop F adv fuel mem buses countBuses all n pixels subpix cs c = some tr) :
    ∃ tail, tr = (List.range countBuses).map (fun i => Event.load (pixels i)) ++
      Event.poll c.now (CYCLES_800 F) :: Event.setHigh all :: tail := by
  cases n with
  | zero => simp [multiLoop] at hr
  | succ n =>
    simp only [multiLoop, bitMasks] at hr
    cases h1 : multiBits F adv fuel buses countBuses all
        (sampleBuses mem pixels countBuses subpix).1
        [0x80, 0x40, 0x20, 0x10, 0x08, 0x04, 0x02, 0x01]
        { pixels := pixels, indexNextBus := 0, morePixels := false,
          cyclesStart := cs, clock := c } with
    | none => simp [h1] at hr
    | some r =>
      obtain ⟨tail, ht⟩ := multiBits_first F adv fuel buses countBuses all _ _ _ _ r h h1
      obtain ⟨s1, e⟩ := r
      simp only [] at ht
      subst ht
      simp only [h1] at hr
      have hs : (sampleBuses mem pixels countBuses subpix).2
          = (List.range countBuses).map (fun i => Event.load (pixels i)) := by
        rw [sampleBuses_eq]
      split at hr
      · split at hr
        · simp at hr
        · simp only [Option.some.injEq] at hr
          subst hr
          rename_i x e1 heq
          rw [hs]
          exact ⟨tail ++ e1, by simp⟩
      · simp only [Option.some.injEq] at hr
        subst hr
        rw [hs]
        exact ⟨_, rfl⟩

/-- C11. Immediate trigger of the first bit.  The rising-edge reference is
initialised to `(first counter read - period) mod 2^32`; if fewer than
`2^32 - period` cycles pass between the first counter read of the call and
the next one, then, for every initial counter value, every clock and every
fuel, a trace returned by `send_pixels_800`, by `send_multibus_pixels_800`
or (for a non-empty buffer) by `send_pixels_400` starts with the initial
counter read, the byte fetches, one single read of the high-wait and the
set-high write: the first set-high follows exactly two counter reads.  On a
clock that advances between 1 and `d` cycles per read, `d` at most `2^32`
minus the bit period, the three calls do return a trace. -/
theorem first_bit_immediate (F : Nat) (adv : Nat → Nat) (fuel : Nat) (mem : Nat → Nat)
    (pixels end_ pin : Nat) (buses : Nat → PixelBusInfo) (countBuses : Nat) (c : Clock) :
    (CYCLES_800 F + adv c.reads < WORD →
      (∀ tr, send_pixels_800 F adv fuel mem pixels end_ pin c = some tr →
        ∃ rest, tr = Event.ccount c.now :: Event.load pixels ::
          Event.poll (c.now + adv c.reads) (CYCLES_800 F) :: Event.setHigh (_BV pin) :: rest)
      ∧ (∀ tr, send_multibus_pixels_800 F adv fuel mem buses countBuses c = some tr →
        ∃ rest, tr = Event.ccount c.now ::
          ((List.range countBuses).map (fun i => Event.load (buses i)._pixels) ++
            Event.poll (c.now + adv c.reads) (CYCLES_800 F) ::
              Event.setHigh (allPins buses countBuses) :: rest)))
    ∧ (CYCLES_400 F + adv c.reads < WORD → pixels < end_ →
      ∀ tr, send_pixels_400 F adv fuel mem pixels end_ pin c = some tr →
        ∃ rest, tr = Event.ccount c.now :: Event.load pixels ::
          Event.poll (c.now + adv c.reads) (CYCLES_400 F) :: Event.setHigh (_BV pin) :: rest)
    ∧ (∀ d, (∀ k, 1 ≤ adv k ∧ adv k ≤ d) → CYCLES_400 F + d ≤ WORD →
        CYCLES_400 F < fuel → end_ - pixels < fuel →
        remaining buses countBuses (startCursors buses countBuses) < fuel →
        (∃ tr, send_pixels_800 F adv fuel mem pixels end_ pin c = some tr)
        ∧ (∃ tr, send_pixels_400 F adv fuel mem pixels end_ pin c = some tr)
        ∧ (∃ tr, send_multibus_pixels_800 F adv fuel mem buses countBuses c = some tr)) := by
  refine ⟨fun h8 => ⟨?_, ?_⟩, ?_, ?_⟩
  · intro tr hr
    simp only [send_pixels_800, _getCycleCount] at hr
    split at hr
    · simp at hr
    · rename_i x e heq
      simp only [Option.some.injEq] at hr
      subst hr
      obtain ⟨tail, rfl⟩ := loop800_first F adv fuel mem end_ (_BV pin) fuel pixels _ _ e
        (first_elapsed c.now (adv c.reads) (CYCLES_800 F) h8) heq
      exact ⟨tail, rfl⟩
  · intro tr hr
    simp only [send_multibus_pixels_800, _getCycleCount, initBuses_eq] at hr
    split at hr
    · simp at hr
    · rename_i x e heq
      simp only [Option.some.injEq] at hr
      subst hr
      obtain ⟨tail, rfl⟩ := multiLoop_first F adv fuel mem buses countBuses
        (allPins buses countBuses) fuel _ _ _ _ e
        (first_elapsed c.now (adv c.reads) (CYCLES_800 F) h8) heq
      refine ⟨tail, ?_⟩
      congr 2
      apply List.map_congr_left
      intro i hi
      simp [startCursors, List.mem_range.1 hi]
  · intro h4 hlt tr hr
    simp only [send_pixels_400, _getCycleCount] at hr
    split at hr
    · simp at hr
    · rename_i x e heq
      simp only [Option.some.injEq] at hr
      subst hr
      obtain ⟨tail, rfl⟩ := loop400_first F adv fuel mem end_ (_BV pin) fuel pixels _ _ e
        (first_elapsed c.now (adv c.reads) (CYCLES_400 F) h4) hlt heq
      exact ⟨tail, rfl⟩
  · intro d hadv hd hfuel hbytes hrem
    have h84 : CYCLES_800 F ≤ CYCLES_400 F := by unfold CYCLES_800 CYCLES_400; omega
    refine ⟨?_, ?_, ?_⟩
    · obtain ⟨recs, hrun, -⟩ :=
        loop800_spec F adv d fuel mem end_ (_BV pin) hadv (by omega) (by omega) fuel pixels
          (sub32 (c.now % WORD) (CYCLES_800 F))
          { now := c.now + adv c.reads, reads := c.reads + 1 } (by omega)
      exact ⟨Event.ccount c.now :: frameEvents (CYCLES_800 F) (_BV pin) pixels recs,
        by simp only [send_pixels_800, _getCycleCount, hrun]⟩
    · obtain ⟨recs, hrun, -⟩ :=
        loop400_spec F adv d fuel mem end_ (_BV pin) hadv hfuel hd fuel pixels
          (sub32 (c.now % WORD) (CYCLES_400 F))
          { now := c.now + adv c.reads, reads := c.reads + 1 } hbytes
      exact ⟨Event.ccount c.now :: frameEvents (CYCLES_400 F) (_BV pin) pixels recs,
        by simp only [send_pixels_400, _getCycleCount, hrun]⟩
    · obtain ⟨tr, hrun, -⟩ :=
        send_multibus_pixels_800_spec F adv d fuel mem buses countBuses c hadv (by omega)
          hrem (by omega)
      exact ⟨tr, hrun⟩

/-- C11 at 80 MHz with the initial counter value 5, below both bit periods, so
that the subtraction of the period wraps: each of the three encoders returns
a trace whose first set-high write follows the initial read and one spin read
at time 25. -/
theorem first_bit_immediate_witness :
    (CYCLES_800 80000000 + (fun _ => 20) 0 < WORD
      ∧ CYCLES_400 80000000 + (fun _ => 20) 0 < WORD ∧ 0 < 2)
    ∧ (∃ rest, send_pixels_800 80000000 (fun _ => 20) 201 scenarioMem 0 2 0 ⟨5, 0⟩
        = some (Event.ccount 5 :: Event.load 0 :: Event.poll 25 100 :: Event.setHigh 1 :: rest))
    ∧ (∃ rest, send_pixels_400 80000000 (fun _ => 20) 201 scenarioMem 0 2 0 ⟨5, 0⟩
        = some (Event.ccount 5 :: Event.load 0 :: Event.poll 25 200 :: Event.setHigh 1 :: rest))
    ∧ (∃ rest, send_multibus_pixels_800 80000000 (fun _ => 20) 201 scenarioMem scenarioBuses 2
          ⟨5, 0⟩
        = some (Event.ccount 5 :: Event.load 0 :: Event.load 10 :: Event.poll 25 100 ::
            Event.setHigh 3 :: rest)) := by
  have hyp : CYCLES_800 80000000 + (fun _ => 20) 0 < WORD
      ∧ CYCLES_400 80000000 + (fun _ => 20) 0 < WORD ∧ 0 < 2 :=
    ⟨by decide, by decide, by decide⟩
  have h := first_bit_immediate 80000000 (fun _ => 20) 201 scenarioMem 0 2 0 scenarioBuses 2
    ⟨5, 0⟩
  obtain ⟨⟨t8, h8⟩, ⟨t4, h4⟩, ⟨tm, hm⟩⟩ :=
    h.2.2 20 (fun _ => ⟨by simp, Nat.le_refl 20⟩) (by decide) (by decide) (by decide)
      (by decide)
  obtain ⟨r8, e8⟩ := (h.1 hyp.1).1 t8 h8
  obtain ⟨rm, em⟩ := (h.1 hyp.1).2 tm hm
  obtain ⟨r4, e4⟩ := h.2.1 hyp.2.1 hyp.2.2 t4 h4
  exact ⟨hyp, ⟨r8, by rw [h8, e8]; rfl⟩, ⟨r4, by rw [h4, e4]; rfl⟩, ⟨rm, by rw [hm, em]; rfl⟩⟩

/-! ## Termination and cursor bounds of the multi-bus encoder -/

theorem anyAdvance_iff (buses : Nat → PixelBusInfo) (countBuses : Nat) (cur : Nat → Nat) :
    anyAdvance buses countBuses cur = true
      ↔ ∃ i, i < min countBuses 8 ∧ cur i < (buses i)._end := by
  unfold anyAdvance
  rw [List.any_eq_true]
  constructor
  · rintro ⟨i, hi, hc⟩
    have h8 := List.mem_range.1 hi
    have hc1 : i < countBuses ∧ cur i < (buses i)._end := by simpa [canAdvance] using hc
    exact ⟨i, by omega, hc1.2⟩
  · rintro ⟨i, hi, hc⟩
    exact ⟨i, List.mem_range.2 (by omega), by simp [canAdvance]; exact ⟨by omega, hc⟩⟩

/-- The byte periods that the loop runs: each one but the last starts with a
cursor that can advance and hands `nextCursors` to the following one; the
last one starts with no cursor that can advance. -/
theorem periodCursors_chain (buses : Nat → PixelBusInfo) (countBuses : Nat) :
    ∀ (n : Nat) (cur : Nat → Nat), remaining buses countBuses cur < n →
      (periodCursors buses countBuses n cur).head? = some cur
      ∧ (∀ j a b, (periodCursors buses countBuses n cur)[j]? = some a →
          (periodCursors buses countBuses n cur)[j + 1]? = some b →
          b = nextCursors buses countBuses a ∧ anyAdvance buses countBuses a = true)
      ∧ ∃ last, (periodCursors buses countBuses n cur).getLast? = some last
          ∧ anyAdvance buses countBuses last = false := by
  intro n
  induction n with
  | zero => intro cur h; omega
  | succ n ih =>
    intro cur hn
    by_cases hm : anyAdvance buses countBuses cur = true
    · have hrem := remaining_next buses countBuses cur hm
      obtain ⟨hh, hc, last, hl, hla⟩ := ih (nextCursors buses countBuses cur) (by omega)
      have hne : periodCursors buses countBuses n (nextCursors buses countBuses cur) ≠ [] := by
        intro h; rw [h] at hh; simp at hh
      simp only [periodCursors, hm, if_true]
      refine ⟨rfl, ?_, last, ?_, hla⟩
      · intro j a b ha hb
        cases j with
        | zero =>
          simp only [List.getElem?_cons_zero, Option.some.injEq] at ha
          simp only [List.getElem?_cons_succ] at hb
          subst ha
          rw [← List.head?_eq_getElem?, hh] at hb
          simp only [Option.some.injEq] at hb
          exact ⟨hb.symm, hm⟩
        | succ j =>
          simp only [List.getElem?_cons_succ] at ha hb
          exact hc j a b ha hb
      · rw [List.getLast?_cons, hl]; rfl
    · have hm' : anyAdvance buses countBuses cur = false := by simpa using hm
      simp only [periodCursors, hm', Bool.false_eq_true, if_false]
      refine ⟨rfl, ?_, cur, rfl, hm'⟩
      intro j a b _ hb
      simp at hb

/-- C12. Termination of `send_multibus_pixels_800`: for every bus list (any
lengths, any `countBuses`, also 0 or more than 8) and every clock that
advances between 1 and `d` cycles per read, `d` at most `2^32` minus the bit
period, the call returns as soon as the fuel exceeds the bit period and the
bytes ahead of the first eight cursors.  It runs the byte periods
`curs`: the first starts with the cursors at the starts of the buffers,
every byte period that is followed by another one had, among the first
`min countBuses 8` buses, a cursor strictly before its `_end` and hands on
the advanced cursors, and the last byte period is one in which none of those
buses had its cursor strictly before its `_end`. -/
theorem multibus_terminates (F : Nat) (adv : Nat → Nat) (d fuel : Nat)
    (mem : Nat → Nat) (buses : Nat → PixelBusInfo) (countBuses : Nat) (c : Clock)
    (hadv : ∀ k, 1 ≤ adv k ∧ adv k ≤ d) (hd : CYCLES_800 F + d ≤ WORD)
    (hfuel : CYCLES_800 F < fuel)
    (hbytes : remaining buses countBuses (startCursors buses countBuses) < fuel) :
    ∃ (tr : List Event) (curs : List (Nat → Nat)), send_multibus_pixels_800 F adv fuel mem buses countBuses c = some tr
      ∧ dataTrace tr = curs.flatMap (bytePeriodData mem buses countBuses)
      ∧ curs.head? = some (startCursors buses countBuses)
      ∧ (∀ j a b, curs[j]? = some a → curs[j + 1]? = some b →
          b = nextCursors buses countBuses a
            ∧ ∃ i, i < min countBuses 8 ∧ a i < (buses i)._end)
      ∧ ∃ last : Nat → Nat, curs.getLast? = some last
          ∧ ∀ i, i < min countBuses 8 → ¬ last i < (buses i)._end := by
  obtain ⟨tr, hrun, hdata⟩ :=
    send_multibus_pixels_800_spec F adv d fuel mem buses countBuses c hadv hfuel hbytes hd
  obtain ⟨hh, hc, last, hl, hla⟩ :=
    periodCursors_chain buses countBuses fuel (startCursors buses countBuses) hbytes
  refine ⟨tr, _, hrun, hdata, hh, ?_, last, hl, ?_⟩
  · intro j a b ha hb
    obtain ⟨h1, h2⟩ := hc j a b ha hb
    exact ⟨h1, (anyAdvance_iff buses countBuses a).1 h2⟩
  · intro i hi hlt
    have := (anyAdvance_iff buses countBuses last).2 ⟨i, hi, hlt⟩
    rw [hla] at this
    exact Bool.false_ne_true this

/-- C12 with nine buses of lengths 0, 1, 2, 0, 1, 2, 0, 1, 0: the call
returns. -/
theorem multibus_terminates_witness :
    ((∀ k : Nat, 1 ≤ (fun _ => 20) k ∧ (fun _ => 20) k ≤ 20)
      ∧ CYCLES_800 80000000 + 20 ≤ WORD ∧ CYCLES_800 80000000 < 101
      ∧ remaining unequalBuses 9 (startCursors unequalBuses 9) < 101)
    ∧ ∃ (tr : List Event) (curs : List (Nat → Nat)), send_multibus_pixels_800 80000000 (fun _ => 20) 101 scenarioMem
          unequalBuses 9 ⟨0, 0⟩ = some tr
        ∧ dataTrace tr = curs.flatMap (bytePeriodData scenarioMem unequalBuses 9)
        ∧ curs.head? = some (startCursors unequalBuses 9)
        ∧ (∀ j a b, curs[j]? = some a → curs[j + 1]? = some b →
            b = nextCursors unequalBuses 9 a
              ∧ ∃ i, i < min 9 8 ∧ a i < (unequalBuses i)._end)
        ∧ ∃ last : Nat → Nat, curs.getLast? = some last
            ∧ ∀ i, i < min 9 8 → ¬ last i < (unequalBuses i)._end := by
  have hyp : (∀ k : Nat, 1 ≤ (fun _ => 20) k ∧ (fun _ => 20) k ≤ 20)
      ∧ CYCLES_800 80000000 + 20 ≤ WORD ∧ CYCLES_800 80000000 < 101
      ∧ remaining unequalBuses 9 (startCursors unequalBuses 9) < 101 :=
    ⟨fun _ => ⟨by simp, Nat.le_refl 20⟩, by decide, by decide, by decide⟩
  exact ⟨hyp, multibus_terminates 80000000 (fun _ => 20) 20 101 scenarioMem unequalBuses 9
    ⟨0, 0⟩ hyp.1 hyp.2.1 hyp.2.2.1 hyp.2.2.2⟩

theorem nextCursors_step (buses : Nat → PixelBusInfo) (countBuses : Nat) (cur : Nat → Nat)
    (i : Nat) :
    cur i ≤ nextCursors buses countBuses cur i
      ∧ nextCursors buses countBuses cur i ≤ cur i + 1
      ∧ (nextCursors buses countBuses cur i ≤ (buses i)._end ∨
          nextCursors buses countBuses cur i = cur i)
      ∧ (cur i = (buses i)._end → nextCursors buses countBuses cur i = cur i) := by
  unfold nextCursors
  by_cases h : i < 8 ∧ canAdvance buses countBuses cur i = true
  · have hc : i < countBuses ∧ cur i < (buses i)._end := by simpa [canAdvance] using h.2
    rw [if_pos h]
    exact ⟨by omega, by omega, Or.inl (by omega), fun e => by omega⟩
  · rw [if_neg h]
    exact ⟨Nat.le_refl _, by omega, Or.inr rfl, fun _ => rfl⟩

theorem periodCursors_bounds (buses : Nat → PixelBusInfo) (countBuses : Nat) :
    ∀ (n : Nat) (cur : Nat → Nat),
      (∀ i, i < countBuses → (buses i)._pixels ≤ cur i ∧ cur i ≤ (buses i)._end) →
      ∀ cur1, cur1 ∈ periodCursors buses countBuses n cur →
        ∀ i, i < countBuses → (buses i)._pixels ≤ cur1 i ∧ cur1 i ≤ (buses i)._end := by
  intro n
  induction n with
  | zero => intro cur _ cur1 h; simp [periodCursors] at h
  | succ n ih =>
    intro cur hb cur1 hmem
    simp only [periodCursors, List.mem_cons] at hmem
    rcases hmem with rfl | hmem
    · exact hb
    · split at hmem
      · refine ih (nextCursors buses countBuses cur) ?_ cur1 hmem
        intro i hi
        obtain ⟨h1, h2, h3, -⟩ := nextCursors_step buses countBuses cur i
        have := hb i hi
        rcases h3 with h3 | h3 <;> omega
      · simp at hmem

theorem mem_dataTrace_cursor (tr : List Event) (i v : Nat) (h : Event.cursor i v ∈ tr) :
    Event.cursor i v ∈ dataTrace tr :=
  List.mem_filter.2 ⟨h, rfl⟩

theorem cursor_mem_bytePeriodData (mem : Nat → Nat) (buses : Nat → PixelBusInfo)
    (countBuses : Nat) (cur : Nat → Nat) (i v : Nat)
    (h : Event.cursor i v ∈ bytePeriodData mem buses countBuses cur) :
    i < countBuses ∧ cur i < (buses i)._end ∧ v = cur i + 1 := by
  unfold bytePeriodData at h
  rcases List.mem_append.1 h with h | h
  · obtain ⟨j, -, hj⟩ := List.mem_map.1 h
    cases hj
  · obtain ⟨k, -, hk⟩ := List.mem_flatMap.1 h
    unfold bitPeriodData at hk
    by_cases hc : canAdvance buses countBuses cur k = true
    · rw [if_pos hc] at hk
      have hc1 : k < countBuses ∧ cur k < (buses k)._end := by simpa [canAdvance] using hc
      simp only [List.mem_cons, List.cons_append, List.nil_append, List.mem_singleton,
        Event.cursor.injEq, reduceCtorEq, false_or, or_false] at hk
      rcases hk with ⟨rfl, rfl⟩ | hk
      · exact ⟨hc1.1, hc1.2, rfl⟩
      · simp at hk
    · rw [if_neg hc] at hk
      simp at hk

/-- C14. Cursor bounds of `send_multibus_pixels_800`: for every bus list with
`_pixels <= _end` for each bus (any lengths, any `countBuses`), on a clock
that advances between 1 and `d` cycles per read, the bytes sampled in each
byte period are those under the cursors `cur` of that byte period, one per
bus; every such cursor lies between the bus's `_pixels` and `_end`
inclusive; from one byte period to the next a cursor stays or grows by one,
and stays once it equals `_end`; every value stored into a cursor is above
`_pixels` and at most `_end`. -/
theorem multibus_cursor_bounds (F : Nat) (adv : Nat → Nat) (d fuel : Nat)
    (mem : Nat → Nat) (buses : Nat → PixelBusInfo) (countBuses : Nat) (c : Clock)
    (hse : ∀ i, i < countBuses → (buses i)._pixels ≤ (buses i)._end)
    (hadv : ∀ k, 1 ≤ adv k ∧ adv k ≤ d) (hd : CYCLES_800 F + d ≤ WORD)
    (hfuel : CYCLES_800 F < fuel)
    (hbytes : remaining buses countBuses (startCursors buses countBuses) < fuel) :
    ∃ (tr : List Event) (curs : List (Nat → Nat)),
      send_multibus_pixels_800 F adv fuel mem buses countBuses c = some tr
      ∧ loads tr = curs.flatMap (fun cur => (List.range countBuses).map cur)
      ∧ (∀ cur, cur ∈ curs → ∀ i, i < countBuses →
          (buses i)._pixels ≤ cur i ∧ cur i ≤ (buses i)._end)
      ∧ (∀ j a b, curs[j]? = some a → curs[j + 1]? = some b →
          ∀ i, a i ≤ b i ∧ b i ≤ a i + 1 ∧ (a i = (buses i)._end → b i = a i))
      ∧ (∀ i v, Event.cursor i v ∈ tr →
          i < countBuses ∧ (buses i)._pixels < v ∧ v ≤ (buses i)._end) := by
  obtain ⟨tr, hrun, hdata⟩ :=
    send_multibus_pixels_800_spec F adv d fuel mem buses countBuses c hadv hfuel hbytes hd
  obtain ⟨-, hc, -⟩ :=
    periodCursors_chain buses countBuses fuel (startCursors buses countBuses) hbytes
  have hb := periodCursors_bounds buses countBuses fuel (startCursors buses countBuses)
    (fun i hi => by simp only [startCursors, hi, if_true]; exact ⟨Nat.le_refl _, hse i hi⟩)
  refine ⟨tr, _, hrun, ?_, hb, ?_, ?_⟩
  · rw [← loads_dataTrace, hdata, loads_flatMap]
    apply List.flatMap_congr
    intro cur _
    exact loads_bytePeriodData mem buses countBuses cur
  · intro j a b ha hb1 i
    obtain ⟨rfl, -⟩ := hc j a b ha hb1
    obtain ⟨h1, h2, -, h4⟩ := nextCursors_step buses countBuses a i
    exact ⟨h1, h2, h4⟩
  · intro i v hmem
    have h1 := mem_dataTrace_cursor tr i v hmem
    rw [hdata] at h1
    obtain ⟨cur, hcur, hin⟩ := List.mem_flatMap.1 h1
    obtain ⟨hi, hlt, rfl⟩ := cursor_mem_bytePeriodData mem buses countBuses cur i v hin
    have := hb cur hcur i hi
    exact ⟨hi, by omega, by omega⟩

/-- C14 with nine buses of lengths 0, 1, 2, 0, 1, 2, 0, 1, 0. -/
theorem multibus_cursor_bounds_witness :
    ((∀ i, i < 9 → (unequalBuses i)._pixels ≤ (unequalBuses i)._end)
      ∧ (∀ k : Nat, 1 ≤ (fun _ => 20) k ∧ (fun _ => 20) k ≤ 20)
      ∧ CYCLES_800 80000000 + 20 ≤ WORD ∧ CYCLES_800 80000000 < 101
      ∧ remaining unequalBuses 9 (startCursors unequalBuses 9) < 101)
    ∧ ∃ (tr : List Event) (curs : List (Nat → Nat)),
        send_multibus_pixels_800 80000000 (fun _ => 20) 101 scenarioMem unequalBuses 9
          ⟨0, 0⟩ = some tr
        ∧ loads tr = curs.flatMap (fun cur => (List.range 9).map cur)
        ∧ (∀ cur, cur ∈ curs → ∀ i, i < 9 →
            (unequalBuses i)._pixels ≤ cur i ∧ cur i ≤ (unequalBuses i)._end)
        ∧ (∀ j a b, curs[j]? = some a → curs[j + 1]? = some b →
            ∀ i, a i ≤ b i ∧ b i ≤ a i + 1 ∧ (a i = (unequalBuses i)._end → b i = a i))
        ∧ (∀ i v, Event.cursor i v ∈ tr →
            i < 9 ∧ (unequalBuses i)._pixels < v ∧ v ≤ (unequalBuses i)._end) := by
  have hyp : (∀ i, i < 9 → (unequalBuses i)._pixels ≤ (unequalBuses i)._end)
      ∧ (∀ k : Nat, 1 ≤ (fun _ => 20) k ∧ (fun _ => 20) k ≤ 20)
      ∧ CYCLES_800 80000000 + 20 ≤ WORD ∧ CYCLES_800 80000000 < 101
      ∧ remaining unequalBuses 9 (startCursors unequalBuses 9) < 101 :=
    ⟨fun i _ => by simp [unequalBuses], fun _ => ⟨by simp, Nat.le_refl 20⟩, by decide,
      by decide, by decide⟩
  exact ⟨hyp, multibus_cursor_bounds 80000000 (fun _ => 20) 20 101 scenarioMem unequalBuses 9
    ⟨0, 0⟩ hyp.1 hyp.2.1 hyp.2.2.1 hyp.2.2.2.1 hyp.2.2.2.2⟩

/-! ## Position of the cursor advance -/

theorem cursorSlotsFrom_wait (thr t : Nat) (ts : List Nat) (rest : List Event) :
    ∀ thr0 prev, cursorSlotsFrom thr0 prev (polls thr ts ++ Event.poll t thr :: rest)
      = cursorSlotsFrom thr (some (Event.poll t thr)) rest := by
  induction ts with
  | nil => intro thr0 prev; rfl
  | cons u ts ih =>
    intro thr0 prev
    simp only [polls, List.map_cons, List.cons_append, cursorSlotsFrom]
    exact ih thr _

theorem head_wait (thr t : Nat) (ts : List Nat) (rest : List Event) :
    ∃ u, (polls thr ts ++ Event.poll t thr :: rest).head? = some (Event.poll u thr) := by
  cases ts with
  | nil => exact ⟨t, rfl⟩
  | cons u ts => exact ⟨u, rfl⟩

theorem slots_bitPeriod (F : Nat) (buses : Nat → PixelBusInfo) (countBuses all : Nat)
    (subpix cur : Nat → Nat) (k : Nat) (b : MultiBit) (rest : List Event)
    (hrest : ∀ thr prev s, s ∈ cursorSlotsFrom thr prev rest → SlotAfterT0HLow F s) :
    ∀ thr prev s,
      s ∈ cursorSlotsFrom thr prev
        (bitPeriodEvents F buses countBuses all subpix cur k b ++ rest) →
      SlotAfterT0HLow F s := by
  intro thr prev s hs
  obtain ⟨u, hu⟩ := head_wait (CYCLES_800_T1H F) b.fall1 b.wait1
    (Event.setLow (orPins buses countBuses (fun i => subpix i &&& (0x80 >>> k) != 0)) :: rest)
  by_cases hc : canAdvance buses countBuses cur k = true
  · simp only [bitPeriodEvents, hc, if_true, List.append_assoc, List.cons_append,
      List.nil_append] at hs
    rw [cursorSlotsFrom_wait] at hs
    simp only [cursorSlotsFrom] at hs
    rw [cursorSlotsFrom_wait] at hs
    simp only [cursorSlotsFrom, hu, List.mem_cons] at hs
    rcases hs with rfl | hs
    · exact ⟨_, u, rfl⟩
    · rw [cursorSlotsFrom_wait] at hs
      simp only [cursorSlotsFrom] at hs
      exact hrest _ _ s hs
  · simp only [bitPeriodEvents, hc, List.append_assoc, List.cons_append,
      List.nil_append] at hs
    rw [cursorSlotsFrom_wait] at hs
    simp only [cursorSlotsFrom] at hs
    rw [cursorSlotsFrom_wait] at hs
    simp only [cursorSlotsFrom] at hs
    simp only [Bool.false_eq_true, if_false, List.nil_append] at hs
    rw [cursorSlotsFrom_wait] at hs
    simp only [cursorSlotsFrom] at hs
    exact hrest _ _ s hs

theorem slots_bitPeriods (F : Nat) (buses : Nat → PixelBusInfo) (countBuses all : Nat)
    (subpix cur : Nat → Nat) (recs : List MultiBit) (rest : List Event)
    (hrest : ∀ thr prev s, s ∈ cursorSlotsFrom thr prev rest → SlotAfterT0HLow F s) :
    ∀ k0 thr prev s,
      s ∈ cursorSlotsFrom thr prev
        (bitPeriodsEvents F buses countBuses all subpix cur k0 recs ++ rest) →
      SlotAfterT0HLow F s := by
  induction recs with
  | nil => intro k0 thr prev s hs; exact hrest thr prev s hs
  | cons b bs ih =>
    intro k0 thr prev s hs
    simp only [bitPeriodsEvents, List.append_assoc] at hs
    exact slots_bitPeriod F buses countBuses all subpix cur k0 b _
      (fun thr1 prev1 s1 h1 => ih (k0 + 1) thr1 prev1 s1 h1) thr prev s hs

theorem slots_loads (F : Nat) (cur : Nat → Nat) (l : List Nat) (rest : List Event)
    (hrest : ∀ thr prev s, s ∈ cursorSlotsFrom thr prev rest → SlotAfterT0HLow F s) :
    ∀ thr prev s,
      s ∈ cursorSlotsFrom thr prev (l.map (fun i => Event.load (cur i)) ++ rest) →
      SlotAfterT0HLow F s := by
  induction l with
  | nil => intro thr prev s hs; exact hrest thr prev s hs
  | cons a l ih =>
    intro thr prev s hs
    simp only [List.map_cons, List.cons_append, cursorSlotsFrom] at hs
    exact ih thr _ s hs

theorem slots_multiFrame (F : Nat) (mem : Nat → Nat) (buses : Nat → PixelBusInfo)
    (countBuses : Nat) (l : List ((Nat → Nat) × List MultiBit)) :
    ∀ thr prev s,
      s ∈ cursorSlotsFrom thr prev
        (l.flatMap (fun x => bytePeriodEvents F mem buses countBuses x.1 x.2)) →
      SlotAfterT0HLow F s := by
  induction l with
  | nil => intro thr prev s hs; simp [cursorSlotsFrom] at hs
  | cons x l ih =>
    intro thr prev s hs
    simp only [List.flatMap_cons, bytePeriodEvents, List.append_assoc] at hs
    exact slots_loads F x.1 _ _
      (slots_bitPeriods F buses countBuses _ _ x.1 x.2 _ ih 0) thr prev s hs

/-- C13 as stated fails: one bus with a two-byte buffer of zero bytes (a
logical-0 bus).  In the first bit period the trace has the set-high write,
then the set-low write of the logical-0 mask, and only then the cursor
store. -/
theorem advance_position_counterexample :
    (send_multibus_pixels_800 80000000 (fun _ => 50) 101 (fun _ => 0) (oneBus 2) 1
        ⟨0, 0⟩).map (fun tr => (dataTrace tr).take 4)
      = some [Event.load 0, Event.setHigh 1, Event.setLow 1, Event.cursor 0 1] := by
  decide

/-- C13 (amended). Position of the cursor advance: on a clock that advances
between 1 and `d` cycles per read, every cursor store in a trace of
`send_multibus_pixels_800` comes right after the set-low write that follows
the `T0H` wait (the set-low of the logical-0 buses) and right before a
counter read of the `T1H` wait: the advance sits in the gap between the `T0H`
low and the `T1H` low. -/
theorem multibus_advance_position (F : Nat) (adv : Nat → Nat) (d fuel : Nat)
    (mem : Nat → Nat) (buses : Nat → PixelBusInfo) (countBuses : Nat) (c : Clock)
    (hadv : ∀ k, 1 ≤ adv k ∧ adv k ≤ d) (hd : CYCLES_800 F + d ≤ WORD)
    (hfuel : CYCLES_800 F < fuel)
    (hbytes : remaining buses countBuses (startCursors buses countBuses) < fuel) :
    ∃ tr, send_multibus_pixels_800 F adv fuel mem buses countBuses c = some tr
      ∧ ∀ s, s ∈ cursorSlots tr →
          ∃ m t, s = (CYCLES_800_T0H F, some (Event.setLow m),
            some (Event.poll t (CYCLES_800_T1H F))) := by
  obtain ⟨recs, hrun, -⟩ :=
    send_multibus_pixels_800_full F adv d fuel mem buses countBuses c hadv hfuel hbytes hd
  refine ⟨_, hrun, ?_⟩
  intro s hs
  exact slots_multiFrame F mem buses countBuses _ 0 (some (Event.ccount c.now)) s hs

/-- C13 (amended) in the two-bus scenario: the trace has two cursor stores,
both in the gap between the `T0H` low and the `T1H` low. -/
theorem multibus_advance_position_witness :
    ((∀ k : Nat, 1 ≤ (fun _ => 20) k ∧ (fun _ => 20) k ≤ 20)
      ∧ CYCLES_800 80000000 + 20 ≤ WORD ∧ CYCLES_800 80000000 < 101
      ∧ remaining scenarioBuses 2 (startCursors scenarioBuses 2) < 101)
    ∧ (send_multibus_pixels_800 80000000 (fun _ => 20) 101 scenarioMem scenarioBuses 2
        ⟨0, 0⟩).map (fun tr => (cursorSlots tr).length) = some 2
    ∧ ∃ tr, send_multibus_pixels_800 80000000 (fun _ => 20) 101 scenarioMem scenarioBuses 2
          ⟨0, 0⟩ = some tr
        ∧ ∀ s, s ∈ cursorSlots tr →
            ∃ m t, s = (CYCLES_800_T0H 80000000, some (Event.setLow m),
              some (Event.poll t (CYCLES_800_T1H 80000000))) := by
  have hyp : (∀ k : Nat, 1 ≤ (fun _ => 20) k ∧ (fun _ => 20) k ≤ 20)
      ∧ CYCLES_800 80000000 + 20 ≤ WORD ∧ CYCLES_800 80000000 < 101
      ∧ remaining scenarioBuses 2 (startCursors scenarioBuses 2) < 101 :=
    ⟨fun _ => ⟨by simp, Nat.le_refl 20⟩, by decide, by decide, by decide⟩
  exact ⟨hyp, by decide,
    multibus_advance_position 80000000 (fun _ => 20) 20 101 scenarioMem scenarioBuses 2
      ⟨0, 0⟩ hyp.1 hyp.2.1 hyp.2.2.1 hyp.2.2.2⟩

/-! ## Partition of the pin masks -/

theorem foldl_pins_testBit (pins : Nat → Nat) (sel : Nat → Bool) (b : Nat) (l : List Nat) :
    ∀ m, (l.foldl (fun m i => if sel i then m ||| pins i else m) m).testBit b
      = (m.testBit b || l.any (fun i => sel i && (pins i).testBit b)) := by
  induction l with
  | nil => intro m; simp
  | cons a l ih =>
    intro m
    rw [List.foldl_cons, ih, List.any_cons]
    cases hs : sel a <;> simp [Nat.testBit_or, Bool.or_assoc]

theorem orPins_testBit (buses : Nat → PixelBusInfo) (countBuses : Nat) (sel : Nat → Bool)
    (b : Nat) :
    (orPins buses countBuses sel).testBit b
      = (List.range countBuses).any (fun i => sel i && ((buses i)._pinRegister).testBit b) := by
  unfold orPins
  rw [foldl_pins_testBit (fun i => (buses i)._pinRegister) sel b]
  simp

theorem allPins_testBit (buses : Nat → PixelBusInfo) (countBuses : Nat) (b : Nat) :
    (allPins buses countBuses).testBit b
      = (List.range countBuses).any (fun i => ((buses i)._pinRegister).testBit b) := by
  have h := foldl_pins_testBit (fun i => (buses i)._pinRegister) (fun _ => true) b
    (List.range countBuses) 0
  simp only [if_true, Nat.zero_testBit, Bool.false_or, Bool.true_and] at h
  exact h

theorem any_split (sel p : Nat → Bool) (l : List Nat) :
    (l.any (fun i => sel i && p i) || l.any (fun i => !sel i && p i)) = l.any p := by
  induction l with
  | nil => rfl
  | cons a l ih =>
    simp only [List.any_cons]
    rw [← ih]
    cases sel a <;> cases p a <;> simp [Bool.or_comm, Bool.or_left_comm]

theorem orPins_partition (buses : Nat → PixelBusInfo) (countBuses : Nat) (sel : Nat → Bool) :
    orPins buses countBuses sel ||| orPins buses countBuses (fun i => !sel i)
      = allPins buses countBuses := by
  apply Nat.eq_of_testBit_eq
  intro b
  rw [Nat.testBit_or, orPins_testBit, orPins_testBit, allPins_testBit]
  exact any_split sel _ _

theorem orPins_disjoint (buses : Nat → PixelBusInfo) (countBuses : Nat) (sel : Nat → Bool)
    (hdis : ∀ i j, i < countBuses → j < countBuses → i ≠ j →
      (buses i)._pinRegister &&& (buses j)._pinRegister = 0) :
    orPins buses countBuses sel &&& orPins buses countBuses (fun i => !sel i) = 0 := by
  apply Nat.eq_of_testBit_eq
  intro b
  rw [Nat.testBit_and, orPins_testBit, orPins_testBit, Nat.zero_testBit]
  by_contra hne
  have hboth : (List.range countBuses).any
        (fun i => sel i && ((buses i)._pinRegister).testBit b) = true
      ∧ (List.range countBuses).any
        (fun i => !sel i && ((buses i)._pinRegister).testBit b) = true := by
    cases h1 : (List.range countBuses).any
        (fun i => sel i && ((buses i)._pinRegister).testBit b) <;>
      cases h2 : (List.range countBuses).any
        (fun i => !sel i && ((buses i)._pinRegister).testBit b) <;>
      simp [h1, h2] at hne ⊢
  obtain ⟨h1, h2⟩ := hboth
  rw [List.any_eq_true] at h1 h2
  obtain ⟨i, hi, hsi⟩ := h1
  obtain ⟨j, hj, hsj⟩ := h2
  rw [List.mem_range] at hi hj
  simp only [Bool.and_eq_true, Bool.not_eq_true'] at hsi hsj
  have hij : i ≠ j := by
    intro h
    rw [h] at hsi
    rw [hsj.1] at hsi
    exact absurd hsi.1 (by simp)
  have h0 := congrArg (fun x => x.testBit b) (hdis i j hi hj hij)
  simp only [Nat.testBit_and, Nat.zero_testBit, hsi.2, hsj.2] at h0
  exact absurd h0 (by simp)

theorem pinsAfter_append (a b : List Event) :
    ∀ s, pinsAfter s (a ++ b) = pinsAfter (pinsAfter s a) b := by
  induction a with
  | nil => intro s; rfl
  | cons e a ih =>
    intro s
    cases e <;> simp only [List.cons_append, pinsAfter] <;> exact ih _

theorem pinsAfter_gpioWrites (tr : List Event) :
    ∀ s, pinsAfter s (gpioWrites tr) = pinsAfter s tr := by
  induction tr with
  | nil => intro s; rfl
  | cons e tr ih =>
    intro s
    cases e <;> simp only [gpioWrites, pinsAfter, ih]

theorem pinsAfter_period (s all m0 m1 : Nat) (h : m0 ||| m1 = all) :
    pinsAfter s [Event.setHigh all, Event.setLow m0, Event.setLow m1] &&& all = 0 := by
  simp only [pinsAfter]
  apply Nat.eq_of_testBit_eq
  intro b
  have hb := congrArg (fun x => x.testBit b) h
  simp only [Nat.testBit_or] at hb
  simp only [Nat.testBit_and, Nat.testBit_xor, Nat.testBit_or, Nat.zero_testBit, ← hb]
  cases s.testBit b <;> cases m0.testBit b <;> cases m1.testBit b <;> rfl

theorem pinsAfter_periods (all : Nat) (lows : List (Nat × Nat))
    (h : ∀ m, m ∈ lows → m.1 ||| m.2 = all) (hne : lows ≠ []) :
    ∀ s, pinsAfter s (lows.flatMap (fun m =>
        [Event.setHigh all, Event.setLow m.1, Event.setLow m.2])) &&& all = 0 := by
  induction lows with
  | nil => exact absurd rfl hne
  | cons m rest ih =>
    intro s
    rw [List.flatMap_cons, pinsAfter_append]
    by_cases hr : rest = []
    · subst hr
      simp only [List.flatMap_nil, pinsAfter]
      exact pinsAfter_period s all m.1 m.2 (h m (List.mem_cons_self _ _))
    · exact ih (fun x hx => h x (List.mem_cons_of_mem _ hx)) hr _

theorem periodCursors_ne_nil (buses : Nat → PixelBusInfo) (countBuses fuel : Nat)
    (cur : Nat → Nat) (h : 0 < fuel) : periodCursors buses countBuses fuel cur ≠ [] := by
  cases fuel with
  | zero => omega
  | succ n => simp [periodCursors]

/-- C15. Mask partition: on a clock that advances between 1 and `d` cycles per
read, the GPIO writes of `send_multibus_pixels_800` are a non-empty sequence
of bit periods (set-high of all pins, set-low of `m.1` after the `T0H` wait,
set-low of `m.2` after the `T1H` wait) in which `m.1 ||| m.2` is the set-high
mask; when the pin masks of the buses are pairwise disjoint, `m.1` and `m.2`
are disjoint, so every raised pin is in exactly one of the two clear masks;
whatever the pin levels at entry, all bus pins are low after every bit period
and at return. -/
theorem multibus_mask_partition (F : Nat) (adv : Nat → Nat) (d fuel : Nat)
    (mem : Nat → Nat) (buses : Nat → PixelBusInfo) (countBuses : Nat) (c : Clock)
    (hadv : ∀ k, 1 ≤ adv k ∧ adv k ≤ d) (hd : CYCLES_800 F + d ≤ WORD)
    (hfuel : CYCLES_800 F < fuel)
    (hbytes : remaining buses countBuses (startCursors buses countBuses) < fuel) :
    ∃ (tr : List Event) (lows : List (Nat × Nat)),
      send_multibus_pixels_800 F adv fuel mem buses countBuses c = some tr
      ∧ gpioWrites tr = lows.flatMap (fun m =>
          [Event.setHigh (allPins buses countBuses), Event.setLow m.1, Event.setLow m.2])
      ∧ lows ≠ []
      ∧ (∀ m, m ∈ lows → m.1 ||| m.2 = allPins buses countBuses)
      ∧ ((∀ i j, i < countBuses → j < countBuses → i ≠ j →
            (buses i)._pinRegister &&& (buses j)._pinRegister = 0) →
          ∀ m, m ∈ lows → m.1 &&& m.2 = 0
            ∧ ∀ b, (allPins buses countBuses).testBit b
                = xor (m.1.testBit b) (m.2.testBit b))
      ∧ (∀ s0 k, pinsAfter s0 ((lows.take (k + 1)).flatMap (fun m =>
            [Event.setHigh (allPins buses countBuses), Event.setLow m.1, Event.setLow m.2]))
          &&& allPins buses countBuses = 0)
      ∧ ∀ s0, pinsAfter s0 tr &&& allPins buses countBuses = 0 := by
  obtain ⟨tr, hrun, hdata⟩ :=
    send_multibus_pixels_800_spec F adv d fuel mem buses countBuses c hadv hfuel hbytes hd
  have hgpio : gpioWrites tr
      = ((periodCursors buses countBuses fuel (startCursors buses countBuses)).flatMap
          (fun cur => (List.range 8).map (fun k =>
            (orPins buses countBuses (fun i => mem (cur i) % 256 &&& (0x80 >>> k) == 0),
             orPins buses countBuses
              (fun i => mem (cur i) % 256 &&& (0x80 >>> k) != 0))))).flatMap
          (fun m => [Event.setHigh (allPins buses countBuses), Event.setLow m.1,
            Event.setLow m.2]) := by
    rw [← gpioWrites_dataTrace, hdata, gpioWrites_flatMap, List.flatMap_assoc]
    apply List.flatMap_congr
    intro cur _
    rw [gpioWrites_bytePeriodData, List.flatMap_map]
  have hmem : ∀ m, m ∈ (periodCursors buses countBuses fuel
        (startCursors buses countBuses)).flatMap
          (fun cur => (List.range 8).map (fun k =>
            (orPins buses countBuses (fun i => mem (cur i) % 256 &&& (0x80 >>> k) == 0),
             orPins buses countBuses
              (fun i => mem (cur i) % 256 &&& (0x80 >>> k) != 0)))) →
      ∃ sel : Nat → Bool, m = (orPins buses countBuses sel,
        orPins buses countBuses (fun i => !sel i)) := by
    intro m hm
    rw [List.mem_flatMap] at hm
    obtain ⟨cur, -, hm⟩ := hm
    rw [List.mem_map] at hm
    obtain ⟨k, -, rfl⟩ := hm
    exact ⟨fun i => mem (cur i) % 256 &&& (0x80 >>> k) == 0, rfl⟩
  have hne : (periodCursors buses countBuses fuel (startCursors buses countBuses)).flatMap
          (fun cur => (List.range 8).map (fun k =>
            (orPins buses countBuses (fun i => mem (cur i) % 256 &&& (0x80 >>> k) == 0),
             orPins buses countBuses
              (fun i => mem (cur i) % 256 &&& (0x80 >>> k) != 0)))) ≠ [] := by
    have h0 := periodCursors_ne_nil buses countBuses fuel (startCursors buses countBuses)
      (by omega)
    cases hp : periodCursors buses countBuses fuel (startCursors buses countBuses) with
    | nil => exact absurd hp h0
    | cons a l => simp [List.flatMap_cons, List.range_succ_eq_map]
  have hpart : ∀ m, m ∈ (periodCursors buses countBuses fuel
        (startCursors buses countBuses)).flatMap
          (fun cur => (List.range 8).map (fun k =>
            (orPins buses countBuses (fun i => mem (cur i) % 256 &&& (0x80 >>> k) == 0),
             orPins buses countBuses
              (fun i => mem (cur i) % 256 &&& (0x80 >>> k) != 0)))) →
      m.1 ||| m.2 = allPins buses countBuses := by
    intro m hm
    obtain ⟨sel, rfl⟩ := hmem m hm
    exact orPins_partition buses countBuses sel
  refine ⟨tr, _, hrun, hgpio, hne, hpart, ?_, ?_, ?_⟩
  · intro hdis m hm
    obtain ⟨sel, rfl⟩ := hmem m hm
    have h1 := orPins_partition buses countBuses sel
    have h2 := orPins_disjoint buses countBuses sel hdis
    refine ⟨h2, ?_⟩
    intro b
    have hb1 := congrArg (fun x => x.testBit b) h1
    have hb2 := congrArg (fun x => x.testBit b) h2
    simp only [Nat.testBit_or, Nat.testBit_and, Nat.zero_testBit] at hb1 hb2
    rw [← hb1]
    revert hb2
    cases (orPins buses countBuses sel).testBit b <;>
      cases (orPins buses countBuses (fun i => !sel i)).testBit b <;> simp
  · intro s0 k
    apply pinsAfter_periods
    · intro m hm
      exact hpart m (List.mem_of_mem_take hm)
    · intro h
      rw [List.take_eq_nil_iff] at h
      rcases h with h | h
      · omega
      · exact hne h
  · intro s0
    rw [← pinsAfter_gpioWrites, hgpio]
    exact pinsAfter_periods _ _ hpart hne s0

/-- C15 in the two-bus scenario (pin masks 1 and 2, disjoint): the first bit
period raises mask 3 and clears masks 2 and 1, and from pin level 7 at entry
the pins outside the buses keep their level (4) at return. -/
theorem multibus_mask_partition_witness :
    ((∀ k : Nat, 1 ≤ (fun _ => 20) k ∧ (fun _ => 20) k ≤ 20)
      ∧ CYCLES_800 80000000 + 20 ≤ WORD ∧ CYCLES_800 80000000 < 101
      ∧ remaining scenarioBuses 2 (startCursors scenarioBuses 2) < 101)
    ∧ (send_multibus_pixels_800 80000000 (fun _ => 20) 101 scenarioMem scenarioBuses 2
        ⟨0, 0⟩).map (fun tr => ((gpioWrites tr).take 3, pinsAfter 7 tr))
        = some ([Event.setHigh 3, Event.setLow 2, Event.setLow 1], 4)
    ∧ ∃ (tr : List Event) (lows : List (Nat × Nat)),
      send_multibus_pixels_800 80000000 (fun _ => 20) 101 scenarioMem scenarioBuses 2
          ⟨0, 0⟩ = some tr
      ∧ gpioWrites tr = lows.flatMap (fun m =>
          [Event.setHigh (allPins scenarioBuses 2), Event.setLow m.1, Event.setLow m.2])
      ∧ lows ≠ []
      ∧ (∀ m, m ∈ lows → m.1 ||| m.2 = allPins scenarioBuses 2)
      ∧ ((∀ i j, i < 2 → j < 2 → i ≠ j →
            (scenarioBuses i)._pinRegister &&& (scenarioBuses j)._pinRegister = 0) →
          ∀ m, m ∈ lows → m.1 &&& m.2 = 0
            ∧ ∀ b, (allPins scenarioBuses 2).testBit b
                = xor (m.1.testBit b) (m.2.testBit b))
      ∧ (∀ s0 k, pinsAfter s0 ((lows.take (k + 1)).flatMap (fun m =>
            [Event.setHigh (allPins scenarioBuses 2), Event.setLow m.1, Event.setLow m.2]))
          &&& allPins scenarioBuses 2 = 0)
      ∧ ∀ s0, pinsAfter s0 tr &&& allPins scenarioBuses 2 = 0 := by
  have hyp : (∀ k : Nat, 1 ≤ (fun _ => 20) k ∧ (fun _ => 20) k ≤ 20)
      ∧ CYCLES_800 80000000 + 20 ≤ WORD ∧ CYCLES_800 80000000 < 101
      ∧ remaining scenarioBuses 2 (startCursors scenarioBuses 2) < 101 :=
    ⟨fun _ => ⟨by simp, Nat.le_refl 20⟩, by decide, by decide, by decide⟩
  exact ⟨hyp, by decide,
    multibus_mask_partition 80000000 (fun _ => 20) 20 101 scenarioMem scenarioBuses 2
      ⟨0, 0⟩ hyp.1 hyp.2.1 hyp.2.2.1 hyp.2.2.2⟩

/-! ## The synchronised rising edge -/

theorem filter_flatMap_eq {α β : Type} (p : β → Bool) (f : α → List β) (l : List α) :
    (l.flatMap f).filter p = l.flatMap (fun x => (f x).filter p) := by
  induction l with
  | nil => rfl
  | cons a l ih => simp only [List.flatMap_cons, List.filter_append, ih]

theorem filter_pinWrite_samples (cur : Nat → Nat) (l : List Nat) :
    (l.map (fun i => BusEvent.sample (cur i))).filter isPinWrite = [] := by
  induction l with
  | nil => rfl
  | cons a l ih => simp [isPinWrite, ih]

theorem filter_pinWrite_bits (all t0 t1 : Nat) (m0 m1 : Nat → Nat) (l : List Nat) :
    (l.flatMap (fun k =>
        [BusEvent.rise all, BusEvent.fall t0 (m0 k), BusEvent.fall t1 (m1 k)])).filter
        isPinWrite
      = (l.map (fun k => (m0 k, m1 k))).flatMap (fun m =>
          [BusEvent.rise all, BusEvent.fall t0 m.1, BusEvent.fall t1 m.2]) := by
  induction l with
  | nil => rfl
  | cons a l ih =>
    simp only [List.flatMap_cons, List.map_cons, List.filter_append, ih]
    simp [isPinWrite]

/-- C6. Synchronised rising edge: on a clock that advances between 1 and `d`
cycles per read (`d` at most `2^32` minus the bit period),
`send_multibus_pixels_800` returns a trace with eight bit periods for each of
its byte periods, at least eight in all.  The GPIO writes, each set-low
tagged with the threshold of the wait before it, are exactly, per bit period:
one set-high write, one set-low write after the `T0H` wait, one set-low write
after the `T1H` wait.  The mask of every set-high write is the OR of the
`_pinRegister` of all `countBuses` buses, and neither it nor the number of
bit periods depends on the bytes in memory. -/
theorem multibus_rising_edge (F : Nat) (adv : Nat → Nat) (d fuel : Nat)
    (mem : Nat → Nat) (buses : Nat → PixelBusInfo) (countBuses : Nat) (c : Clock)
    (hadv : ∀ k, 1 ≤ adv k ∧ adv k ≤ d) (hd : CYCLES_800 F + d ≤ WORD)
    (hfuel : CYCLES_800 F < fuel)
    (hbytes : remaining buses countBuses (startCursors buses countBuses) < fuel) :
    ∃ (tr : List Event) (lows : List (Nat × Nat)),
      send_multibus_pixels_800 F adv fuel mem buses countBuses c = some tr
      ∧ lows.length
          = 8 * (periodCursors buses countBuses fuel (startCursors buses countBuses)).length
      ∧ 8 ≤ lows.length
      ∧ (busView tr).filter isPinWrite = lows.flatMap (fun m =>
          [BusEvent.rise (allPins buses countBuses), BusEvent.fall (CYCLES_800_T0H F) m.1,
           BusEvent.fall (CYCLES_800_T1H F) m.2])
      ∧ gpioWrites tr = lows.flatMap (fun m =>
          [Event.setHigh (allPins buses countBuses), Event.setLow m.1, Event.setLow m.2]) := by
  obtain ⟨recs, hrun, hlen, hall, -⟩ :=
    send_multibus_pixels_800_full F adv d fuel mem buses countBuses c hadv hfuel hbytes hd
  obtain ⟨tr, hrun2, hdata⟩ :=
    send_multibus_pixels_800_spec F adv d fuel mem buses countBuses c hadv hfuel hbytes hd
  have htr : tr = Event.ccount c.now :: multiFrameEvents F mem buses countBuses
      (periodCursors buses countBuses fuel (startCursors buses countBuses)) recs :=
    Option.some.inj (hrun2.symm.trans hrun)
  have hlows : ((periodCursors buses countBuses fuel (startCursors buses countBuses)).flatMap
      (fun cur => (List.range 8).map (fun k =>
        (orPins buses countBuses (fun i => mem (cur i) % 256 &&& (0x80 >>> k) == 0),
         orPins buses countBuses (fun i => mem (cur i) % 256 &&& (0x80 >>> k) != 0))))).length
      = 8 * (periodCursors buses countBuses fuel (startCursors buses countBuses)).length := by
    rw [length_flatMap_const _ _ 8 (fun cur => by simp), Nat.mul_comm]
  have hpos : 0 < (periodCursors buses countBuses fuel
      (startCursors buses countBuses)).length :=
    List.length_pos.2 (periodCursors_ne_nil buses countBuses fuel _
      (Nat.lt_of_le_of_lt (Nat.zero_le _) hfuel))
  refine ⟨tr, _, hrun2, hlows, ?_, ?_, ?_⟩
  · rw [hlows]
    exact Nat.le_mul_of_pos_right 8 hpos
  · have hview : busView tr = busFrom 0 (multiFrameEvents F mem buses countBuses
        (periodCursors buses countBuses fuel (startCursors buses countBuses)) recs) := by
      rw [htr]
      rfl
    rw [hview, busFrom_multiFrame F mem buses countBuses _ recs 0 hlen hall,
      filter_flatMap_eq, List.flatMap_assoc]
    apply List.flatMap_congr
    intro cur _
    rw [List.filter_append, filter_pinWrite_samples, List.nil_append]
    exact filter_pinWrite_bits _ _ _ _ _ _
  · rw [← gpioWrites_dataTrace, hdata, gpioWrites_flatMap, List.flatMap_assoc]
    apply List.flatMap_congr
    intro cur _
    rw [gpioWrites_bytePeriodData, List.flatMap_map]

/-- C6 in the two-bus scenario: sixteen bit periods, every set-high write has
mask `3`, the OR of both pin masks; the first bit period raises both pins in
one write, then clears pin mask 2 after the `T0H` wait and pin mask 1 after
the `T1H` wait. -/
theorem multibus_rising_edge_witness :
    ((∀ k : Nat, 1 ≤ (fun _ => 20) k ∧ (fun _ => 20) k ≤ 20)
      ∧ CYCLES_800 80000000 + 20 ≤ WORD ∧ CYCLES_800 80000000 < 101
      ∧ remaining scenarioBuses 2 (startCursors scenarioBuses 2) < 101)
    ∧ (allPins scenarioBuses 2 = 3
      ∧ 8 * (periodCursors scenarioBuses 2 101 (startCursors scenarioBuses 2)).length = 16
      ∧ (send_multibus_pixels_800 80000000 (fun _ => 20) 101 scenarioMem scenarioBuses 2
          ⟨0, 0⟩).map (fun tr => ((busView tr).filter isPinWrite).take 3)
        = some [BusEvent.rise 3, BusEvent.fall 32 2, BusEvent.fall 64 1])
    ∧ ∃ (tr : List Event) (lows : List (Nat × Nat)),
        send_multibus_pixels_800 80000000 (fun _ => 20) 101 scenarioMem scenarioBuses 2
          ⟨0, 0⟩ = some tr
        ∧ lows.length
            = 8 * (periodCursors scenarioBuses 2 101 (startCursors scenarioBuses 2)).length
        ∧ 8 ≤ lows.length
        ∧ (busView tr).filter isPinWrite = lows.flatMap (fun m =>
            [BusEvent.rise (allPins scenarioBuses 2),
             BusEvent.fall (CYCLES_800_T0H 80000000) m.1,
             BusEvent.fall (CYCLES_800_T1H 80000000) m.2])
        ∧ gpioWrites tr = lows.flatMap (fun m =>
            [Event.setHigh (allPins scenarioBuses 2), Event.setLow m.1, Event.setLow m.2]) := by
  have hyp : (∀ k : Nat, 1 ≤ (fun _ => 20) k ∧ (fun _ => 20) k ≤ 20)
      ∧ CYCLES_800 80000000 + 20 ≤ WORD ∧ CYCLES_800 80000000 < 101
      ∧ remaining scenarioBuses 2 (startCursors scenarioBuses 2) < 101 :=
    ⟨fun _ => ⟨by simp, Nat.le_refl 20⟩, by decide, by decide, by decide⟩
  exact ⟨hyp, ⟨by decide, by decide, by decide⟩,
    multibus_rising_edge 80000000 (fun _ => 20) 20 101 scenarioMem scenarioBuses 2 ⟨0, 0⟩
      hyp.1 hyp.2.1 hyp.2.2.1 hyp.2.2.2⟩

end NeoPixel
